import Mathlib

/-! Positional tree reconciliation: parse trees, diff and patch application.

A shallow embedding of `domnode.go`, `parsetree.go` and `reconcile.go`.

* A Go `*DOMNode` is modelled as a `NodePtr`: the parse tree it lives in and the
  path of child indices leading to it from that tree's root list.  The child
  structure of a parse tree is never changed after parsing, so this path is a
  stable identity of the node, and `ParentNode` is the pointer with the last
  index dropped (`nil` for a root-level node), as the parser links it.
* The `Position` field is mutable (`RemoveNode` rewrites it), so it is a field
  of the node value and patch application threads the old tree through.
* The host document (`dom.Node`) is modelled as a finite tree `LiveNode`.
* A Go panic (index out of range, nil dereference, failed type assertion, host
  exception) is the result `none`.
-/

namespace Reconcile

/-! ## Node model (`domnode.go`) -/

def ElementNodeType : Int := 0
def CommentNodeType : Int := 1
def TextNodeType : Int := 2

/-- Source offsets of a node (`Positions` in `domnode.go`). -/
structure Positions where
  startPosition : Int
  innerStartPosition : Int
  endPosition : Int
  innerEndPosition : Int
deriving DecidableEq, Repr

structure Attribute where
  Name : String
  Value : String
deriving DecidableEq, Repr

/-- The struct `DOMNode`.  Byte slices are lists of byte values.  The fields
`ParentNode` and `tree` are pointers and live in `NodePtr`; `Contents` is never
read or written by the code and is left out. -/
inductive DOMNode where
  | mk (offsets : Positions) (NodeType : Int) (Position : List Int)
      (ChildNodes : List DOMNode) (Name : String) (Value : List Nat)
      (IsSelfClosing : Bool) (Attributes : List Attribute)
deriving Repr

namespace DOMNode

def offsets : DOMNode → Positions
  | mk o _ _ _ _ _ _ _ => o

def NodeType : DOMNode → Int
  | mk _ t _ _ _ _ _ _ => t

def Position : DOMNode → List Int
  | mk _ _ p _ _ _ _ _ => p

def ChildNodes : DOMNode → List DOMNode
  | mk _ _ _ c _ _ _ _ => c

def Name : DOMNode → String
  | mk _ _ _ _ n _ _ _ => n

def Value : DOMNode → List Nat
  | mk _ _ _ _ _ v _ _ => v

def IsSelfClosing : DOMNode → Bool
  | mk _ _ _ _ _ _ s _ => s

def Attributes : DOMNode → List Attribute
  | mk _ _ _ _ _ _ _ a => a

/-- The loop `for i, attr := range attrs` of `IsEqual`; it runs only when both
lists have the same length, so `otherAttrs[i]` is always in range. -/
def attrsEqual : List Attribute → List Attribute → Bool
  | attr :: attrs, otherAttr :: otherAttrs =>
    if attr ≠ otherAttr then false else attrsEqual attrs otherAttrs
  | _, _ => true

/-- `func (dn *DOMNode) IsEqual(b DOMNode) bool`. -/
def IsEqual (dn b : DOMNode) : Bool :=
  if dn.NodeType ≠ b.NodeType then false
  else if dn.NodeType = TextNodeType ∨ dn.NodeType = CommentNodeType then
    if dn.Value ≠ b.Value then false else true
  else if dn.NodeType = ElementNodeType then
    if dn.Name ≠ b.Name then false
    else if dn.Attributes.length ≠ b.Attributes.length then false
    else attrsEqual dn.Attributes b.Attributes
  else false

end DOMNode

/-! ## Go maps of attributes -/

/-- A Go `map[string]string`: an association list with one entry per key. -/
abbrev AttrMap := List (String × String)

/-- Lookup `m[k]` with the comma-ok result. -/
def AttrMap.find (m : AttrMap) (k : String) : Option String :=
  match m with
  | [] => none
  | (k', v) :: rest => if k' = k then some v else AttrMap.find rest k

/-- Assignment `m[k] = v`. -/
def AttrMap.assign (m : AttrMap) (k v : String) : AttrMap :=
  match m with
  | [] => [(k, v)]
  | (k', v') :: rest => if k' = k then (k', v) :: rest else (k', v') :: AttrMap.assign rest k v

/-- `func (dn *DOMNode) AttributesMap() map[string]string`.  For a node that is
not an element the result is the nil map, which behaves as the empty map under
`range` and lookup. -/
def DOMNode.AttributesMap (dn : DOMNode) : AttrMap :=
  if dn.NodeType = ElementNodeType then
    dn.Attributes.foldl (fun result attr => result.assign attr.Name attr.Value) []
  else []

/-- One execution of `range` over a map visits every entry once, in an order
that Go does not fix: a `RangeOrder` is any choice of such an order. -/
structure RangeOrder where
  visit : AttrMap → List (String × String)
  perm : ∀ m, (visit m).Perm m

/-- The order in which entries were first assigned. -/
def RangeOrder.insertion : RangeOrder := ⟨fun m => m, fun _ => List.Perm.refl _⟩

/-- The reverse of the insertion order. -/
def RangeOrder.reversed : RangeOrder := ⟨fun m => m.reverse, fun m => List.reverse_perm m⟩

/-! ## Pointers and patches (`reconcile.go`) -/

inductive TreeId where
  | old
  | new
deriving DecidableEq, Repr

/-- A `*DOMNode`: the tree and the child-index path of the node.  The empty
path stands for the tree itself, the owner of the root list. -/
structure NodePtr where
  tree : TreeId
  path : List Nat
deriving DecidableEq, Repr

/-- Pointer to `ChildNodes[i]` of the node (or root list) at `p`. -/
def NodePtr.child (p : NodePtr) (i : Nat) : NodePtr := ⟨p.tree, p.path ++ [i]⟩

/-- The field `ParentNode` of the node at `p`: `nil` for a root-level node. -/
def NodePtr.ParentNode (p : NodePtr) : Option NodePtr :=
  if p.path.length ≤ 1 then none else some ⟨p.tree, p.path.dropLast⟩

def SetNodeAttributeAction : Int := 0
def RemoveNodeAttributeAction : Int := 1
def RemoveNodeAction : Int := 2
def ReplaceNodeAction : Int := 3
def AppendChildNodeAction : Int := 4

/-- The struct `Reconciler`: one patch. -/
structure Reconciler where
  ActionType : Int
  ParentNode : Option NodePtr := none
  ChildNode : Option NodePtr := none
  ExistingNode : Option NodePtr := none
  NewNode : Option NodePtr := none
  AttributeName : String := ""
  AttributeValue : String := ""
deriving DecidableEq, Repr

abbrev Changes := List Reconciler

/-! ## Differencer (`parsetree.go`) -/

/-- `func compareAttributes(changes *[]Reconciler, a, b *DOMNode)`: the patches
it appends.  `pa` is the pointer `a`; `orderA` and `orderB` are the orders of
the two `range` loops. -/
def compareAttributes (orderA orderB : RangeOrder) (pa : NodePtr) (a b : DOMNode) : Changes :=
  let bAttributes := b.AttributesMap
  let aAttributes := a.AttributesMap
  ((orderA.visit aAttributes).filterMap fun entry =>
      match bAttributes.find entry.1 with
      | none => some { ActionType := RemoveNodeAttributeAction, ExistingNode := some pa,
                       AttributeName := entry.1 }
      | some _ => none)
  ++
  ((orderB.visit bAttributes).filterMap fun entry =>
      match aAttributes.find entry.1 with
      | none => some { ActionType := SetNodeAttributeAction, ExistingNode := some pa,
                       AttributeName := entry.1, AttributeValue := entry.2 }
      | some value =>
        if value ≠ entry.2 then
          some { ActionType := SetNodeAttributeAction, ExistingNode := some pa,
                 AttributeName := entry.1, AttributeValue := entry.2 }
        else none)

/-- The patches of the first `if`/`else if` of `compareNodes`: one per surplus
sibling.  `pa`, `pb` point to the owners of the sibling lists. -/
def surplusChanges (pa pb : NodePtr) (aCount bCount : Nat) : Changes :=
  if bCount > aCount then
    (List.range (bCount - aCount)).map fun j =>
      { ActionType := AppendChildNodeAction,
        ParentNode := (pb.child (aCount + j)).ParentNode,
        ChildNode := some (pb.child (aCount + j)) }
  else if aCount > bCount then
    (List.range (aCount - bCount)).map fun j =>
      { ActionType := RemoveNodeAction, ExistingNode := some (pa.child (bCount + j)) }
  else []

mutual
/-- The loop `for i := 0; i < minCount; i++` of `compareNodes` from index `i`
on, where the arguments are the siblings `a[i:]` and `b[i:]`.  `pa` and `pb`
point to the owners of the sibling lists, and `ord` gives the orders of the two
`range` loops run for the element at a pointer. -/
def compareLoop (ord : NodePtr → RangeOrder × RangeOrder) (pa pb : NodePtr) (i : Nat) :
    List DOMNode → List DOMNode → Changes
  | n :: a, bNode :: b => comparePair ord pa pb i n bNode ++ compareLoop ord pa pb (i + 1) a b
  | _, _ => []
/-- One iteration of that loop for `n = a[i]`, `bNode = b[i]`.  The recursive
call `compareNodes(changes, n.ChildNodes, bNode.ChildNodes)` is written out as
its body, the surplus patches followed by the loop from index 0
(see `comparePair_eq`). -/
def comparePair (ord : NodePtr → RangeOrder × RangeOrder) (pa pb : NodePtr) (i : Nat) :
    DOMNode → DOMNode → Changes
  | .mk o t p c nm v s ats, bNode =>
    if (DOMNode.mk o t p c nm v s ats).IsEqual bNode = false then
      [{ ActionType := ReplaceNodeAction, ExistingNode := some (pa.child i),
         NewNode := some (pb.child i) }]
    else if bNode.NodeType = ElementNodeType then
      compareAttributes (ord (pa.child i)).1 (ord (pa.child i)).2 (pa.child i)
          (DOMNode.mk o t p c nm v s ats) bNode
        ++ (surplusChanges (pa.child i) (pb.child i) c.length bNode.ChildNodes.length
          ++ compareLoop ord (pa.child i) (pb.child i) 0 c bNode.ChildNodes)
    else []
end

/-- `func compareNodes(changes *[]Reconciler, a, b []*DOMNode) error`: the
patches it appends to `*changes` (its error result is `nil` on every path).
`pa` and `pb` point to the owners of the sibling lists `a` and `b`. -/
def compareNodes (ord : NodePtr → RangeOrder × RangeOrder) (pa pb : NodePtr)
    (a b : List DOMNode) : Changes :=
  surplusChanges pa pb a.length b.length ++ compareLoop ord pa pb 0 a b

/-- The struct `ParseTree`: the source buffer and the root list. -/
structure ParseTree where
  src : List Nat
  ChildNodes : List DOMNode

/-- `func (t *ParseTree) Compare(other *ParseTree) (Changes, error)`. -/
def ParseTree.Compare (ord : NodePtr → RangeOrder × RangeOrder) (t other : ParseTree) :
    Except String Changes :=
  Except.ok (compareNodes ord ⟨TreeId.old, []⟩ ⟨TreeId.new, []⟩ t.ChildNodes other.ChildNodes)

/-- The `RemoveNodeAttributeAction` patch of `compareAttributes`. -/
def removeAttributeChange (pa : NodePtr) (name : String) : Reconciler :=
  { ActionType := RemoveNodeAttributeAction, ExistingNode := some pa, AttributeName := name }

/-- The `SetNodeAttributeAction` patch of `compareAttributes`. -/
def setAttributeChange (pa : NodePtr) (name value : String) : Reconciler :=
  { ActionType := SetNodeAttributeAction, ExistingNode := some pa, AttributeName := name,
    AttributeValue := value }

/-! ## Example trees -/

/-- Source offsets of the example nodes; no function of the differencer reads them. -/
def noOffsets : Positions := ⟨0, 0, 0, 0⟩

/-- An element node with the given tag name, attributes, address and children. -/
def elementNode (name : String) (attrs : List Attribute) (position : List Int)
    (children : List DOMNode) : DOMNode :=
  .mk noOffsets ElementNodeType position children name [] false attrs

/-- A text node with the given bytes and address. -/
def textNode (value : List Nat) (position : List Int) : DOMNode :=
  .mk noOffsets TextNodeType position [] "" value false []

/-- Every `range` loop visits the entries in insertion order. -/
def ordInsertion : NodePtr → RangeOrder × RangeOrder :=
  fun _ => (RangeOrder.insertion, RangeOrder.insertion)

/-! ## Predicates on parse trees used by the statements -/

mutual
/-- Every node of the subtree is an element, a comment or a text node. -/
def DOMNode.kindsOk : DOMNode → Bool
  | .mk _ t _ c _ _ _ _ =>
    (decide (t = ElementNodeType) || decide (t = CommentNodeType) || decide (t = TextNodeType))
      && kindsOkList c
/-- Every node of the forest is an element, a comment or a text node. -/
def kindsOkList : List DOMNode → Bool
  | [] => true
  | n :: rest => n.kindsOk && kindsOkList rest
end

mutual
/-- Deep agreement of two nodes: shallow-equal, and their child lists agree
deeply (same length, pairwise). -/
def deepEqual : DOMNode → DOMNode → Bool
  | .mk o t p c nm v s ats, m =>
    (DOMNode.mk o t p c nm v s ats).IsEqual m && deepEqualList c m.ChildNodes
/-- Deep agreement of two sibling lists. -/
def deepEqualList : List DOMNode → List DOMNode → Bool
  | [], [] => true
  | n :: a, m :: b => deepEqual n m && deepEqualList a b
  | _, _ => false
end

/-- The patch `ReplaceNode(target, replacement)`. -/
def replaceChange (target replacement : NodePtr) : Reconciler :=
  { ActionType := ReplaceNodeAction, ExistingNode := some target, NewNode := some replacement }

/-- The patch `AppendChild(parent, child)`. -/
def appendChange (parent : Option NodePtr) (child : NodePtr) : Reconciler :=
  { ActionType := AppendChildNodeAction, ParentNode := parent, ChildNode := some child }

/-- The patch `RemoveNode(target)`. -/
def removeChange (target : NodePtr) : Reconciler :=
  { ActionType := RemoveNodeAction, ExistingNode := some target }

/-- The tree of `<div><p>Hi</p></div>`. -/
def scenario1Old : ParseTree :=
  ⟨[], [elementNode "div" [] [0] [elementNode "p" [] [0, 0] [textNode [72, 105] [0, 0, 0]]]]⟩

/-- The tree of `<div><p>Bye</p></div>`. -/
def scenario1New : ParseTree :=
  ⟨[], [elementNode "div" [] [0] [elementNode "p" [] [0, 0] [textNode [66, 121, 101] [0, 0, 0]]]]⟩

/-- The tree of `<div id="a"></div>`. -/
def scenario2Old : ParseTree := ⟨[], [elementNode "div" [⟨"id", "a"⟩] [0] []]⟩

/-- The tree of `<div id="b"></div>`. -/
def scenario2New : ParseTree := ⟨[], [elementNode "div" [⟨"id", "b"⟩] [0] []]⟩

/-- The element `<li>1</li>` at child index 0 of the root `<ul>`. -/
def li1 : DOMNode := elementNode "li" [] [0, 0] [textNode [49] [0, 0, 0]]

/-- The element `<li>2</li>` at child index 1 of the root `<ul>`. -/
def li2 : DOMNode := elementNode "li" [] [0, 1] [textNode [50] [0, 1, 0]]

/-- The root element of `<ul><li>1</li></ul>`. -/
def ulOne : DOMNode := elementNode "ul" [] [0] [li1]

/-- The root element of `<ul><li>1</li><li>2</li></ul>`. -/
def ulTwo : DOMNode := elementNode "ul" [] [0] [li1, li2]

/-- Node `q` is the node `p` or one of its descendants (same tree, and the path
of `p` is an initial segment of the path of `q`). -/
def NodePtr.within (q p : NodePtr) : Bool :=
  decide (q.tree = p.tree) && p.path.isPrefixOf q.path

/-- The pointers a patch holds in its four node fields. -/
def Reconciler.pointers (r : Reconciler) : List NodePtr :=
  r.ExistingNode.toList ++ r.NewNode.toList ++ r.ChildNode.toList ++ r.ParentNode.toList

/-- The patch holds a pointer to `p` or to a descendant of `p`, as its target,
replacement, child or parent. -/
def Reconciler.touches (r : Reconciler) (p : NodePtr) : Bool :=
  r.pointers.any fun q => q.within p

/-! ## Host document (`dom.Node`, external) -/

/-- A node of the live document: its kind (the `NodeType` constants are
reused), tag name, attributes, text or comment data, and children. -/
inductive LiveNode where
  | mk (nodeType : Int) (tagName : String) (attributes : List Attribute) (data : List Nat)
      (childNodes : List LiveNode)
deriving Repr

namespace LiveNode

def nodeType : LiveNode → Int
  | mk t _ _ _ _ => t

def tagName : LiveNode → String
  | mk _ n _ _ _ => n

def attributes : LiveNode → List Attribute
  | mk _ _ a _ _ => a

def data : LiveNode → List Nat
  | mk _ _ _ d _ => d

/-- The host call `ChildNodes()`. -/
def childNodes : LiveNode → List LiveNode
  | mk _ _ _ _ c => c

def withChildNodes : LiveNode → List LiveNode → LiveNode
  | mk t n a d _, c => mk t n a d c

def withAttributes : LiveNode → List Attribute → LiveNode
  | mk t n _ d c, a => mk t n a d c

end LiveNode

/-- Go indexing `s[i]` with an `int` index: a panic when `i` is out of range. -/
def goIndex {α : Type} (s : List α) (i : Int) : Option α :=
  if 0 ≤ i then s[i.toNat]? else none

/-- Go slicing `s[i:j]`: a panic unless `0 ≤ i ≤ j ≤ len(s)`. -/
def goSlice {α : Type} (s : List α) (i j : Int) : Option (List α) :=
  if 0 ≤ i ∧ i ≤ j ∧ j ≤ s.length then some ((s.take j.toNat).drop i.toNat) else none

namespace LiveNode

/-- The live node reached from `root` by the child indices of `address`; the
empty address is `root` itself.  A live node is identified by its address. -/
def nodeAt : LiveNode → List Int → Option LiveNode
  | n, [] => some n
  | n, i :: rest =>
    match goIndex n.childNodes i with
    | none => none
    | some child => nodeAt child rest

/-- The document in which the node at `address` is replaced by `x` (unchanged
when there is no such node). -/
def replaceAt : LiveNode → List Int → LiveNode → LiveNode
  | _, [], x => x
  | n, i :: rest, x =>
    match goIndex n.childNodes i with
    | none => n
    | some child => n.withChildNodes (n.childNodes.set i.toNat (replaceAt child rest x))

/-- Host call `parent.AppendChild(child)` on the node at `parentRef`. -/
def appendChild (root : LiveNode) (parentRef : List Int) (child : LiveNode) : Option LiveNode :=
  match root.nodeAt parentRef with
  | none => none
  | some parent =>
    some (root.replaceAt parentRef (parent.withChildNodes (parent.childNodes ++ [child])))

/-- Host call `parent.RemoveChild(self)`: it throws unless `self` is a child of
`parent`, that is, unless the address of `self` extends that of `parent` by one
valid index. -/
def removeChild (root : LiveNode) (parentRef selfRef : List Int) : Option LiveNode :=
  match root.nodeAt parentRef, selfRef.getLast? with
  | some parent, some k =>
    if selfRef.dropLast = parentRef ∧ (goIndex parent.childNodes k).isSome then
      some (root.replaceAt parentRef (parent.withChildNodes (parent.childNodes.eraseIdx k.toNat)))
    else none
  | _, _ => none

/-- Host call `parent.ReplaceChild(newNode, existingNode)`: it throws unless
`existingNode` is a child of `parent`. -/
def replaceChild (root : LiveNode) (parentRef : List Int) (newNode : LiveNode)
    (selfRef : List Int) : Option LiveNode :=
  match root.nodeAt parentRef, selfRef.getLast? with
  | some parent, some k =>
    if selfRef.dropLast = parentRef ∧ (goIndex parent.childNodes k).isSome then
      some (root.replaceAt parentRef (parent.withChildNodes (parent.childNodes.set k.toNat newNode)))
    else none
  | _, _ => none

/-- The attribute list after the host call `SetAttribute(name, value)`: the
value of an existing attribute is overwritten in place, a new one is added last. -/
def setAttributeList : List Attribute → String → String → List Attribute
  | [], name, value => [⟨name, value⟩]
  | a :: rest, name, value =>
    if a.Name = name then ⟨name, value⟩ :: rest else a :: setAttributeList rest name value

/-- Host call `SetAttribute(name, value)` on an element. -/
def setAttribute (e : LiveNode) (name value : String) : LiveNode :=
  e.withAttributes (setAttributeList e.attributes name value)

/-- Host call `RemoveAttribute(name)` on an element. -/
def removeAttribute (e : LiveNode) (name : String) : LiveNode :=
  e.withAttributes (e.attributes.filter fun a => a.Name ≠ name)

end LiveNode

/-! ## `Locate` and `Create` (`domnode.go`) -/

/-- `func (dn *DOMNode) Locate(rootElement dom.Element) dom.Node`. -/
def DOMNode.Locate (dn : DOMNode) (rootElement : LiveNode) : Option LiveNode :=
  match dn.Position with
  | [] => none
  | first :: rest =>
    match goIndex rootElement.childNodes first with
    | none => none
    | some result =>
      rest.foldlM (fun result index => goIndex result.childNodes index) result

/-- `func (dn *DOMNode) GetHTMLContents(innerContentsOnly bool) []byte`, before
`html.UnescapeString`; `src` is `dn.tree.src`. -/
def DOMNode.GetHTMLContents (src : List Nat) (dn : DOMNode) : Option (List Nat) :=
  if dn.IsSelfClosing = true then some []
  else goSlice src dn.offsets.innerStartPosition dn.offsets.innerEndPosition

/-- `func (dn *DOMNode) Create() dom.Node`.  `host` gives the children that the
host document builds for `SetInnerHTML` of the unescaped bytes.  The result
`nil` (unknown node kind) is `none`, as the host calls that receive it throw. -/
def DOMNode.Create (host : List Nat → List LiveNode) (src : List Nat) (dn : DOMNode) :
    Option LiveNode :=
  if dn.NodeType = CommentNodeType then
    some (LiveNode.mk CommentNodeType "" [] dn.Value [])
  else if dn.NodeType = TextNodeType then
    some (LiveNode.mk TextNodeType "" [] dn.Value [])
  else if dn.NodeType = ElementNodeType then
    let element := dn.Attributes.foldl (fun e attr => e.setAttribute attr.Name attr.Value)
      (LiveNode.mk ElementNodeType dn.Name [] [] [])
    match dn.GetHTMLContents src with
    | none => none
    | some contents => some (element.withChildNodes (host contents))
  else none

/-! ## Patch application (`reconcile.go`) -/

def DOMNode.withChildNodes : DOMNode → List DOMNode → DOMNode
  | .mk o t p _ nm v s ats, c => .mk o t p c nm v s ats

def DOMNode.withPosition : DOMNode → List Int → DOMNode
  | .mk o t _ c nm v s ats, p => .mk o t p c nm v s ats

/-- Dereference of a pointer path in a root list. -/
def getNode : List DOMNode → List Nat → Option DOMNode
  | _, [] => none
  | roots, i :: rest =>
    match roots[i]? with
    | none => none
    | some n =>
      match rest with
      | [] => some n
      | _ :: _ => getNode n.ChildNodes rest

/-- The root list with the `ChildNodes` of the node at `path` (the root list
itself for the empty path) rewritten by `f`. -/
def modifyChildren : List DOMNode → List Nat → (List DOMNode → Option (List DOMNode)) →
    Option (List DOMNode)
  | roots, [], f => f roots
  | roots, i :: rest, f =>
    match roots[i]? with
    | none => none
    | some n =>
      match modifyChildren n.ChildNodes rest f with
      | none => none
      | some c => some (roots.set i (n.withChildNodes c))

/-- The state that patch application works on: the two parse trees that the
patches point into, and the live document below `rootElement`. -/
structure Heap where
  old : ParseTree
  new : ParseTree
  live : LiveNode

def Heap.tree (h : Heap) : TreeId → ParseTree
  | TreeId.old => h.old
  | TreeId.new => h.new

def Heap.setRoots (h : Heap) (t : TreeId) (roots : List DOMNode) : Heap :=
  match t with
  | TreeId.old => { h with old := { h.old with ChildNodes := roots } }
  | TreeId.new => { h with new := { h.new with ChildNodes := roots } }

/-- Dereference of a `*DOMNode`. -/
def Heap.node (h : Heap) (p : NodePtr) : Option DOMNode :=
  getNode (h.tree p.tree).ChildNodes p.path

/-- The statement shared by the three cases of the `switch` in `RemoveNode`:
`sibling.Position[len(sibling.Position)-1]` is decremented.  The `default`
case and an empty `Position` panic. -/
def decrementLast (sibling : DOMNode) : Option DOMNode :=
  if sibling.NodeType = ElementNodeType ∨ sibling.NodeType = TextNodeType ∨
      sibling.NodeType = CommentNodeType then
    match sibling.Position.getLast? with
    | none => none
    | some last => some (sibling.withPosition (sibling.Position.dropLast ++ [last - 1]))
  else none

/-- The loop `for _, sibling := range ...` of `RemoveNode` over the siblings it
is given. -/
def decrementAll : List DOMNode → Option (List DOMNode)
  | [] => some []
  | sibling :: rest =>
    match decrementLast sibling, decrementAll rest with
    | some sibling', some rest' => some (sibling' :: rest')
    | _, _ => none

/-- The loop of `RemoveNode` over `ChildNodes[lastIndex:]`: the child list
after it; the slice expression panics unless `0 ≤ lastIndex ≤ len`. -/
def renumberSiblings (lastIndex : Int) (siblings : List DOMNode) : Option (List DOMNode) :=
  if 0 ≤ lastIndex ∧ lastIndex ≤ siblings.length then
    match decrementAll (siblings.drop lastIndex.toNat) with
    | none => none
    | some tail => some (siblings.take lastIndex.toNat ++ tail)
  else none

/-- The `ChildNodes` of the node at `path`; the root list for the empty path. -/
def childrenAt (roots : List DOMNode) (path : List Nat) : Option (List DOMNode) :=
  match path with
  | [] => some roots
  | _ :: _ => (getNode roots path).map DOMNode.ChildNodes

/-- The address that the parser gives to the node at `path`. -/
def addressOf (path : List Nat) : List Int := path.map Int.ofNat

/-- An address with its last component decremented. -/
def decrementAddress (address : List Int) : List Int :=
  match address.getLast? with
  | none => address
  | some last => address.dropLast ++ [last - 1]

/-- The first lines of `ReplaceNode` and `RemoveNode`: the live parent of the
node at `p`, as an address (`rootElement` is the empty address). -/
def Heap.locateParent (h : Heap) (p : NodePtr) : Option (List Int) :=
  match p.ParentNode with
  | some pp =>
    match h.node pp with
    | none => none
    | some parentNode =>
      match parentNode.Locate h.live with
      | none => none
      | some _ => some parentNode.Position
  | none => some []

/-- `func (r *Reconciler) AppendChildNode(rootElement dom.Element)`. -/
def Reconciler.AppendChildNode (host : List Nat → List LiveNode) (r : Reconciler) (h : Heap) :
    Option Heap :=
  let parent : Option (List Int) :=
    match r.ParentNode with
    | some pp =>
      match h.node pp with
      | none => none
      | some parentNode =>
        match parentNode.Locate h.live with
        | none => none
        | some _ => some parentNode.Position
    | none => some []
  match parent, r.ChildNode with
  | some parentRef, some cp =>
    match h.node cp with
    | none => none
    | some childNode =>
      match childNode.Create host (h.tree cp.tree).src with
      | none => none
      | some child =>
        match h.live.appendChild parentRef child with
        | none => none
        | some live => some { h with live := live }
  | _, _ => none

/-- `func (r *Reconciler) ReplaceNode(rootElement dom.Element)`. -/
def Reconciler.ReplaceNode (host : List Nat → List LiveNode) (r : Reconciler) (h : Heap) :
    Option Heap :=
  match r.ExistingNode with
  | none => none
  | some ep =>
    match h.node ep, h.locateParent ep, r.NewNode with
    | some existing, some parentRef, some np =>
      match existing.Locate h.live, h.node np with
      | some _, some newParsed =>
        match newParsed.Create host (h.tree np.tree).src with
        | none => none
        | some newNode =>
          match h.live.replaceChild parentRef newNode existing.Position with
          | none => none
          | some live => some { h with live := live }
      | _, _ => none
    | _, _, _ => none

/-- `func (r *Reconciler) RemoveNode(rootElement dom.Element)`. -/
def Reconciler.RemoveNode (r : Reconciler) (h : Heap) : Option Heap :=
  match r.ExistingNode with
  | none => none
  | some ep =>
    match h.node ep, h.locateParent ep with
    | some existing, some parentRef =>
      match existing.Locate h.live with
      | none => none
      | some _ =>
        match h.live.removeChild parentRef existing.Position with
        | none => none
        | some live =>
          match ep.ParentNode with
          | none => some { h with live := live }
          | some pp =>
            match existing.Position.getLast? with
            | none => none
            | some lastIndex =>
              match modifyChildren (h.tree pp.tree).ChildNodes pp.path
                  (renumberSiblings lastIndex) with
              | none => none
              | some roots => some (Heap.setRoots { h with live := live } pp.tree roots)
    | _, _ => none

/-- `func (r *Reconciler) RemoveNodeAttribute(rootElement dom.Element)`; the
type assertion `.(dom.Element)` panics on a node that is not an element. -/
def Reconciler.RemoveNodeAttribute (r : Reconciler) (h : Heap) : Option Heap :=
  match r.ExistingNode with
  | none => none
  | some ep =>
    match h.node ep with
    | none => none
    | some existing =>
      match existing.Locate h.live with
      | none => none
      | some self =>
        if self.nodeType = ElementNodeType then
          let live := h.live.replaceAt existing.Position (self.removeAttribute r.AttributeName)
          some { h with live := live }
        else none

/-- `func (r *Reconciler) SetNodeAttribute(rootElement dom.Element)`. -/
def Reconciler.SetNodeAttribute (r : Reconciler) (h : Heap) : Option Heap :=
  match r.ExistingNode with
  | none => none
  | some ep =>
    match h.node ep with
    | none => none
    | some existing =>
      match existing.Locate h.live with
      | none => none
      | some self =>
        if self.nodeType = ElementNodeType then
          let live := h.live.replaceAt existing.Position
            (self.setAttribute r.AttributeName r.AttributeValue)
          some { h with live := live }
        else none

/-- `func (r *Reconciler) ApplyChange(rootElement dom.Element) error`: the new
state and the returned error, or `none` for a panic. -/
def Reconciler.ApplyChange (host : List Nat → List LiveNode) (r : Reconciler) (h : Heap) :
    Option (Heap × Option String) :=
  if r.ActionType = SetNodeAttributeAction then
    (r.SetNodeAttribute h).map fun h' => (h', none)
  else if r.ActionType = RemoveNodeAttributeAction then
    (r.RemoveNodeAttribute h).map fun h' => (h', none)
  else if r.ActionType = RemoveNodeAction then
    (r.RemoveNode h).map fun h' => (h', none)
  else if r.ActionType = ReplaceNodeAction then
    (r.ReplaceNode host h).map fun h' => (h', none)
  else if r.ActionType = AppendChildNodeAction then
    (r.AppendChildNode host h).map fun h' => (h', none)
  else some (h, some "Unknown action")

/-- `func (c Changes) ApplyChanges(rootElement dom.Element)`: the loop calls
`ApplyChange` on every patch in order and drops the returned error. -/
def ApplyChanges (host : List Nat → List LiveNode) : Changes → Heap → Option Heap
  | [], h => some h
  | reconciler :: rest, h =>
    match reconciler.ApplyChange host h with
    | none => none
    | some (h', _) => ApplyChanges host rest h'

/-! ## Well-formed, freshly parsed trees and their live mirror -/

mutual
/-- Every node of the subtree is an element, a comment or a text node, and only
elements have children. -/
def wellFormedNode : DOMNode → Bool
  | .mk _ t _ c _ _ _ _ =>
    (decide (t = ElementNodeType) ||
      ((decide (t = CommentNodeType) || decide (t = TextNodeType)) && c.isEmpty))
      && wellFormedList c
/-- Every tree of the forest is well formed. -/
def wellFormedList : List DOMNode → Bool
  | [] => true
  | n :: rest => wellFormedNode n && wellFormedList rest
end

mutual
/-- The address of every node of the subtree is its path of sibling indices,
as the parser assigns it; `address` is the path of the node itself. -/
def freshNode (address : List Nat) : DOMNode → Bool
  | .mk _ _ p c _ _ _ _ => decide (p = addressOf address) && freshList address 0 c
/-- The siblings are the children `i`, `i + 1`, ... of the node at `owner`, each
with a fresh subtree. -/
def freshList (owner : List Nat) (i : Nat) : List DOMNode → Bool
  | [] => true
  | n :: rest => freshNode (owner ++ [i]) n && freshList owner (i + 1) rest
end

mutual
/-- The live node that mirrors a parsed node: same kind, tag name and attribute
list for an element, same data for a text or comment node, and the mirrors of
the children in the same order. -/
def mirror : DOMNode → LiveNode
  | .mk _ t _ c nm v _ ats =>
    .mk t (if t = ElementNodeType then nm else "") (if t = ElementNodeType then ats else [])
      (if t = ElementNodeType then [] else v) (mirrorList c)
/-- The live siblings that mirror a parsed sibling list. -/
def mirrorList : List DOMNode → List LiveNode
  | [] => []
  | n :: rest => mirror n :: mirrorList rest
end

/-- A host that builds no children for any inner markup. -/
def hostNone : List Nat → List LiveNode := fun _ => []

/-- A live root element whose children mirror the forest `F`. -/
def liveRoot (F : List DOMNode) : LiveNode := .mk ElementNodeType "body" [] [] (mirrorList F)

/-! ## Notions used to relate the states of a patch application -/

/-- Creating a live node from each new-tree node that a patch of `c` inserts
(the `NewNode` of a replacement, the `ChildNode` of an append) yields the mirror
of that node's whole subtree. -/
def CreatesMirror (host : List Nat → List LiveNode) (new : ParseTree) (c : Changes) : Prop :=
  ∀ r, r ∈ c → ∀ p, (r.NewNode = some p ∨ r.ChildNode = some p) →
    ∀ n, getNode new.ChildNodes p.path = some n → n.Create host new.src = some (mirror n)

/-- The forest `F` has the node kinds of `A` at every pointer. -/
def SameKinds (A F : List DOMNode) : Prop :=
  ∀ p, (getNode F p).map DOMNode.NodeType = (getNode A p).map DOMNode.NodeType

/-- The nodes of `F` at and below the pointer `p` have the addresses they have
in `A`. -/
def SyncedAt (A F : List DOMNode) (p : List Nat) : Prop :=
  ∀ rest, (getNode F (p ++ rest)).map DOMNode.Position
    = (getNode A (p ++ rest)).map DOMNode.Position

/-- The forest `F'` has the node kinds of `F`, and the addresses of `F` except
at strict descendants of the pointer `p`. -/
def FrameAt (F F' : List DOMNode) (p : List Nat) : Prop :=
  SameKinds F F' ∧
    ∀ p', (¬ ∃ rest, rest ≠ [] ∧ p' = p ++ rest) →
      (getNode F' p').map DOMNode.Position = (getNode F p').map DOMNode.Position

/-- The node at `q`, when `q` is not the root list, has the address `q`. -/
def OwnerAt (F : List DOMNode) (q : List Nat) : Prop :=
  q ≠ [] → (getNode F q).map DOMNode.Position = some (addressOf q)

/-- The standing assumptions on the two parse trees: freshly parsed addresses
and well-formed nodes. -/
structure Setting (A B : ParseTree) : Prop where
  freshA : freshList [] 0 A.ChildNodes = true
  freshB : freshList [] 0 B.ChildNodes = true
  wfA : wellFormedList A.ChildNodes = true
  wfB : wellFormedList B.ChildNodes = true

/-- The patches of the loop of `compareNodes` on the siblings `a`, `b`, applied
to a state in which the live children mirror `a` on the common part, leave
live children that mirror `b` there, whatever the position of the siblings. -/
def LoopSim (host : List Nat → List LiveNode) (ord : NodePtr → RangeOrder × RangeOrder)
    (A B : ParseTree) (a b : List DOMNode) : Prop :=
  ∀ (q : List Nat) (i0 : Nat) (F : List DOMNode) (L X : LiveNode) (pre suf : List LiveNode),
    (∀ (t : Nat) (n : DOMNode), a[t]? = some n →
      getNode A.ChildNodes (q ++ [i0 + t]) = some n) →
    (∀ (t : Nat) (m : DOMNode), b[t]? = some m →
      getNode B.ChildNodes (q ++ [i0 + t]) = some m) →
    SameKinds A.ChildNodes F →
    (∀ t, t < min a.length b.length → SyncedAt A.ChildNodes F (q ++ [i0 + t])) →
    OwnerAt F q →
    L.nodeAt (addressOf q) = some X →
    X.childNodes = pre ++ mirrorList (a.take (min a.length b.length)) ++ suf →
    pre.length = i0 →
    CreatesMirror host B (compareLoop ord ⟨TreeId.old, q⟩ ⟨TreeId.new, q⟩ i0 a b) →
    ∃ F', ApplyChanges host (compareLoop ord ⟨TreeId.old, q⟩ ⟨TreeId.new, q⟩ i0 a b)
          ⟨⟨A.src, F⟩, B, L⟩
        = some ⟨⟨A.src, F'⟩, B, L.replaceAt (addressOf q)
            (X.withChildNodes (pre ++ mirrorList (b.take (min a.length b.length)) ++ suf))⟩ ∧
      FrameAt F F' q

/-- The patches of `compareNodes` on the child lists `a`, `b` of matched nodes,
applied to a state in which the live children mirror `a`, leave live children
that mirror `b`. -/
def NodesSim (host : List Nat → List LiveNode) (ord : NodePtr → RangeOrder × RangeOrder)
    (A B : ParseTree) (a b : List DOMNode) : Prop :=
  ∀ (q : List Nat) (F : List DOMNode) (L X : LiveNode),
    childrenAt A.ChildNodes q = some a → childrenAt B.ChildNodes q = some b →
    (q = [] → a.length = b.length) →
    SameKinds A.ChildNodes F →
    (∀ t, SyncedAt A.ChildNodes F (q ++ [t])) →
    OwnerAt F q →
    L.nodeAt (addressOf q) = some X → X.childNodes = mirrorList a →
    CreatesMirror host B (compareNodes ord ⟨TreeId.old, q⟩ ⟨TreeId.new, q⟩ a b) →
    ∃ F', ApplyChanges host (compareNodes ord ⟨TreeId.old, q⟩ ⟨TreeId.new, q⟩ a b)
          ⟨⟨A.src, F⟩, B, L⟩
        = some ⟨⟨A.src, F'⟩, B, L.replaceAt (addressOf q)
            (X.withChildNodes (mirrorList b))⟩ ∧
      FrameAt F F' q

/-- The patches of one iteration of the loop of `compareNodes` on the nodes
`n`, `m`, applied to a state in which the live node mirrors `n`, leave a live
node that mirrors `m`. -/
def PairSim (host : List Nat → List LiveNode) (ord : NodePtr → RangeOrder × RangeOrder)
    (A B : ParseTree) (n m : DOMNode) : Prop :=
  ∀ (q : List Nat) (i : Nat) (F : List DOMNode) (L : LiveNode),
    getNode A.ChildNodes (q ++ [i]) = some n → getNode B.ChildNodes (q ++ [i]) = some m →
    SameKinds A.ChildNodes F →
    SyncedAt A.ChildNodes F (q ++ [i]) →
    OwnerAt F q →
    L.nodeAt (addressOf (q ++ [i])) = some (mirror n) →
    CreatesMirror host B (comparePair ord ⟨TreeId.old, q⟩ ⟨TreeId.new, q⟩ i n m) →
    ∃ F', ApplyChanges host (comparePair ord ⟨TreeId.old, q⟩ ⟨TreeId.new, q⟩ i n m)
          ⟨⟨A.src, F⟩, B, L⟩
        = some ⟨⟨A.src, F'⟩, B, L.replaceAt (addressOf (q ++ [i])) (mirror m)⟩ ∧
      FrameAt F F' (q ++ [i])

/-- The tree of `<ul><li>1</li><li>2</li><li></li></ul>`. -/
def threeItemsOld : ParseTree :=
  ⟨[], [elementNode "ul" [] [0] [li1, li2, elementNode "li" [] [0, 2] []]]⟩

/-- The tree of `<ul><li>9</li></ul>`. -/
def oneItemNew : ParseTree :=
  ⟨[], [elementNode "ul" [] [0] [elementNode "li" [] [0, 0] [textNode [57] [0, 0, 0]]]]⟩

/-! ## The patch order of `compareNodes`, in the words of the specification -/

/-- The surplus patches: `AppendChild` for `new[len(old)]`, `new[len(old)+1]`, ...
when `new` is longer (parent: the parent of that new sibling), `RemoveNode` for
`old[len(new)]`, `old[len(new)+1]`, ... when `old` is longer, none otherwise. -/
def surplusSpec (pa pb : NodePtr) (old new : List DOMNode) : Changes :=
  if old.length < new.length then
    (List.range (new.length - old.length)).map fun j =>
      appendChange (pb.child (old.length + j)).ParentNode (pb.child (old.length + j))
  else if new.length < old.length then
    (List.range (old.length - new.length)).map fun j => removeChange (pa.child (new.length + j))
  else []

/-- The patches that sibling position `i` contributes, given the patches
`below` of the recursive comparison of the two child lists: a replacement for
a pair that is not shallow-equal, the attribute patches followed by `below` for
a shallow-equal pair of elements, nothing for an equal text or comment pair. -/
def positionSpec (ord : NodePtr → RangeOrder × RangeOrder) (pa pb : NodePtr) (i : Nat)
    (n m : DOMNode) (below : Changes) : Changes :=
  if n.IsEqual m = true then
    if n.NodeType = ElementNodeType ∧ m.NodeType = ElementNodeType then
      compareAttributes (ord (pa.child i)).1 (ord (pa.child i)).2 (pa.child i) n m ++ below
    else []
  else [replaceChange (pa.child i) (pb.child i)]

/-! ## Tree builder (`parsetree.go`) -/

/-- The loop `for i := n; i >= m; i--` of `ReverseFind`, started at index `i`
with `steps` iterations left (`i - m + 1` of them): the index found, `-1` when
the loop runs out, `none` when `pt.src[i]` is out of range. -/
def reverseScan (src : List Nat) (b : Nat) : Nat → Int → Option Int
  | 0, _ => some (-1)
  | steps + 1, i =>
    match goIndex src i with
    | none => none
    | some x => if x = b then some i else reverseScan src b steps (i - 1)

/-- `func (pt *ParseTree) ReverseFind(m int, n int, b byte) (int, error)`:
the returned index and error, or `none` for a panic. -/
def ParseTree.ReverseFind (pt : ParseTree) (m n : Int) (b : Nat) : Option (Int × Option String) :=
  if n ≥ pt.src.length ∨ n < m then some (-1, some "invalid value for n")
  else if m ≥ pt.src.length ∨ m < 0 then some (-1, some "invalid value for m")
  else
    match reverseScan pt.src b (n - m + 1).toNat n with
    | none => none
    | some i => some (i, none)

/-! ## Example states of the patch application -/

/-- A patch whose action type is none of the five known kinds. -/
def unknownChange : Reconciler := { ActionType := 7 }

/-- The old tree `<ul><li>1</li><li>2</li></ul>` with its live mirror. -/
def ulTwoHeap : Heap := ⟨⟨[], [ulTwo]⟩, ⟨[], []⟩, liveRoot [ulTwo]⟩

/-- The root-level siblings of `<p></p><b></b>`. -/
def twoRoots : List DOMNode := [elementNode "p" [] [0] [], elementNode "b" [] [1] []]

/-- The old tree `<p></p><b></b>` with its live mirror. -/
def twoRootsHeap : Heap := ⟨⟨[], twoRoots⟩, ⟨[], []⟩, liveRoot twoRoots⟩

/-- The element `<li>k</li>` (one digit) at child index `k` of the root `<ul>`. -/
def liAt (k : Nat) : DOMNode := elementNode "li" [] [0, k] [textNode [48 + k] [0, k, 0]]

/-- The root element of `<ul><li>0</li><li>1</li><li>2</li><li>3</li></ul>`. -/
def ulFour : DOMNode := elementNode "ul" [] [0] [liAt 0, liAt 1, liAt 2, liAt 3]

/-- The old tree of `ulFour` with its live mirror. -/
def ulFourHeap : Heap := ⟨⟨[], [ulFour]⟩, ⟨[], []⟩, liveRoot [ulFour]⟩

/-- The text of the live node that the old-tree node at `path` locates: the
data of the first child of `Locate`, `none` when `Locate` finds no node. -/
def locatedText (h : Heap) (path : List Nat) : Option (List (List Nat)) :=
  match getNode h.old.ChildNodes path with
  | none => none
  | some n => (n.Locate h.live).map fun l => l.childNodes.map LiveNode.data

/-- The tag name of the live node that the old-tree node at `path` locates. -/
def locatedTag (h : Heap) (path : List Nat) : Option String :=
  match getNode h.old.ChildNodes path with
  | none => none
  | some n => (n.Locate h.live).map LiveNode.tagName

/-- The token kinds of `golang.org/x/net/html`. -/
inductive TokenType where
  | ErrorToken
  | TextToken
  | StartTagToken
  | EndTagToken
  | SelfClosingTagToken
  | CommentToken
  | DoctypeToken
deriving DecidableEq, Repr

/-- The struct `html.Attribute`. -/
structure HtmlAttribute where
  Namespace : String
  Key : String
  Val : String
deriving DecidableEq, Repr

/-- The struct `html.Token`; `Kind` is its field `Type`. -/
structure Token where
  Kind : TokenType
  Data : String
  Attr : List HtmlAttribute
deriving DecidableEq, Repr

/-- The keys of the map `emptyTags`. -/
def emptyTags : List String :=
  ["input", "area", "base", "br", "col", "embed", "hr", "img", "keygen", "link", "meta",
    "param", "source", "track", "wbr"]

/-- `func IsEmptyElement(tag string) bool`. -/
def IsEmptyElement (tag : String) : Bool := decide (tag ∈ emptyTags)

/-- The conversion `[]byte(s)`: the UTF-8 bytes of the string. -/
def goBytes (s : String) : List Nat := (s.data.flatMap String.utf8EncodeChar).map UInt8.toNat

/-- The result of one call of `parse`: a panic, the return `nil, err` (the only
caller drops the tree then), or the tree after the call with the returned
`next`.  A `*DOMNode` of the tree under construction is the path of child
indices from the root list; `nil` is `none`. -/
inductive ParseOutcome where
  | panic
  | failed (err : String)
  | done (pt : ParseTree) (next : Option (List Nat))

def DOMNode.withIsSelfClosing : DOMNode → Bool → DOMNode
  | .mk o t p c nm v _ ats, s => .mk o t p c nm v s ats

def DOMNode.withOffsets : DOMNode → Positions → DOMNode
  | .mk _ t p c nm v s ats, o => .mk o t p c nm v s ats

/-- The root list with the node at `path` rewritten by `f`: an assignment
through a `*DOMNode`. -/
def updateNode : List DOMNode → List Nat → (DOMNode → DOMNode) → Option (List DOMNode)
  | _, [], _ => none
  | roots, i :: rest, f =>
    match roots[i]? with
    | none => none
    | some n =>
      match rest with
      | [] => some (roots.set i (f n))
      | _ :: _ =>
        match updateNode n.ChildNodes rest f with
        | none => none
        | some c => some (roots.set i (n.withChildNodes c))

/-- The field `ParentNode` of the node at `path`, as `parse` sets it: the node
it was linked under, `nil` for a node of the root list. -/
def parentPath (path : List Nat) : Option (List Nat) :=
  if path.length ≤ 1 then none else some path.dropLast

/-- The statement `current.ChildNodes = append(current.ChildNodes, node)`. -/
def linkChild (roots : List DOMNode) (cp : List Nat) (node : DOMNode) : Option (List DOMNode) :=
  updateNode roots cp fun c => c.withChildNodes (c.ChildNodes ++ [node])

/-- The element that the first block of `parse` builds for a start tag or
self-closing tag, with the fields it has when `parse` returns. -/
def startTagNode (token : Token) (position : List Int) (startPosition innerStartPosition : Int)
    (selfClosing : Bool) : DOMNode :=
  .mk ⟨startPosition, innerStartPosition, 0, 0⟩ ElementNodeType position [] token.Data []
    selfClosing (token.Attr.map fun a => ⟨a.Key, a.Val⟩)

/-- The text or comment node that the third block of `parse` builds. -/
def leafNode (nodeType : Int) (token : Token) (position : List Int) : DOMNode :=
  .mk ⟨0, 0, 0, 0⟩ nodeType position [] "" (goBytes token.Data) false []

/-- The second block of `parse` for a token that is no start tag: it runs for an
end tag or a token whose `Data` is the name of an empty element, on the
`current` that was passed in.  The result is the root list and `next` after the
block, `none` for the nil dereference `current.IsSelfClosing` or
`current.endPosition`. -/
def closeCurrent (roots : List DOMNode) (token : Token) (current : Option (List Nat))
    (offset : Int × Int) : Option (List DOMNode × Option (List Nat)) :=
  if token.Kind = TokenType.EndTagToken ∨ IsEmptyElement token.Data = true then
    match current with
    | none => none
    | some cp =>
      if IsEmptyElement token.Data = true then
        match updateNode roots cp fun c => c.withIsSelfClosing true with
        | none => none
        | some roots' => some (roots', parentPath cp)
      else
        match updateNode roots cp fun c =>
            c.withOffsets { c.offsets with
              endPosition := offset.1,
              innerEndPosition := offset.1 - ((c.Name.utf8ByteSize : Int) + 3) } with
        | none => none
        | some roots' => some (roots', parentPath cp)
  else some (roots, none)

/-- The third block of `parse` and the final `append` to the root list, for a
text token (`nodeType = TextNodeType`) or a comment token. -/
def addLeaf (src : List Nat) (roots : List DOMNode) (nodeType : Int) (token : Token)
    (current : Option (List Nat)) : ParseOutcome :=
  match current with
  | some cp =>
    match getNode roots cp with
    | none => ParseOutcome.panic
    | some c =>
      match linkChild roots cp (leafNode nodeType token (c.Position ++ [(c.ChildNodes.length : Int)])) with
      | none => ParseOutcome.panic
      | some roots' => ParseOutcome.done ⟨src, roots'⟩ current
  | none =>
    ParseOutcome.done ⟨src, roots ++ [leafNode nodeType token [(roots.length : Int)]]⟩ none

/-- `func (pt *ParseTree) parse(token html.Token, current *DOMNode, tokenizer
*html.Tokenizer) (next *DOMNode, err error)`; `offset` is the value of
`tokenizer.CurrentOffset()`.

For a start tag or self-closing tag the first block builds the element and
links it under `current`; when the tag is self-closing or names an empty
element, `current` is then the new element, the second block marks it and sets
`next` to its parent, and the final `append` to the root list is skipped
because `current` is not nil.  Otherwise `next` is the new element, which the
final `append` adds to the root list when `current` is nil. -/
def ParseTree.parse (pt : ParseTree) (token : Token) (current : Option (List Nat))
    (offset : Int × Int) : ParseOutcome :=
  let emptyElement := IsEmptyElement token.Data
  if token.Kind = TokenType.StartTagToken ∨ token.Kind = TokenType.SelfClosingTagToken then
    let closed : Bool := decide (token.Kind = TokenType.SelfClosingTagToken) || emptyElement
    match current with
    | some cp =>
      match getNode pt.ChildNodes cp with
      | none => ParseOutcome.panic
      | some c =>
        match pt.ReverseFind 0 (offset.1 - 1) 60 with
        | none => ParseOutcome.panic
        | some (_, some err) => ParseOutcome.failed err
        | some (startPosition, none) =>
          match linkChild pt.ChildNodes cp
              (startTagNode token (c.Position ++ [(c.ChildNodes.length : Int)]) startPosition
                offset.1 closed) with
          | none => ParseOutcome.panic
          | some roots =>
            ParseOutcome.done ⟨pt.src, roots⟩
              (if closed = true then some cp else some (cp ++ [c.ChildNodes.length]))
    | none =>
      match pt.ReverseFind 0 (offset.1 - 1) 60 with
      | none => ParseOutcome.panic
      | some (_, some err) => ParseOutcome.failed err
      | some (startPosition, none) =>
        if closed = true then ParseOutcome.done pt none
        else
          ParseOutcome.done
            ⟨pt.src, pt.ChildNodes ++
              [startTagNode token [(pt.ChildNodes.length : Int)] startPosition offset.1 false]⟩
            (some [pt.ChildNodes.length])
  else
    match closeCurrent pt.ChildNodes token current offset with
    | none => ParseOutcome.panic
    | some (roots, next) =>
      if token.Kind = TokenType.TextToken then addLeaf pt.src roots TextNodeType token current
      else if token.Kind = TokenType.CommentToken then
        addLeaf pt.src roots CommentNodeType token current
      else ParseOutcome.done ⟨pt.src, roots⟩ next

/-- The loop of `NewParseTree` over the tokens that the tokenizer yields, each
with the value of `CurrentOffset()` after `z.Token()`; the loop ends at the
first `ErrorToken`. -/
def parseLoop : ParseTree → Option (List Nat) → List (Token × (Int × Int)) → ParseOutcome
  | tree, node, [] => ParseOutcome.done tree node
  | tree, node, (token, offset) :: rest =>
    if token.Kind = TokenType.ErrorToken then ParseOutcome.done tree node
    else
      match tree.parse token node offset with
      | ParseOutcome.done tree' next => parseLoop tree' next rest
      | ParseOutcome.failed err => ParseOutcome.failed err
      | ParseOutcome.panic => ParseOutcome.panic

/-- `func NewParseTree(src []byte) (*ParseTree, error)`, with the token stream
of the tokenizer of `src` as a parameter: the tree or the error, `none` for a
panic. -/
def NewParseTree (src : List Nat) (tokens : List (Token × (Int × Int))) :
    Option (Except String ParseTree) :=
  match parseLoop ⟨src, []⟩ none tokens with
  | ParseOutcome.done tree _ => some (Except.ok tree)
  | ParseOutcome.failed err => some (Except.error err)
  | ParseOutcome.panic => none

/-- The node that an address leads to from the root list: component `k` of the
address is the index in the child list at depth `k`. -/
def resolveAddress : List DOMNode → List Int → Option DOMNode
  | _, [] => none
  | roots, i :: rest =>
    match goIndex roots i with
    | none => none
    | some n =>
      match rest with
      | [] => some n
      | _ :: _ => resolveAddress n.ChildNodes rest

/-- The bytes of `<p>a</p>`. -/
def srcPA : List Nat := [60, 112, 62, 97, 60, 47, 112, 62]

/-- The token stream of `<p>a</p>`, each token with the offset after it. -/
def tokensPA : List (Token × (Int × Int)) :=
  [(⟨TokenType.StartTagToken, "p", []⟩, (3, 3)), (⟨TokenType.TextToken, "a", []⟩, (4, 4)),
    (⟨TokenType.EndTagToken, "p", []⟩, (8, 8))]

/-- The bytes of `<br>`. -/
def srcBr : List Nat := [60, 98, 114, 62]

/-- The bytes of `<p><br>`. -/
def srcPBreak : List Nat := [60, 112, 62, 60, 98, 114, 62]

/-- The start-tag token of `<br>`. -/
def tokenBr : Token := ⟨TokenType.StartTagToken, "br", []⟩

/-- The bytes of `<p>br</p>`. -/
def srcPBr : List Nat := [60, 112, 62, 98, 114, 60, 47, 112, 62]

/-- The tree of `srcPBr` after its first token: the open `<p>` at the root. -/
def openP : ParseTree :=
  ⟨srcPBr, [startTagNode ⟨TokenType.StartTagToken, "p", []⟩ [0] 0 3 false]⟩

/-- The text token with the data `br`. -/
def textBr : Token := ⟨TokenType.TextToken, "br", []⟩

/-- The text node of `<p>a</p>`. -/
def textA : DOMNode := leafNode TextNodeType ⟨TokenType.TextToken, "a", []⟩ [0, 0]

/-- The tree that `NewParseTree` builds for `<p>a</p>`. -/
def treePA : ParseTree :=
  ⟨srcPA, [.mk ⟨0, 3, 8, 4⟩ ElementNodeType [0] [textA] "p" [] false []]⟩

/-! # Theorems -/

/-! ## Lemmas: attribute maps -/

theorem AttrMap.find_eq_none_iff (m : AttrMap) (k : String) :
    m.find k = none ↔ k ∉ m.map Prod.fst := by
  induction m with
  | nil => simp [AttrMap.find]
  | cons e rest ih =>
    obtain ⟨k', v⟩ := e
    by_cases h : k' = k
    · simp [AttrMap.find, h]
    · simp [AttrMap.find, h, ih, Ne.symm h]

theorem AttrMap.find_of_mem (m : AttrMap) (hnd : (m.map Prod.fst).Nodup) (k v : String)
    (hmem : (k, v) ∈ m) : m.find k = some v := by
  induction m with
  | nil => simp at hmem
  | cons e rest ih =>
    obtain ⟨k', v'⟩ := e
    simp only [List.map_cons, List.nodup_cons] at hnd
    rcases List.mem_cons.1 hmem with h | h
    · cases h; simp [AttrMap.find]
    · have hk : k' ≠ k := by
        rintro rfl
        exact hnd.1 (List.mem_map_of_mem Prod.fst h)
      simp [AttrMap.find, hk, ih hnd.2 h]

theorem AttrMap.mem_of_find (m : AttrMap) (k v : String) (h : m.find k = some v) :
    (k, v) ∈ m := by
  induction m with
  | nil => simp [AttrMap.find] at h
  | cons e rest ih =>
    obtain ⟨k', v'⟩ := e
    by_cases hk : k' = k
    · simp [AttrMap.find, hk] at h; simp [hk, h]
    · simp [AttrMap.find, hk] at h; exact List.mem_cons_of_mem _ (ih h)

theorem AttrMap.find_iff_mem (m : AttrMap) (hnd : (m.map Prod.fst).Nodup) (k v : String) :
    m.find k = some v ↔ (k, v) ∈ m :=
  ⟨AttrMap.mem_of_find m k v, AttrMap.find_of_mem m hnd k v⟩

theorem AttrMap.keys_assign (m : AttrMap) (k v : String) :
    (m.assign k v).map Prod.fst
      = if k ∈ m.map Prod.fst then m.map Prod.fst else m.map Prod.fst ++ [k] := by
  induction m with
  | nil => simp [AttrMap.assign]
  | cons e rest ih =>
    obtain ⟨k', v'⟩ := e
    by_cases hk : k' = k
    · simp [AttrMap.assign, hk]
    · simp only [AttrMap.assign, hk, if_false, List.map_cons, ih, List.mem_cons, Ne.symm hk,
        false_or]
      split <;> simp

theorem AttrMap.nodup_assign (m : AttrMap) (k v : String) (hnd : (m.map Prod.fst).Nodup) :
    ((m.assign k v).map Prod.fst).Nodup := by
  rw [AttrMap.keys_assign]
  split
  · exact hnd
  · rename_i h
    exact List.Nodup.append hnd (List.nodup_singleton k) (by simpa using h)

theorem AttrMap.nodup_foldl_assign (attrs : List Attribute) (m : AttrMap)
    (hnd : (m.map Prod.fst).Nodup) :
    ((attrs.foldl (fun result attr => result.assign attr.Name attr.Value) m).map
      Prod.fst).Nodup := by
  induction attrs generalizing m with
  | nil => simpa using hnd
  | cons x rest ih => exact ih _ (AttrMap.nodup_assign m _ _ hnd)

theorem DOMNode.nodup_AttributesMap (dn : DOMNode) : (dn.AttributesMap.map Prod.fst).Nodup := by
  unfold DOMNode.AttributesMap
  split
  · exact AttrMap.nodup_foldl_assign _ [] (by simp)
  · simp

theorem RangeOrder.mem_visit (o : RangeOrder) (m : AttrMap) (e : String × String) :
    e ∈ o.visit m ↔ e ∈ m :=
  (o.perm m).mem_iff

theorem compareAttributes_eq_nil (orderA orderB : RangeOrder) (pa : NodePtr) (a b : DOMNode)
    (h : ∀ k, a.AttributesMap.find k = b.AttributesMap.find k) :
    compareAttributes orderA orderB pa a b = [] := by
  unfold compareAttributes
  simp only [List.append_eq_nil, List.filterMap_eq_nil_iff]
  constructor
  · rintro ⟨k, v⟩ hmem
    have h1 := AttrMap.find_of_mem _ a.nodup_AttributesMap k v ((orderA.mem_visit _ _).1 hmem)
    simp only [← h k, h1]
  · rintro ⟨k, v⟩ hmem
    have h1 := AttrMap.find_of_mem _ b.nodup_AttributesMap k v ((orderB.mem_visit _ _).1 hmem)
    simp [h k, h1]

/-! ## Lemmas: shallow equality -/

theorem DOMNode.attrsEqual_iff (xs ys : List Attribute) (hlen : xs.length = ys.length) :
    DOMNode.attrsEqual xs ys = true ↔ xs = ys := by
  induction xs generalizing ys with
  | nil =>
    cases ys with
    | nil => simp [DOMNode.attrsEqual]
    | cons y ys => simp at hlen
  | cons x xs ih =>
    cases ys with
    | nil => simp at hlen
    | cons y ys =>
      simp only [List.length_cons, Nat.add_right_cancel_iff] at hlen
      by_cases hxy : x = y
      · simp [DOMNode.attrsEqual, hxy, ih ys hlen]
      · simp [DOMNode.attrsEqual, hxy]

theorem DOMNode.IsEqual_iff (a b : DOMNode) :
    a.IsEqual b = true ↔
      a.NodeType = b.NodeType ∧
        (((a.NodeType = TextNodeType ∨ a.NodeType = CommentNodeType) ∧ a.Value = b.Value) ∨
          (a.NodeType = ElementNodeType ∧ a.Name = b.Name ∧ a.Attributes = b.Attributes)) := by
  unfold DOMNode.IsEqual
  by_cases h1 : a.NodeType = b.NodeType
  · rw [if_neg (not_not.2 h1)]
    by_cases h2 : a.NodeType = TextNodeType ∨ a.NodeType = CommentNodeType
    · have h3 : a.NodeType ≠ ElementNodeType := by
        rcases h2 with h | h <;> rw [h] <;> decide
      rw [if_pos h2]
      by_cases h4 : a.Value = b.Value
      · rw [if_neg (not_not.2 h4)]
        exact ⟨fun _ => ⟨h1, Or.inl ⟨h2, h4⟩⟩, fun _ => rfl⟩
      · rw [if_pos h4]
        constructor
        · intro h; cases h
        · rintro ⟨-, h | h⟩
          · exact absurd h.2 h4
          · exact absurd h.1 h3
    · rw [if_neg h2]
      by_cases h3 : a.NodeType = ElementNodeType
      · rw [if_pos h3]
        by_cases h4 : a.Name = b.Name
        · by_cases h5 : a.Attributes.length = b.Attributes.length
          · rw [if_neg (not_not.2 h4), if_neg (not_not.2 h5), DOMNode.attrsEqual_iff _ _ h5]
            constructor
            · intro h; exact ⟨h1, Or.inr ⟨h3, h4, h⟩⟩
            · rintro ⟨-, h | h⟩
              · exact absurd h.1 h2
              · exact h.2.2
          · have h6 : a.Attributes ≠ b.Attributes := fun h => h5 (by rw [h])
            rw [if_neg (not_not.2 h4), if_pos h5]
            constructor
            · intro h; cases h
            · rintro ⟨-, h | h⟩
              · exact absurd h.1 h2
              · exact absurd h.2.2 h6
        · rw [if_pos h4]
          constructor
          · intro h; cases h
          · rintro ⟨-, h | h⟩
            · exact absurd h.1 h2
            · exact absurd h.2.1 h4
      · rw [if_neg h3]
        constructor
        · intro h; cases h
        · rintro ⟨-, h | h⟩
          · exact absurd h.1 h2
          · exact absurd h.1 h3
  · rw [if_pos h1]
    constructor
    · intro h; cases h
    · rintro ⟨h, -⟩; exact absurd h h1

theorem DOMNode.IsEqual_self (a : DOMNode)
    (h : a.NodeType = ElementNodeType ∨ a.NodeType = CommentNodeType ∨
      a.NodeType = TextNodeType) : a.IsEqual a = true := by
  rw [DOMNode.IsEqual_iff]
  rcases h with h | h | h <;> simp [h]

theorem DOMNode.AttributesMap_eq_of_IsEqual (a b : DOMNode) (h : a.IsEqual b = true) :
    a.AttributesMap = b.AttributesMap := by
  rw [DOMNode.IsEqual_iff] at h
  unfold DOMNode.AttributesMap
  rcases h with ⟨h1, h2 | h2⟩
  · have h3 : a.NodeType ≠ ElementNodeType := by
      rcases h2.1 with h | h <;> rw [h] <;> decide
    simp [← h1, h3]
  · simp [← h1, h2.1, h2.2.2]

theorem compareAttributes_of_IsEqual (orderA orderB : RangeOrder) (pa : NodePtr) (a b : DOMNode)
    (h : a.IsEqual b = true) : compareAttributes orderA orderB pa a b = [] :=
  compareAttributes_eq_nil orderA orderB pa a b
    (fun k => by rw [DOMNode.AttributesMap_eq_of_IsEqual a b h])

/-- The loop body of `compareNodes`, with the recursive call folded back. -/
theorem comparePair_eq (ord : NodePtr → RangeOrder × RangeOrder) (pa pb : NodePtr) (i : Nat)
    (n bNode : DOMNode) :
    comparePair ord pa pb i n bNode =
      if n.IsEqual bNode = false then
        [{ ActionType := ReplaceNodeAction, ExistingNode := some (pa.child i),
           NewNode := some (pb.child i) }]
      else if bNode.NodeType = ElementNodeType then
        compareAttributes (ord (pa.child i)).1 (ord (pa.child i)).2 (pa.child i) n bNode
          ++ compareNodes ord (pa.child i) (pb.child i) n.ChildNodes bNode.ChildNodes
      else [] := by
  cases n
  rfl

/-- The loop body when shallow equality has succeeded: no attribute patch. -/
theorem comparePair_of_IsEqual (ord : NodePtr → RangeOrder × RangeOrder) (pa pb : NodePtr)
    (i : Nat) (n bNode : DOMNode) (h : n.IsEqual bNode = true) :
    comparePair ord pa pb i n bNode =
      if bNode.NodeType = ElementNodeType then
        compareNodes ord (pa.child i) (pb.child i) n.ChildNodes bNode.ChildNodes
      else [] := by
  rw [comparePair_eq]
  simp [h, compareAttributes_of_IsEqual _ _ _ _ _ h]

theorem compareLoop_cons (ord : NodePtr → RangeOrder × RangeOrder) (pa pb : NodePtr) (i : Nat)
    (n bNode : DOMNode) (a b : List DOMNode) :
    compareLoop ord pa pb i (n :: a) (bNode :: b)
      = comparePair ord pa pb i n bNode ++ compareLoop ord pa pb (i + 1) a b := by
  simp [compareLoop]

theorem compareLoop_nil_left (ord : NodePtr → RangeOrder × RangeOrder) (pa pb : NodePtr)
    (i : Nat) (b : List DOMNode) : compareLoop ord pa pb i [] b = [] := by
  simp [compareLoop]

theorem compareLoop_nil_right (ord : NodePtr → RangeOrder × RangeOrder) (pa pb : NodePtr)
    (i : Nat) (a : List DOMNode) : compareLoop ord pa pb i a [] = [] := by
  cases a <;> simp [compareLoop]

theorem surplusChanges_self (pa pb : NodePtr) (k : Nat) : surplusChanges pa pb k k = [] := by
  simp [surplusChanges]

theorem deepEqualList_length : ∀ (a b : List DOMNode), deepEqualList a b = true →
    a.length = b.length
  | [], [], _ => rfl
  | [], _ :: _, h => by simp [deepEqualList] at h
  | _ :: _, [], h => by simp [deepEqualList] at h
  | n :: a, m :: b, h => by
    simp only [deepEqualList, Bool.and_eq_true] at h
    simp [deepEqualList_length a b h.2]

/-! ## Lemmas: the loop of `compareNodes` -/

mutual
theorem compareLoop_deepEqual (ord : NodePtr → RangeOrder × RangeOrder) :
    ∀ (a b : List DOMNode) (pa pb : NodePtr) (i : Nat),
      deepEqualList a b = true → compareLoop ord pa pb i a b = []
  | [], _, pa, pb, i, _ => compareLoop_nil_left ord pa pb i _
  | _ :: _, [], pa, pb, i, _ => compareLoop_nil_right ord pa pb i _
  | n :: a, m :: b, pa, pb, i, h => by
    simp only [deepEqualList, Bool.and_eq_true] at h
    rw [compareLoop_cons, comparePair_deepEqual ord n m pa pb i h.1,
      compareLoop_deepEqual ord a b pa pb (i + 1) h.2]
    rfl
theorem comparePair_deepEqual (ord : NodePtr → RangeOrder × RangeOrder) :
    ∀ (n m : DOMNode) (pa pb : NodePtr) (i : Nat),
      deepEqual n m = true → comparePair ord pa pb i n m = []
  | .mk o t p c nm v s ats, m, pa, pb, i, h => by
    simp only [deepEqual, Bool.and_eq_true] at h
    rw [comparePair_of_IsEqual ord pa pb i _ m h.1]
    split
    · have hlen : c.length = m.ChildNodes.length := deepEqualList_length c m.ChildNodes h.2
      simp only [compareNodes, DOMNode.ChildNodes, hlen, surplusChanges_self, List.nil_append]
      exact compareLoop_deepEqual ord c m.ChildNodes (pa.child i) (pb.child i) 0 h.2
    · rfl
end

mutual
theorem deepEqual_self : ∀ (n : DOMNode), n.kindsOk = true → deepEqual n n = true
  | .mk o t p c nm v s ats, h => by
    simp only [DOMNode.kindsOk, Bool.and_eq_true, Bool.or_eq_true, decide_eq_true_eq] at h
    simp only [deepEqual, Bool.and_eq_true, DOMNode.ChildNodes]
    refine ⟨DOMNode.IsEqual_self _ ?_, deepEqualList_self c h.2⟩
    simp only [DOMNode.NodeType]
    tauto
theorem deepEqualList_self : ∀ (a : List DOMNode), kindsOkList a = true →
    deepEqualList a a = true
  | [], _ => rfl
  | n :: a, h => by
    simp only [kindsOkList, Bool.and_eq_true] at h
    simp only [deepEqualList, Bool.and_eq_true]
    exact ⟨deepEqual_self n h.1, deepEqualList_self a h.2⟩
end

theorem compareLoop_take (ord : NodePtr → RangeOrder × RangeOrder) (pa pb : NodePtr) :
    ∀ (a b : List DOMNode) (i : Nat),
      compareLoop ord pa pb i a b
        = compareLoop ord pa pb i (a.take (min a.length b.length))
            (b.take (min a.length b.length))
  | [], b, i => by simp [compareLoop_nil_left]
  | n :: a, [], i => by simp [compareLoop_nil_right]
  | n :: a, m :: b, i => by
    have h : min (n :: a).length (m :: b).length = min a.length b.length + 1 := by
      simp [Nat.succ_min_succ]
    rw [h, List.take_succ_cons, List.take_succ_cons, compareLoop_cons, compareLoop_cons,
      ← compareLoop_take ord pa pb a b (i + 1)]

mutual
theorem compareLoop_order_irrelevant (ord ord' : NodePtr → RangeOrder × RangeOrder) :
    ∀ (a b : List DOMNode) (pa pb : NodePtr) (i : Nat),
      compareLoop ord pa pb i a b = compareLoop ord' pa pb i a b
  | [], _, pa, pb, i => by rw [compareLoop_nil_left, compareLoop_nil_left]
  | _ :: _, [], pa, pb, i => by rw [compareLoop_nil_right, compareLoop_nil_right]
  | n :: a, m :: b, pa, pb, i => by
    rw [compareLoop_cons, compareLoop_cons, comparePair_order_irrelevant ord ord' n m pa pb i,
      compareLoop_order_irrelevant ord ord' a b pa pb (i + 1)]
theorem comparePair_order_irrelevant (ord ord' : NodePtr → RangeOrder × RangeOrder) :
    ∀ (n m : DOMNode) (pa pb : NodePtr) (i : Nat),
      comparePair ord pa pb i n m = comparePair ord' pa pb i n m
  | .mk o t p c nm v s ats, m, pa, pb, i => by
    by_cases h : (DOMNode.mk o t p c nm v s ats).IsEqual m = true
    · rw [comparePair_of_IsEqual ord pa pb i _ m h, comparePair_of_IsEqual ord' pa pb i _ m h]
      have ih := compareLoop_order_irrelevant ord ord' c m.ChildNodes (pa.child i) (pb.child i) 0
      simp only [compareNodes]
      rw [show (DOMNode.mk o t p c nm v s ats).ChildNodes = c from rfl, ih]
    · rw [comparePair_eq, comparePair_eq]
      simp [h]
end

theorem compareNodes_order_irrelevant (ord ord' : NodePtr → RangeOrder × RangeOrder)
    (pa pb : NodePtr) (a b : List DOMNode) :
    compareNodes ord pa pb a b = compareNodes ord' pa pb a b := by
  simp only [compareNodes, compareLoop_order_irrelevant ord ord' a b pa pb 0]

theorem Compare_order_irrelevant (ord ord' : NodePtr → RangeOrder × RangeOrder)
    (t other : ParseTree) : t.Compare ord other = t.Compare ord' other := by
  simp only [ParseTree.Compare, compareNodes_order_irrelevant ord ord']

/-! ## Idempotence and the concrete scenarios -/

/-- C2: for every forest `T` of element, text and comment nodes, `T.Compare(T)`
returns the empty patch list and no error, whatever order the map iterations
take. -/
theorem C2_compare_self_empty (ord : NodePtr → RangeOrder × RangeOrder) (T : ParseTree)
    (hkinds : kindsOkList T.ChildNodes = true) : T.Compare ord T = Except.ok [] := by
  simp only [ParseTree.Compare, compareNodes, surplusChanges_self, List.nil_append]
  rw [compareLoop_deepEqual ord _ _ _ _ 0 (deepEqualList_self _ hkinds)]

/-- Witness of C2 on the tree of `<ul><li>1</li><li>2</li></ul>`. -/
theorem C2_compare_self_empty_witness :
    kindsOkList (ParseTree.mk [] [ulTwo]).ChildNodes = true ∧
      (ParseTree.mk [] [ulTwo]).Compare ordInsertion (ParseTree.mk [] [ulTwo]) = Except.ok [] :=
  ⟨by decide, C2_compare_self_empty ordInsertion (ParseTree.mk [] [ulTwo]) (by decide)⟩

/-- C3 as stated fails: on `<div><p>Hi</p></div>` against `<div><p>Bye</p></div>`
no iteration order makes `Compare` return the single patch
`ReplaceNode(old <p>, new <p>)`. -/
theorem C3_counterexample :
    ¬ ∃ ord, scenario1Old.Compare ord scenario1New
      = Except.ok [replaceChange ⟨TreeId.old, [0, 0]⟩ ⟨TreeId.new, [0, 0]⟩] := by
  rintro ⟨ord, h⟩
  rw [Compare_order_irrelevant ord ordInsertion] at h
  have h2 := Except.ok.inj h
  revert h2
  decide

/-- C3, amended: on `<div><p>Hi</p></div>` against `<div><p>Bye</p></div>`,
`Compare` returns exactly one patch, the `ReplaceNode` whose target is the old
text node `Hi` (the child of the old `<p>`) and whose replacement is the new
text node `Bye`. -/
theorem C3_scenario1 (ord : NodePtr → RangeOrder × RangeOrder) :
    scenario1Old.Compare ord scenario1New
      = Except.ok [replaceChange ⟨TreeId.old, [0, 0, 0]⟩ ⟨TreeId.new, [0, 0, 0]⟩] := by
  rw [Compare_order_irrelevant ord ordInsertion]
  exact congrArg Except.ok (by decide)

/-- C4 at its input: on `<div id="a"></div>` against `<div id="b"></div>`,
`Compare` returns the single patch `ReplaceNode(old div, new div)` and no
`SetAttribute` patch. -/
theorem C4_scenario2 (ord : NodePtr → RangeOrder × RangeOrder) :
    scenario2Old.Compare ord scenario2New
      = Except.ok [replaceChange ⟨TreeId.old, [0]⟩ ⟨TreeId.new, [0]⟩] := by
  rw [Compare_order_irrelevant ord ordInsertion]
  exact congrArg Except.ok (by decide)

/-! ## Surplus siblings -/

theorem surplusChanges_child (t t' : TreeId) (q q' : List Nat) (i n m : Nat) :
    surplusChanges (NodePtr.child ⟨t, q⟩ i) (NodePtr.child ⟨t', q'⟩ i) n m
      = if n < m then
          (List.range (m - n)).map fun j =>
            appendChange (some ⟨t', q' ++ [i]⟩) ⟨t', q' ++ [i, n + j]⟩
        else
          (List.range (n - m)).map fun j => removeChange ⟨t, q ++ [i, m + j]⟩ := by
  unfold surplusChanges
  by_cases h1 : n < m
  · simp [h1, NodePtr.child, NodePtr.ParentNode, appendChange, List.dropLast_concat]
  · by_cases h2 : m < n
    · simp [h1, h2, NodePtr.child, removeChange]
    · have h3 : n - m = 0 := by omega
      simp [h1, h2, h3]

/-- C5: for shallow-equal elements `P` (old) and `P'` (new) whose child lists
agree deeply on their common prefix, `Compare` of `[P]` against `[P']` returns
exactly one patch per surplus child, in sibling order: `AppendChild` with
parent `P'` and the surplus new child when `P'` has more children, `RemoveNode`
of the surplus old child when `P` has more, and nothing when they have the
same number. -/
theorem C5_surplus_siblings (ord : NodePtr → RangeOrder × RangeOrder) (P P' : DOMNode)
    (src src' : List Nat) (hshallow : P.IsEqual P' = true)
    (helem : P.NodeType = ElementNodeType)
    (hcommon : deepEqualList
        (P.ChildNodes.take (min P.ChildNodes.length P'.ChildNodes.length))
        (P'.ChildNodes.take (min P.ChildNodes.length P'.ChildNodes.length)) = true) :
    (ParseTree.mk src [P]).Compare ord (ParseTree.mk src' [P'])
      = Except.ok
        (if P.ChildNodes.length < P'.ChildNodes.length then
          (List.range (P'.ChildNodes.length - P.ChildNodes.length)).map fun j =>
            appendChange (some ⟨TreeId.new, [0]⟩) ⟨TreeId.new, [0, P.ChildNodes.length + j]⟩
        else
          (List.range (P.ChildNodes.length - P'.ChildNodes.length)).map fun j =>
            removeChange ⟨TreeId.old, [0, P'.ChildNodes.length + j]⟩) := by
  have helem' : P'.NodeType = ElementNodeType := by
    rw [← ((DOMNode.IsEqual_iff P P').1 hshallow).1]; exact helem
  simp only [ParseTree.Compare, compareNodes, List.length_singleton, surplusChanges_self,
    List.nil_append, compareLoop_cons, compareLoop_nil_left, List.append_nil]
  rw [comparePair_of_IsEqual ord _ _ 0 P P' hshallow, if_pos helem', compareNodes,
    compareLoop_take, compareLoop_deepEqual ord _ _ _ _ 0 hcommon, List.append_nil,
    surplusChanges_child]
  rfl

/-- Witness of C5: `<ul><li>1</li></ul>` against `<ul><li>1</li><li>2</li></ul>`
gives `[AppendChild(ul, li2)]`, and the reverse gives `[RemoveNode(li2)]`. -/
theorem C5_surplus_siblings_witness :
    (ParseTree.mk [] [ulOne]).Compare ordInsertion (ParseTree.mk [] [ulTwo])
        = Except.ok [appendChange (some ⟨TreeId.new, [0]⟩) ⟨TreeId.new, [0, 1]⟩] ∧
      (ParseTree.mk [] [ulTwo]).Compare ordInsertion (ParseTree.mk [] [ulOne])
        = Except.ok [removeChange ⟨TreeId.old, [0, 1]⟩] :=
  ⟨C5_surplus_siblings ordInsertion ulOne ulTwo [] [] (by decide) (by decide) (by decide),
   C5_surplus_siblings ordInsertion ulTwo ulOne [] [] (by decide) (by decide) (by decide)⟩

/-! ## Shallow equality and the attribute diff -/

theorem attributes_eq_iff_getElem (xs ys : List Attribute) :
    xs = ys ↔ xs.length = ys.length ∧ ∀ i, i < xs.length → xs[i]? = ys[i]? := by
  constructor
  · rintro rfl; exact ⟨rfl, fun _ _ => rfl⟩
  · rintro ⟨hlen, h⟩
    apply List.ext_getElem? 
    intro i
    by_cases hi : i < xs.length
    · exact h i hi
    · rw [List.getElem?_eq_none (by omega), List.getElem?_eq_none (by omega)]

/-- C7: `a.IsEqual(b)` holds exactly when the nodes have the same kind and
either (text or comment) identical `Value` bytes or (element) equal tag names
and attribute lists of the same length with the same entry at every index.
The result is the same for any nodes that agree with `a` and `b` on kind, name,
value and attributes (children, address and offsets play no part), and two
elements whose attribute lists are distinct reorderings of each other are
unequal. -/
theorem C7_IsEqual_shallow (a b : DOMNode) :
    (a.IsEqual b = true ↔
      a.NodeType = b.NodeType ∧
        (((a.NodeType = TextNodeType ∨ a.NodeType = CommentNodeType) ∧ a.Value = b.Value) ∨
          (a.NodeType = ElementNodeType ∧ a.Name = b.Name ∧
            a.Attributes.length = b.Attributes.length ∧
            ∀ i, i < a.Attributes.length → a.Attributes[i]? = b.Attributes[i]?))) ∧
    (∀ a' b' : DOMNode,
      a'.NodeType = a.NodeType → a'.Name = a.Name → a'.Value = a.Value →
      a'.Attributes = a.Attributes →
      b'.NodeType = b.NodeType → b'.Name = b.Name → b'.Value = b.Value →
      b'.Attributes = b.Attributes → a'.IsEqual b' = a.IsEqual b) ∧
    (a.NodeType = ElementNodeType → b.NodeType = ElementNodeType →
      a.Attributes.Perm b.Attributes → a.Attributes ≠ b.Attributes → a.IsEqual b = false) := by
  refine ⟨?_, ?_, ?_⟩
  · rw [DOMNode.IsEqual_iff, attributes_eq_iff_getElem]
  · intro a' b' h1 h2 h3 h4 h5 h6 h7 h8
    unfold DOMNode.IsEqual
    rw [h1, h2, h3, h4, h5, h6, h7, h8]
  · intro hA _ _ hne
    cases h : a.IsEqual b
    · rfl
    · rcases ((DOMNode.IsEqual_iff a b).1 h).2 with h' | h'
      · rcases h'.1 with h'' | h'' <;> rw [h''] at hA <;> revert hA <;> decide
      · exact absurd h'.2.2 hne

/-- Witness of C7: two `div` elements with attributes `[id, class]` and
`[class, id]`, different children and addresses, are unequal. -/
theorem C7_IsEqual_shallow_witness :
    (elementNode "div" [⟨"id", "a"⟩, ⟨"class", "c"⟩] [0] []).IsEqual
      (elementNode "div" [⟨"class", "c"⟩, ⟨"id", "a"⟩] [1] [textNode [72] [1, 0]]) = false :=
  (C7_IsEqual_shallow (elementNode "div" [⟨"id", "a"⟩, ⟨"class", "c"⟩] [0] [])
    (elementNode "div" [⟨"class", "c"⟩, ⟨"id", "a"⟩] [1] [textNode [72] [1, 0]])).2.2
    rfl rfl (List.Perm.swap _ _ _) (by decide)

theorem filterMap_remove_eq (pa : NodePtr) (bm : AttrMap) (l : List (String × String)) :
    (l.filterMap fun entry =>
        match bm.find entry.1 with
        | none => some ({ ActionType := RemoveNodeAttributeAction, ExistingNode := some pa,
                          AttributeName := entry.1 } : Reconciler)
        | some _ => none)
      = ((l.map Prod.fst).filter fun k => (bm.find k).isNone).map (removeAttributeChange pa) := by
  induction l with
  | nil => rfl
  | cons e rest ih =>
    obtain ⟨k, v⟩ := e
    cases h : bm.find k <;> simp [List.filterMap_cons, List.filter_cons, h, ih,
      removeAttributeChange]

theorem filterMap_set_eq (pa : NodePtr) (am : AttrMap) (l : List (String × String)) :
    (l.filterMap fun entry =>
        match am.find entry.1 with
        | none => some ({ ActionType := SetNodeAttributeAction, ExistingNode := some pa,
                          AttributeName := entry.1, AttributeValue := entry.2 } : Reconciler)
        | some value =>
          if value ≠ entry.2 then
            some { ActionType := SetNodeAttributeAction, ExistingNode := some pa,
                   AttributeName := entry.1, AttributeValue := entry.2 }
          else none)
      = (l.filter fun e => decide (am.find e.1 ≠ some e.2)).map
          (fun e => setAttributeChange pa e.1 e.2) := by
  induction l with
  | nil => rfl
  | cons e rest ih =>
    obtain ⟨k, v⟩ := e
    rw [List.filterMap_cons, List.filter_cons, ih]
    cases h : am.find k with
    | none => simp [h, setAttributeChange]
    | some w =>
      by_cases hw : w = v
      · simp [h, hw]
      · simp [h, hw, setAttributeChange]

/-- C10: the patches appended by `compareAttributes` are a block of removals
followed by a block of sets, whatever order the two map iterations take: the
removals are exactly one `RemoveAttribute(name)` on `a` per name present in the
map of `a` and absent from the map of `b`; the sets are exactly one
`SetAttribute(name, value)` on `a` per entry of the map of `b` that the map of
`a` lacks or maps to a different value; and nothing is appended when the two
maps are equal. -/
theorem C10_compareAttributes (orderA orderB : RangeOrder) (pa : NodePtr) (a b : DOMNode) :
    ∃ removals sets : Changes,
      compareAttributes orderA orderB pa a b = removals ++ sets ∧
      (∀ r, r ∈ removals ↔
        ∃ name, a.AttributesMap.find name ≠ none ∧ b.AttributesMap.find name = none ∧
          r = removeAttributeChange pa name) ∧
      (∀ s, s ∈ sets ↔
        ∃ name value, b.AttributesMap.find name = some value ∧
          a.AttributesMap.find name ≠ some value ∧ s = setAttributeChange pa name value) ∧
      removals.Nodup ∧ sets.Nodup ∧
      ((∀ name, a.AttributesMap.find name = b.AttributesMap.find name) →
        compareAttributes orderA orderB pa a b = []) := by
  have hndA : ((orderA.visit a.AttributesMap).map Prod.fst).Nodup :=
    (((orderA.perm _).map Prod.fst).nodup_iff).2 a.nodup_AttributesMap
  have hndB : ((orderB.visit b.AttributesMap).map Prod.fst).Nodup :=
    (((orderB.perm _).map Prod.fst).nodup_iff).2 b.nodup_AttributesMap
  refine ⟨(((orderA.visit a.AttributesMap).map Prod.fst).filter
      fun k => (b.AttributesMap.find k).isNone).map (removeAttributeChange pa),
    ((orderB.visit b.AttributesMap).filter
      fun e => decide (a.AttributesMap.find e.1 ≠ some e.2)).map
        (fun e => setAttributeChange pa e.1 e.2),
    ?_, ?_, ?_, ?_, ?_, compareAttributes_eq_nil orderA orderB pa a b⟩
  · exact congrArg₂ (· ++ ·) (filterMap_remove_eq pa _ _) (filterMap_set_eq pa _ _)
  · intro r
    simp only [List.mem_map, List.mem_filter, Option.isNone_iff_eq_none]
    constructor
    · rintro ⟨k, ⟨⟨⟨k', v⟩, hmem, rfl⟩, hnone⟩, rfl⟩
      refine ⟨k', ?_, hnone, rfl⟩
      rw [AttrMap.find_of_mem _ a.nodup_AttributesMap k' v ((orderA.mem_visit _ _).1 hmem)]
      simp
    · rintro ⟨k, hsome, hnone, rfl⟩
      obtain ⟨v, hv⟩ := Option.ne_none_iff_exists'.1 hsome
      exact ⟨k, ⟨⟨(k, v), (orderA.mem_visit _ _).2 (AttrMap.mem_of_find _ k v hv), rfl⟩,
        hnone⟩, rfl⟩
  · intro s
    simp only [List.mem_map, List.mem_filter, decide_eq_true_eq]
    constructor
    · rintro ⟨⟨k, v⟩, ⟨hmem, hne⟩, rfl⟩
      exact ⟨k, v, AttrMap.find_of_mem _ b.nodup_AttributesMap k v
        ((orderB.mem_visit _ _).1 hmem), hne, rfl⟩
    · rintro ⟨k, v, hfind, hne, rfl⟩
      exact ⟨(k, v), ⟨(orderB.mem_visit _ _).2 (AttrMap.mem_of_find _ k v hfind), hne⟩, rfl⟩
  · refine List.Nodup.map ?_ (hndA.filter _)
    intro k k' h
    simpa [removeAttributeChange] using h
  · refine List.Nodup.map ?_ ((List.Nodup.of_map _ hndB).filter _)
    rintro ⟨k, v⟩ ⟨k', v'⟩ h
    simpa [setAttributeChange] using h

/-! ## Locality of the patches of a sibling position -/

theorem NodePtr.within_iff (q p : NodePtr) :
    q.within p = true ↔ q.tree = p.tree ∧ ∃ rest, q.path = p.path ++ rest := by
  simp only [NodePtr.within, Bool.and_eq_true, decide_eq_true_eq, List.isPrefixOf_iff_prefix]
  constructor
  · rintro ⟨h, rest, hr⟩; exact ⟨h, rest, hr.symm⟩
  · rintro ⟨h, rest, hr⟩; exact ⟨h, rest, hr.symm⟩

theorem NodePtr.within_self (p : NodePtr) : p.within p = true :=
  (NodePtr.within_iff p p).2 ⟨rfl, [], by simp⟩

theorem NodePtr.within_child_trans (q p : NodePtr) (j : Nat) (h : q.within (p.child j) = true) :
    q.within p = true := by
  rw [NodePtr.within_iff] at h ⊢
  obtain ⟨ht, rest, hr⟩ := h
  exact ⟨ht, [j] ++ rest, by simpa [NodePtr.child] using hr⟩

theorem NodePtr.not_within_sibling (q p : NodePtr) (i j : Nat) (hij : j ≠ i)
    (h : q.within (p.child j) = true) : q.within (p.child i) = false := by
  cases h' : q.within (p.child i)
  · rfl
  · rw [NodePtr.within_iff] at h h'
    obtain ⟨-, rest, hr⟩ := h
    obtain ⟨-, rest', hr'⟩ := h'
    rw [hr] at hr'
    simp only [NodePtr.child, List.append_assoc, List.append_cancel_left_eq, List.singleton_append,
      List.cons.injEq] at hr'
    exact absurd hr'.1 hij

theorem NodePtr.not_within_other_tree (q p p' : NodePtr) (ht : p.tree ≠ p'.tree)
    (h : q.within p = true) : q.within p' = false := by
  cases h' : q.within p'
  · rfl
  · rw [NodePtr.within_iff] at h h'
    exact absurd (h.1.symm.trans h'.1) ht

theorem NodePtr.child_tree (p : NodePtr) (i : Nat) : (p.child i).tree = p.tree := rfl

theorem NodePtr.ParentNode_child (p : NodePtr) (i : Nat) :
    (p.child i).ParentNode = if p.path = [] then none else some p := by
  obtain ⟨t, q⟩ := p
  cases q with
  | nil => simp [NodePtr.child, NodePtr.ParentNode]
  | cons x xs =>
    have h : (x :: xs ++ [i]).dropLast = x :: xs := List.dropLast_concat
    simpa [NodePtr.child, NodePtr.ParentNode] using h

theorem surplusChanges_pointers (pa pb : NodePtr) (n m : Nat) (r : Reconciler)
    (hr : r ∈ surplusChanges pa pb n m) (q : NodePtr) (hq : q ∈ r.pointers) :
    (∃ j, min n m ≤ j ∧ (q = pa.child j ∨ q = pb.child j)) ∨ q = pb := by
  unfold surplusChanges at hr
  split at hr
  · simp only [List.mem_map, List.mem_range] at hr
    obtain ⟨j, -, rfl⟩ := hr
    simp only [Reconciler.pointers, NodePtr.ParentNode_child, Option.toList_none,
      Option.toList_some, List.nil_append, List.singleton_append, List.mem_cons] at hq
    rcases hq with rfl | hq
    · exact Or.inl ⟨n + j, by omega, Or.inr rfl⟩
    · split at hq
      · simp at hq
      · simp only [Option.toList_some, List.mem_singleton] at hq
        exact Or.inr hq
  · split at hr
    · simp only [List.mem_map, List.mem_range] at hr
      obtain ⟨j, -, rfl⟩ := hr
      simp only [Reconciler.pointers, Option.toList_none, Option.toList_some, List.append_nil,
        List.mem_singleton] at hq
      exact Or.inl ⟨m + j, by omega, Or.inl hq⟩
    · simp at hr

mutual
theorem compareLoop_pointers (ord : NodePtr → RangeOrder × RangeOrder) :
    ∀ (a b : List DOMNode) (pa pb : NodePtr) (i : Nat) (r : Reconciler),
      r ∈ compareLoop ord pa pb i a b → ∀ q, q ∈ r.pointers →
        ∃ j, i ≤ j ∧ (q.within (pa.child j) = true ∨ q.within (pb.child j) = true)
  | [], _, pa, pb, i, r, hr => by simp [compareLoop_nil_left] at hr
  | _ :: _, [], pa, pb, i, r, hr => by simp [compareLoop_nil_right] at hr
  | n :: a, m :: b, pa, pb, i, r, hr => by
    intro q hq
    rw [compareLoop_cons, List.mem_append] at hr
    rcases hr with hr | hr
    · exact ⟨i, le_refl i, comparePair_pointers ord n m pa pb i r hr q hq⟩
    · obtain ⟨j, hj, h⟩ := compareLoop_pointers ord a b pa pb (i + 1) r hr q hq
      exact ⟨j, by omega, h⟩
theorem comparePair_pointers (ord : NodePtr → RangeOrder × RangeOrder) :
    ∀ (n m : DOMNode) (pa pb : NodePtr) (i : Nat) (r : Reconciler),
      r ∈ comparePair ord pa pb i n m → ∀ q, q ∈ r.pointers →
        (q.within (pa.child i) = true ∨ q.within (pb.child i) = true)
  | .mk o t p c nm v s ats, m, pa, pb, i, r, hr => by
    intro q hq
    by_cases h : (DOMNode.mk o t p c nm v s ats).IsEqual m = true
    · rw [comparePair_of_IsEqual ord pa pb i _ m h] at hr
      split at hr
      · rw [compareNodes, List.mem_append] at hr
        rcases hr with hr | hr
        · rcases surplusChanges_pointers _ _ _ _ r hr q hq with ⟨j, -, rfl | rfl⟩ | rfl
          · exact Or.inl (NodePtr.within_child_trans _ _ j (NodePtr.within_self _))
          · exact Or.inr (NodePtr.within_child_trans _ _ j (NodePtr.within_self _))
          · exact Or.inr (NodePtr.within_self _)
        · obtain ⟨j, -, hj⟩ := compareLoop_pointers ord c m.ChildNodes (pa.child i)
            (pb.child i) 0 r hr q hq
          rcases hj with hj | hj
          · exact Or.inl (NodePtr.within_child_trans _ _ j hj)
          · exact Or.inr (NodePtr.within_child_trans _ _ j hj)
      · simp at hr
    · rw [comparePair_eq] at hr
      simp only [Bool.not_eq_true] at h
      simp only [h, if_true, List.mem_singleton] at hr
      subst hr
      simp only [Reconciler.pointers, Option.toList_none, Option.toList_some, List.append_nil,
        List.singleton_append, List.mem_cons, List.mem_singleton, List.not_mem_nil,
        or_false] at hq
      rcases hq with rfl | rfl
      · exact Or.inl (NodePtr.within_self _)
      · exact Or.inr (NodePtr.within_self _)
end

theorem Reconciler.touches_eq_false (r : Reconciler) (p : NodePtr)
    (h : ∀ q, q ∈ r.pointers → q.within p = false) : r.touches p = false := by
  simp only [Reconciler.touches, List.any_eq_false]
  intro q hq
  simp [h q hq]

theorem NodePtr.not_within_of_sibling (q pa pb : NodePtr) (i j : Nat) (hij : j ≠ i)
    (htree : pa.tree ≠ pb.tree)
    (h : q.within (pa.child j) = true ∨ q.within (pb.child j) = true) :
    q.within (pa.child i) = false ∧ q.within (pb.child i) = false := by
  rcases h with h | h
  · exact ⟨NodePtr.not_within_sibling q pa i j hij h,
      NodePtr.not_within_other_tree q (pa.child j) (pb.child i) htree h⟩
  · exact ⟨NodePtr.not_within_other_tree q (pb.child j) (pa.child i) (Ne.symm htree) h,
      NodePtr.not_within_sibling q pb i j hij h⟩

theorem NodePtr.owner_not_within_child (p : NodePtr) (i : Nat) :
    p.within (p.child i) = false := by
  cases h : p.within (p.child i)
  · rfl
  · rw [NodePtr.within_iff] at h
    obtain ⟨-, rest, hr⟩ := h
    have := congrArg List.length hr
    simp [NodePtr.child] at this

theorem compareLoop_filter_touches (ord : NodePtr → RangeOrder × RangeOrder) (pa pb : NodePtr)
    (htree : pa.tree ≠ pb.tree) (i : Nat) :
    ∀ (a b : List DOMNode) (i0 : Nat) (n m : DOMNode), i0 ≤ i →
      a[i - i0]? = some n → b[i - i0]? = some m → n.IsEqual m = false →
      (compareLoop ord pa pb i0 a b).filter
          (fun r => r.touches (pa.child i) || r.touches (pb.child i))
        = [replaceChange (pa.child i) (pb.child i)]
  | [], _, i0, n, m, _, hn, _, _ => by simp at hn
  | _ :: _, [], i0, n, m, _, _, hm, _ => by simp at hm
  | x :: a, y :: b, i0, n, m, hi0, hn, hm, hne => by
    rw [compareLoop_cons, List.filter_append]
    by_cases hi : i = i0
    · subst hi
      simp only [Nat.sub_self, List.getElem?_cons_zero, Option.some.injEq] at hn hm
      subst hn hm
      have hrest : (compareLoop ord pa pb (i + 1) a b).filter
          (fun r => r.touches (pa.child i) || r.touches (pb.child i)) = [] := by
        rw [List.filter_eq_nil_iff]
        intro r hr
        have hq' : ∀ q, q ∈ r.pointers →
            q.within (pa.child i) = false ∧ q.within (pb.child i) = false := by
          intro q hq
          obtain ⟨j, hj, h⟩ := compareLoop_pointers ord a b pa pb (i + 1) r hr q hq
          exact NodePtr.not_within_of_sibling q pa pb i j (by omega) htree h
        simp [Reconciler.touches_eq_false r _ (fun q hq => (hq' q hq).1),
          Reconciler.touches_eq_false r _ (fun q hq => (hq' q hq).2)]
      rw [hrest, comparePair_eq, if_pos hne]
      simp [replaceChange, Reconciler.touches, Reconciler.pointers, NodePtr.within_self]
    · have hpair : (comparePair ord pa pb i0 x y).filter
          (fun r => r.touches (pa.child i) || r.touches (pb.child i)) = [] := by
        rw [List.filter_eq_nil_iff]
        intro r hr
        have hq' : ∀ q, q ∈ r.pointers →
            q.within (pa.child i) = false ∧ q.within (pb.child i) = false := by
          intro q hq
          exact NodePtr.not_within_of_sibling q pa pb i i0 (Ne.symm hi) htree
            (comparePair_pointers ord x y pa pb i0 r hr q hq)
        simp [Reconciler.touches_eq_false r _ (fun q hq => (hq' q hq).1),
          Reconciler.touches_eq_false r _ (fun q hq => (hq' q hq).2)]
      have hsub : i - i0 = (i - (i0 + 1)) + 1 := by omega
      rw [hsub, List.getElem?_cons_succ] at hn hm
      rw [hpair, List.nil_append,
        compareLoop_filter_touches ord pa pb htree i a b (i0 + 1) n m (by omega) hn hm hne]

/-- C6: when `old[i]` and `new[i]` are not shallow-equal, the patches emitted by
`compareNodes` that refer to `old[i]`, to `new[i]` or to any of their
descendants (as target, replacement, parent or child) are exactly the one patch
`ReplaceNode(old[i], new[i])`.  The two sibling lists belong to different
trees. -/
theorem C6_shallow_mismatch (ord : NodePtr → RangeOrder × RangeOrder) (pa pb : NodePtr)
    (a b : List DOMNode) (i : Nat) (n m : DOMNode) (htree : pa.tree ≠ pb.tree)
    (hn : a[i]? = some n) (hm : b[i]? = some m) (hne : n.IsEqual m = false) :
    (compareNodes ord pa pb a b).filter
        (fun r => r.touches (pa.child i) || r.touches (pb.child i))
      = [replaceChange (pa.child i) (pb.child i)] := by
  have hia : i < a.length := (List.getElem?_eq_some_iff.1 hn).1
  have hib : i < b.length := (List.getElem?_eq_some_iff.1 hm).1
  have hsurplus : (surplusChanges pa pb a.length b.length).filter
      (fun r => r.touches (pa.child i) || r.touches (pb.child i)) = [] := by
    rw [List.filter_eq_nil_iff]
    intro r hr
    have hq' : ∀ q, q ∈ r.pointers →
        q.within (pa.child i) = false ∧ q.within (pb.child i) = false := by
      intro q hq
      rcases surplusChanges_pointers pa pb _ _ r hr q hq with ⟨j, hj, rfl | rfl⟩ | rfl
      · exact NodePtr.not_within_of_sibling _ pa pb i j (by omega) htree
          (Or.inl (NodePtr.within_self _))
      · exact NodePtr.not_within_of_sibling _ pa pb i j (by omega) htree
          (Or.inr (NodePtr.within_self _))
      · exact ⟨NodePtr.not_within_other_tree q q (pa.child i) (Ne.symm htree)
          (NodePtr.within_self _), NodePtr.owner_not_within_child q i⟩
    simp [Reconciler.touches_eq_false r _ (fun q hq => (hq' q hq).1),
      Reconciler.touches_eq_false r _ (fun q hq => (hq' q hq).2)]
  rw [compareNodes, List.filter_append, hsurplus, List.nil_append]
  exact compareLoop_filter_touches ord pa pb htree i a b 0 n m (Nat.zero_le i) hn hm hne

/-- Witness of C6: `<div><p>Hi</p></div>` against `<span><p>Bye</p></span>`
(the roots differ by tag name alone, their descendants differ too) gives no
patch below the roots. -/
theorem C6_shallow_mismatch_witness :
    (compareNodes ordInsertion ⟨TreeId.old, []⟩ ⟨TreeId.new, []⟩
        scenario1Old.ChildNodes
        [elementNode "span" [] [0] [elementNode "p" [] [0, 0] [textNode [66] [0, 0, 0]]]]).filter
        (fun r => r.touches ⟨TreeId.old, [0]⟩ || r.touches ⟨TreeId.new, [0]⟩)
      = [replaceChange ⟨TreeId.old, [0]⟩ ⟨TreeId.new, [0]⟩] :=
  C6_shallow_mismatch ordInsertion ⟨TreeId.old, []⟩ ⟨TreeId.new, []⟩ scenario1Old.ChildNodes
    [elementNode "span" [] [0] [elementNode "p" [] [0, 0] [textNode [66] [0, 0, 0]]]] 0
    _ _ (by decide) rfl rfl (by decide)

/-! ## `Locate` -/

theorem goIndex_eq_none_iff {α : Type} (s : List α) (i : Int) :
    goIndex s i = none ↔ i < 0 ∨ (s.length : Int) ≤ i := by
  unfold goIndex
  by_cases h : 0 ≤ i
  · rw [if_pos h, List.getElem?_eq_none_iff]
    omega
  · rw [if_neg h]
    simp only [true_iff]
    omega

theorem goIndex_natCast {α : Type} (s : List α) (i : Nat) : goIndex s (i : Int) = s[i]? := by
  simp [goIndex]

theorem foldlM_goIndex_eq_nodeAt (rest : List Int) (result : LiveNode) :
    rest.foldlM (fun result index => goIndex result.childNodes index) result
      = result.nodeAt rest := by
  induction rest generalizing result with
  | nil => rfl
  | cons i rest ih =>
    rw [List.foldlM_cons, LiveNode.nodeAt]
    cases h : goIndex result.childNodes i with
    | none => rfl
    | some child => exact ih child

theorem DOMNode.Locate_eq_nodeAt (dn : DOMNode) (rootElement : LiveNode)
    (h : dn.Position ≠ []) : dn.Locate rootElement = rootElement.nodeAt dn.Position := by
  unfold DOMNode.Locate
  cases hp : dn.Position with
  | nil => exact absurd hp h
  | cons first rest =>
    simp only [LiveNode.nodeAt]
    cases goIndex rootElement.childNodes first with
    | none => rfl
    | some result => exact foldlM_goIndex_eq_nodeAt rest result

theorem LiveNode.nodeAt_eq_none_iff (address : List Int) (root : LiveNode) :
    root.nodeAt address = none ↔
      ∃ k index node, address[k]? = some index ∧ root.nodeAt (address.take k) = some node ∧
        (index < 0 ∨ (node.childNodes.length : Int) ≤ index) := by
  induction address generalizing root with
  | nil => simp [LiveNode.nodeAt]
  | cons i rest ih =>
    rw [LiveNode.nodeAt]
    cases h : goIndex root.childNodes i with
    | none =>
      simp only [true_iff]
      exact ⟨0, i, root, by simp, rfl, (goIndex_eq_none_iff _ _).1 h⟩
    | some child =>
      simp only [ih child]
      constructor
      · rintro ⟨k, index, node, h1, h2, h3⟩
        refine ⟨k + 1, index, node, by simpa using h1, ?_, h3⟩
        simp [LiveNode.nodeAt, h, h2]
      · rintro ⟨k, index, node, h1, h2, h3⟩
        cases k with
        | zero =>
          simp only [List.getElem?_cons_zero, Option.some.injEq, List.take_zero,
            LiveNode.nodeAt] at h1 h2
          subst h1 h2
          rw [(goIndex_eq_none_iff _ _).2 h3] at h
          cases h
        | succ k =>
          refine ⟨k, index, node, by simpa using h1, ?_, h3⟩
          simpa [LiveNode.nodeAt, h] using h2

/-- C9: for a node with address `[p0, ..., pm]`, `Locate` returns the live node
`root.children[p0]...children[pm]`, and it fails exactly when the address is
empty or some index along the walk is negative or not less than the number of
children of the live node reached at that step. -/
theorem C9_Locate (dn : DOMNode) (rootElement : LiveNode) :
    (dn.Locate rootElement
      = if dn.Position = [] then none else rootElement.nodeAt dn.Position) ∧
    (dn.Locate rootElement = none ↔
      dn.Position = [] ∨
        ∃ k index node, dn.Position[k]? = some index ∧
          rootElement.nodeAt (dn.Position.take k) = some node ∧
          (index < 0 ∨ (node.childNodes.length : Int) ≤ index)) := by
  by_cases h : dn.Position = []
  · have hnone : dn.Locate rootElement = none := by simp [DOMNode.Locate, h]
    simp [h, hnone]
  · rw [DOMNode.Locate_eq_nodeAt dn rootElement h, LiveNode.nodeAt_eq_none_iff]
    simp [h]

/-! ## Lemmas: reading and rewriting a parse tree -/

theorem getNode_cons (roots : List DOMNode) (i : Nat) (rest : List Nat) :
    getNode roots (i :: rest)
      = match roots[i]? with
        | none => none
        | some n => if rest = [] then some n else getNode n.ChildNodes rest := by
  cases rest with
  | nil => simp [getNode]
  | cons j r => simp [getNode]

theorem getNode_singleton (roots : List DOMNode) (i : Nat) : getNode roots [i] = roots[i]? := by
  rw [getNode_cons]; cases roots[i]? <;> simp

theorem childrenAt_cons (roots : List DOMNode) (i : Nat) (rest : List Nat) :
    childrenAt roots (i :: rest)
      = match roots[i]? with
        | none => none
        | some n => childrenAt n.ChildNodes rest := by
  simp only [childrenAt, getNode_cons]
  cases h : roots[i]? with
  | none => rfl
  | some n =>
    cases rest with
    | nil => simp
    | cons j r => simp

theorem getNode_append (roots : List DOMNode) (q rest : List Nat) (hrest : rest ≠ []) :
    getNode roots (q ++ rest)
      = match childrenAt roots q with
        | none => none
        | some cs => getNode cs rest := by
  induction q generalizing roots with
  | nil => simp [childrenAt]
  | cons i q ih =>
    rw [List.cons_append, getNode_cons, childrenAt_cons]
    cases h : roots[i]? with
    | none => rfl
    | some n =>
      have hne : q ++ rest ≠ [] := by simp [hrest]
      simp only [hne, if_false]
      exact ih n.ChildNodes

theorem getNode_snoc (roots : List DOMNode) (q : List Nat) (j : Nat) :
    getNode roots (q ++ [j])
      = match childrenAt roots q with
        | none => none
        | some cs => cs[j]? := by
  rw [getNode_append roots q [j] (by simp)]
  cases childrenAt roots q with
  | none => rfl
  | some cs => exact getNode_singleton cs j

theorem DOMNode.withChildNodes_NodeType (n : DOMNode) (c : List DOMNode) :
    (n.withChildNodes c).NodeType = n.NodeType := by cases n; rfl

theorem DOMNode.withChildNodes_Position (n : DOMNode) (c : List DOMNode) :
    (n.withChildNodes c).Position = n.Position := by cases n; rfl

theorem DOMNode.withChildNodes_ChildNodes (n : DOMNode) (c : List DOMNode) :
    (n.withChildNodes c).ChildNodes = c := by cases n; rfl

theorem DOMNode.withPosition_NodeType (n : DOMNode) (p : List Int) :
    (n.withPosition p).NodeType = n.NodeType := by cases n; rfl

theorem DOMNode.withPosition_Position (n : DOMNode) (p : List Int) :
    (n.withPosition p).Position = p := by cases n; rfl

theorem DOMNode.withPosition_ChildNodes (n : DOMNode) (p : List Int) :
    (n.withPosition p).ChildNodes = n.ChildNodes := by cases n; rfl

/-- What a rewrite of the child list at `q` does to the nodes of the tree. -/
theorem modifyChildren_getNode (f : List DOMNode → Option (List DOMNode)) :
    ∀ (q : List Nat) (F F' : List DOMNode), modifyChildren F q f = some F' →
      ∃ cs cs', childrenAt F q = some cs ∧ f cs = some cs' ∧
        (∀ rest, rest ≠ [] → getNode F' (q ++ rest) = getNode cs' rest) ∧
        (∀ p', (¬ ∃ rest, rest ≠ [] ∧ p' = q ++ rest) →
          (getNode F' p').map DOMNode.Position = (getNode F p').map DOMNode.Position ∧
          (getNode F' p').map DOMNode.NodeType = (getNode F p').map DOMNode.NodeType)
  | [], F, F', h => by
    refine ⟨F, F', rfl, h, fun rest _ => rfl, ?_⟩
    intro p' hp'
    cases p' with
    | nil => simp [getNode]
    | cons j r => exact absurd ⟨j :: r, by simp, rfl⟩ hp'
  | i :: q, F, F', h => by
    rw [modifyChildren] at h
    cases hn : F[i]? with
    | none => simp [hn] at h
    | some n =>
      cases hc : modifyChildren n.ChildNodes q f with
      | none => simp [hn, hc] at h
      | some c =>
        simp only [hn, hc, Option.some.injEq] at h
        subst h
        have hi : i < F.length := (List.getElem?_eq_some_iff.1 hn).1
        obtain ⟨cs, cs', h1, h2, h3, h4⟩ := modifyChildren_getNode f q n.ChildNodes c hc
        refine ⟨cs, cs', ?_, h2, ?_, ?_⟩
        · rw [childrenAt_cons, hn]; exact h1
        · intro rest hrest
          have hne : q ++ rest ≠ [] := by simp [hrest]
          rw [List.cons_append, getNode_cons, List.getElem?_set_self hi]
          simp only [hne, if_false, DOMNode.withChildNodes_ChildNodes]
          exact h3 rest hrest
        · intro p' hp'
          cases p' with
          | nil => simp [getNode]
          | cons j r =>
            rw [getNode_cons, getNode_cons]
            by_cases hj : j = i
            · subst hj
              rw [List.getElem?_set_self hi, hn]
              by_cases hr : r = []
              · simp [hr, DOMNode.withChildNodes_NodeType, DOMNode.withChildNodes_Position]
              · simp only [hr, if_false, DOMNode.withChildNodes_ChildNodes]
                apply h4
                rintro ⟨rest, hrest, rfl⟩
                exact hp' ⟨rest, hrest, rfl⟩
            · rw [List.getElem?_set_ne (Ne.symm hj)]
              exact ⟨rfl, rfl⟩

theorem modifyChildren_isSome (f : List DOMNode → Option (List DOMNode)) :
    ∀ (q : List Nat) (F cs cs' : List DOMNode), childrenAt F q = some cs → f cs = some cs' →
      ∃ F', modifyChildren F q f = some F'
  | [], F, cs, cs', h1, h2 => by
    simp only [childrenAt, Option.some.injEq] at h1
    subst h1
    exact ⟨cs', h2⟩
  | i :: q, F, cs, cs', h1, h2 => by
    rw [childrenAt_cons] at h1
    rw [modifyChildren]
    cases hn : F[i]? with
    | none => simp [hn] at h1
    | some n =>
      simp only [hn] at h1
      obtain ⟨c, hc⟩ := modifyChildren_isSome f q n.ChildNodes cs cs' h1 h2
      exact ⟨F.set i (n.withChildNodes c), by simp [hc]⟩

/-! ## Lemmas: the renumbering loop of `RemoveNode` -/

theorem decrementLast_spec (s s' : DOMNode) (h : decrementLast s = some s') :
    s'.NodeType = s.NodeType ∧ s'.ChildNodes = s.ChildNodes ∧
      s'.Position = decrementAddress s.Position := by
  unfold decrementLast at h
  split at h
  · cases hl : s.Position.getLast? with
    | none => simp [hl] at h
    | some last =>
      simp only [hl, Option.some.injEq] at h
      subst h
      simp [DOMNode.withPosition_NodeType, DOMNode.withPosition_ChildNodes,
        DOMNode.withPosition_Position, decrementAddress, hl]
  · cases h

theorem decrementLast_isSome (s : DOMNode)
    (hkind : s.NodeType = ElementNodeType ∨ s.NodeType = CommentNodeType ∨
      s.NodeType = TextNodeType) (hpos : s.Position ≠ []) :
    ∃ s', decrementLast s = some s' := by
  unfold decrementLast
  have hk : s.NodeType = ElementNodeType ∨ s.NodeType = TextNodeType ∨
      s.NodeType = CommentNodeType := by tauto
  rw [if_pos hk]
  cases hl : s.Position.getLast? with
  | none => exact absurd (List.getLast?_eq_none_iff.1 hl) hpos
  | some last => exact ⟨_, rfl⟩

theorem decrementAll_spec : ∀ (l l' : List DOMNode), decrementAll l = some l' →
    l'.length = l.length ∧ ∀ j : Nat, l'[j]? = (l[j]?).bind decrementLast
  | [], l', h => by
    simp only [decrementAll, Option.some.injEq] at h
    subst h
    simp
  | s :: rest, l', h => by
    rw [decrementAll] at h
    cases hs : decrementLast s with
    | none => simp [hs] at h
    | some s' =>
      cases hr : decrementAll rest with
      | none => simp [hs, hr] at h
      | some rest' =>
        simp only [hs, hr, Option.some.injEq] at h
        subst h
        obtain ⟨hlen, hget⟩ := decrementAll_spec rest rest' hr
        refine ⟨by simp [hlen], ?_⟩
        intro j
        cases j with
        | zero => simp [hs]
        | succ j => simpa using hget j

theorem decrementAll_isSome : ∀ (l : List DOMNode),
    (∀ s, s ∈ l → ∃ s', decrementLast s = some s') → ∃ l', decrementAll l = some l'
  | [], _ => ⟨[], rfl⟩
  | s :: rest, h => by
    obtain ⟨s', hs⟩ := h s (List.mem_cons_self _ _)
    obtain ⟨rest', hr⟩ := decrementAll_isSome rest
      (fun x hx => h x (List.mem_cons_of_mem _ hx))
    exact ⟨s' :: rest', by simp [decrementAll, hs, hr]⟩

theorem renumberSiblings_spec (lastIndex : Int) (cs cs' : List DOMNode)
    (h : renumberSiblings lastIndex cs = some cs') :
    0 ≤ lastIndex ∧ cs'.length = cs.length ∧
      ∀ j : Nat, cs'[j]? = if j < lastIndex.toNat then cs[j]? else (cs[j]?).bind decrementLast := by
  unfold renumberSiblings at h
  split at h
  · rename_i hb
    cases hd : decrementAll (cs.drop lastIndex.toNat) with
    | none => simp [hd] at h
    | some tail =>
      simp only [hd, Option.some.injEq] at h
      subst h
      obtain ⟨hlen, hget⟩ := decrementAll_spec _ _ hd
      have hk : lastIndex.toNat ≤ cs.length := by omega
      refine ⟨hb.1, ?_, ?_⟩
      · simp only [List.length_append, List.length_take, hlen, List.length_drop]
        omega
      · intro j
        by_cases hj : j < lastIndex.toNat
        · rw [if_pos hj, List.getElem?_append_left (by simp; omega), List.getElem?_take_of_lt hj]
        · rw [if_neg hj, List.getElem?_append_right (by simp; omega), hget]
          simp only [List.length_take, List.getElem?_drop, Nat.min_eq_left hk]
          congr 2
          omega
  · cases h

theorem renumberSiblings_isSome (lastIndex : Int) (cs : List DOMNode)
    (h0 : 0 ≤ lastIndex) (hlen : lastIndex ≤ cs.length)
    (hs : ∀ j s, lastIndex.toNat ≤ j → cs[j]? = some s → ∃ s', decrementLast s = some s') :
    ∃ cs', renumberSiblings lastIndex cs = some cs' := by
  unfold renumberSiblings
  rw [if_pos ⟨h0, hlen⟩]
  obtain ⟨tail, ht⟩ := decrementAll_isSome (cs.drop lastIndex.toNat) (by
    intro s hmem
    obtain ⟨j, hj⟩ := List.mem_iff_getElem?.1 hmem
    rw [List.getElem?_drop] at hj
    exact hs _ s (by omega) hj)
  exact ⟨cs.take lastIndex.toNat ++ tail, by simp [ht]⟩

theorem renumberSiblings_getNode (lastIndex : Int) (cs cs' : List DOMNode)
    (h : renumberSiblings lastIndex cs = some cs') (j : Nat) (r : List Nat) :
    (getNode cs' (j :: r)).map DOMNode.NodeType = (getNode cs (j :: r)).map DOMNode.NodeType ∧
    (getNode cs' (j :: r)).map DOMNode.Position
      = (getNode cs (j :: r)).map fun n =>
          if r = [] ∧ lastIndex.toNat ≤ j then decrementAddress n.Position else n.Position := by
  obtain ⟨-, hlen, hget⟩ := renumberSiblings_spec lastIndex cs cs' h
  rw [getNode_cons, getNode_cons, hget j]
  by_cases hj : j < lastIndex.toNat
  · have hnot : ¬ (r = [] ∧ lastIndex.toNat ≤ j) := by omega
    simp only [if_pos hj, hnot, if_false]
    exact ⟨trivial, by simp⟩
  · rw [if_neg hj]
    cases hc : cs[j]? with
    | none => simp
    | some s =>
      cases hd : decrementLast s with
      | none =>
        have hjlt : j < cs.length := (List.getElem?_eq_some_iff.1 hc).1
        have hnone := hget j
        rw [if_neg hj, hc, Option.some_bind, hd, List.getElem?_eq_none_iff] at hnone
        omega
      | some s' =>
        obtain ⟨h1, h2, h3⟩ := decrementLast_spec s s' hd
        have hle : lastIndex.toNat ≤ j := Nat.le_of_not_lt hj
        by_cases hr : r = []
        · simp only [Option.some_bind, hd, hr, if_true, Option.map_some', h1, h3, hle, and_self]
        · simp only [Option.some_bind, hd, hr, if_false, h2, false_and, true_and]

/-- The effect of the renumbering of `RemoveNode` on node kinds and addresses. -/
theorem renumber_effect (lastIndex : Int) (q : List Nat) (F F' : List DOMNode)
    (h : modifyChildren F q (renumberSiblings lastIndex) = some F') :
    (∀ p', (getNode F' p').map DOMNode.NodeType = (getNode F p').map DOMNode.NodeType) ∧
    (∀ j, lastIndex.toNat ≤ j →
      (getNode F' (q ++ [j])).map DOMNode.Position
        = (getNode F (q ++ [j])).map fun n => decrementAddress n.Position) ∧
    (∀ p', (¬ ∃ j, p' = q ++ [j] ∧ lastIndex.toNat ≤ j) →
      (getNode F' p').map DOMNode.Position = (getNode F p').map DOMNode.Position) := by
  obtain ⟨cs, cs', h1, h2, h3, h4⟩ := modifyChildren_getNode _ q F F' h
  have hin : ∀ j r, getNode F (q ++ j :: r) = getNode cs (j :: r) := by
    intro j r
    rw [getNode_append F q (j :: r) (by simp), h1]
  refine ⟨?_, ?_, ?_⟩
  · intro p'
    by_cases hp : ∃ rest, rest ≠ [] ∧ p' = q ++ rest
    · obtain ⟨rest, hrest, rfl⟩ := hp
      cases rest with
      | nil => exact absurd rfl hrest
      | cons j r =>
        rw [h3 _ hrest, hin]
        exact (renumberSiblings_getNode lastIndex cs cs' h2 j r).1
    · exact (h4 p' hp).2
  · intro j hj
    rw [h3 [j] (by simp), hin]
    have := (renumberSiblings_getNode lastIndex cs cs' h2 j []).2
    simpa only [hj, and_self, if_true] using this
  · intro p' hp'
    by_cases hp : ∃ rest, rest ≠ [] ∧ p' = q ++ rest
    · obtain ⟨rest, hrest, rfl⟩ := hp
      cases rest with
      | nil => exact absurd rfl hrest
      | cons j r =>
        rw [h3 _ hrest, hin]
        have hnot : ¬ (r = [] ∧ lastIndex.toNat ≤ j) := by
          rintro ⟨rfl, hj⟩
          exact hp' ⟨j, rfl, hj⟩
        have := (renumberSiblings_getNode lastIndex cs cs' h2 j r).2
        simpa only [hnot, if_false] using this
    · exact (h4 p' hp).1

/-! ## Lemmas: fresh, well-kinded trees and their mirror -/

theorem mirrorList_eq_map (l : List DOMNode) : mirrorList l = l.map mirror := by
  induction l with
  | nil => rfl
  | cons n rest ih => simp [mirrorList, ih]

theorem mirrorList_length (l : List DOMNode) : (mirrorList l).length = l.length := by
  simp [mirrorList_eq_map]

theorem mirrorList_getElem? (l : List DOMNode) (i : Nat) :
    (mirrorList l)[i]? = (l[i]?).map mirror := by
  simp [mirrorList_eq_map]

theorem mirror_childNodes (n : DOMNode) : (mirror n).childNodes = mirrorList n.ChildNodes := by
  cases n; rfl

theorem freshNode_Position (address : List Nat) (n : DOMNode)
    (h : freshNode address n = true) : n.Position = addressOf address := by
  cases n
  simp only [freshNode, Bool.and_eq_true, decide_eq_true_eq] at h
  exact h.1

theorem freshNode_ChildNodes (address : List Nat) (n : DOMNode)
    (h : freshNode address n = true) : freshList address 0 n.ChildNodes = true := by
  cases n
  simp only [freshNode, Bool.and_eq_true, decide_eq_true_eq] at h
  exact h.2

theorem freshList_getElem? (owner : List Nat) : ∀ (l : List DOMNode) (i j : Nat) (n : DOMNode),
    freshList owner i l = true → l[j]? = some n → freshNode (owner ++ [i + j]) n = true
  | [], _, _, _, _, hj => by simp at hj
  | x :: rest, i, j, n, h, hj => by
    simp only [freshList, Bool.and_eq_true] at h
    cases j with
    | zero =>
      simp only [List.getElem?_cons_zero, Option.some.injEq] at hj
      subst hj
      simpa using h.1
    | succ j =>
      simp only [List.getElem?_cons_succ] at hj
      have := freshList_getElem? owner rest (i + 1) j n h.2 hj
      rwa [show i + 1 + j = i + (j + 1) by omega] at this

theorem fresh_getNode : ∀ (p owner : List Nat) (l : List DOMNode) (n : DOMNode),
    freshList owner 0 l = true → getNode l p = some n → freshNode (owner ++ p) n = true
  | [], _, _, _, _, h => by simp [getNode] at h
  | i :: r, owner, l, n, hf, h => by
    rw [getNode_cons] at h
    cases hx : l[i]? with
    | none => simp [hx] at h
    | some x =>
      have hfx := freshList_getElem? owner l 0 i x hf hx
      rw [Nat.zero_add] at hfx
      simp only [hx] at h
      by_cases hr : r = []
      · subst hr
        simp only [if_true, Option.some.injEq] at h
        subst h
        exact hfx
      · simp only [hr, if_false] at h
        have := fresh_getNode r (owner ++ [i]) x.ChildNodes n
          (freshNode_ChildNodes _ x hfx) h
        simpa using this

theorem fresh_getNode_Position (F : List DOMNode) (p : List Nat) (n : DOMNode)
    (hf : freshList [] 0 F = true) (h : getNode F p = some n) : n.Position = addressOf p :=
  freshNode_Position p n (by simpa using fresh_getNode p [] F n hf h)

theorem kindsOk_NodeType (n : DOMNode) (h : n.kindsOk = true) :
    n.NodeType = ElementNodeType ∨ n.NodeType = CommentNodeType ∨
      n.NodeType = TextNodeType := by
  cases n
  simp only [DOMNode.kindsOk, Bool.and_eq_true, Bool.or_eq_true, decide_eq_true_eq] at h
  simp only [DOMNode.NodeType]
  tauto

theorem kindsOk_ChildNodes (n : DOMNode) (h : n.kindsOk = true) :
    kindsOkList n.ChildNodes = true := by
  cases n
  simp only [DOMNode.kindsOk, Bool.and_eq_true] at h
  exact h.2

theorem kindsOkList_getElem? : ∀ (l : List DOMNode) (j : Nat) (n : DOMNode),
    kindsOkList l = true → l[j]? = some n → n.kindsOk = true
  | [], _, _, _, hj => by simp at hj
  | x :: rest, j, n, h, hj => by
    simp only [kindsOkList, Bool.and_eq_true] at h
    cases j with
    | zero =>
      simp only [List.getElem?_cons_zero, Option.some.injEq] at hj
      subst hj
      exact h.1
    | succ j =>
      simp only [List.getElem?_cons_succ] at hj
      exact kindsOkList_getElem? rest j n h.2 hj

theorem kindsOk_getNode : ∀ (p : List Nat) (l : List DOMNode) (n : DOMNode),
    kindsOkList l = true → getNode l p = some n → n.kindsOk = true
  | [], _, _, _, h => by simp [getNode] at h
  | i :: r, l, n, hk, h => by
    rw [getNode_cons] at h
    cases hx : l[i]? with
    | none => simp [hx] at h
    | some x =>
      have hkx := kindsOkList_getElem? l i x hk hx
      simp only [hx] at h
      by_cases hr : r = []
      · subst hr
        simp only [if_true, Option.some.injEq] at h
        subst h
        exact hkx
      · simp only [hr, if_false] at h
        exact kindsOk_getNode r x.ChildNodes n (kindsOk_ChildNodes x hkx) h

theorem addressOf_cons (i : Nat) (r : List Nat) : addressOf (i :: r) = (i : Int) :: addressOf r :=
  rfl

theorem addressOf_append (p q : List Nat) : addressOf (p ++ q) = addressOf p ++ addressOf q := by
  simp [addressOf]

theorem addressOf_eq_nil (p : List Nat) : addressOf p = [] ↔ p = [] := by
  simp [addressOf]

/-- In a document whose root children mirror the forest `F`, the address of a
node of `F` leads to its mirror. -/
theorem nodeAt_mirror : ∀ (p : List Nat) (root : LiveNode) (F : List DOMNode),
    root.childNodes = mirrorList F → p ≠ [] →
      root.nodeAt (addressOf p) = (getNode F p).map mirror
  | [], _, _, _, hp => absurd rfl hp
  | i :: r, root, F, hroot, _ => by
    rw [addressOf_cons, LiveNode.nodeAt, hroot, goIndex_natCast, mirrorList_getElem?,
      getNode_cons]
    cases hx : F[i]? with
    | none => rfl
    | some x =>
      simp only [Option.map_some']
      by_cases hr : r = []
      · subst hr
        simp [addressOf, LiveNode.nodeAt]
      · simp only [hr, if_false]
        exact nodeAt_mirror r (mirror x) x.ChildNodes (mirror_childNodes x) hr

/-! ## Lemmas: one patch applied -/

theorem LiveNode.nodeAt_append : ∀ (a b : List Int) (root : LiveNode),
    root.nodeAt (a ++ b) = (root.nodeAt a).bind fun n => n.nodeAt b
  | [], _, _ => rfl
  | i :: a, b, root => by
    simp only [List.cons_append, LiveNode.nodeAt]
    cases goIndex root.childNodes i with
    | none => rfl
    | some child => exact LiveNode.nodeAt_append a b child

theorem LiveNode.nodeAt_snoc (a : List Int) (k : Nat) (root X : LiveNode)
    (hX : root.nodeAt a = some X) : root.nodeAt (a ++ [(k : Int)]) = X.childNodes[k]? := by
  rw [LiveNode.nodeAt_append, hX]
  simp only [Option.some_bind, LiveNode.nodeAt, goIndex_natCast]
  cases X.childNodes[k]? <;> rfl

theorem NodePtr.ParentNode_snoc (t : TreeId) (q : List Nat) (j : Nat) (hq : q ≠ []) :
    NodePtr.ParentNode ⟨t, q ++ [j]⟩ = some ⟨t, q⟩ := by
  have := NodePtr.ParentNode_child ⟨t, q⟩ j
  simpa [NodePtr.child, hq] using this

theorem NodePtr.ParentNode_singleton (t : TreeId) (j : Nat) :
    NodePtr.ParentNode ⟨t, [j]⟩ = none := by
  simp [NodePtr.ParentNode]

theorem Heap.locateParent_snoc (h : Heap) (t : TreeId) (q : List Nat) (j : Nat)
    (parentNode : DOMNode) (X : LiveNode) (hq : q ≠ [])
    (hpar : getNode (h.tree t).ChildNodes q = some parentNode)
    (hppos : parentNode.Position = addressOf q)
    (hX : h.live.nodeAt (addressOf q) = some X) :
    h.locateParent ⟨t, q ++ [j]⟩ = some (addressOf q) := by
  have hne : parentNode.Position ≠ [] := by
    rw [hppos]; exact fun hc => hq ((addressOf_eq_nil q).1 hc)
  simp only [Heap.locateParent, NodePtr.ParentNode_snoc t q j hq, Heap.node, hpar,
    DOMNode.Locate_eq_nodeAt parentNode h.live hne, hppos, hX]

theorem Heap.locateParent_singleton (h : Heap) (t : TreeId) (j : Nat) :
    h.locateParent ⟨t, [j]⟩ = some [] := by
  simp [Heap.locateParent, NodePtr.ParentNode_singleton]

/-- `RemoveNode` on a child of an element whose live counterpart holds the
target at index `k`. -/
theorem RemoveNode_child (h : Heap) (q : List Nat) (j k : Nat)
    (existing parentNode : DOMNode) (X : LiveNode) (F' : List DOMNode) (hq : q ≠ [])
    (hex : getNode h.old.ChildNodes (q ++ [j]) = some existing)
    (hpos : existing.Position = addressOf q ++ [(k : Int)])
    (hpar : getNode h.old.ChildNodes q = some parentNode)
    (hppos : parentNode.Position = addressOf q)
    (hX : h.live.nodeAt (addressOf q) = some X) (hk : k < X.childNodes.length)
    (hren : modifyChildren h.old.ChildNodes q (renumberSiblings k) = some F') :
    (removeChange ⟨TreeId.old, q ++ [j]⟩).RemoveNode h
      = some ⟨{ h.old with ChildNodes := F' }, h.new,
          h.live.replaceAt (addressOf q) (X.withChildNodes (X.childNodes.eraseIdx k))⟩ := by
  have hne : existing.Position ≠ [] := by rw [hpos]; simp
  have hloc : existing.Locate h.live = X.childNodes[k]? := by
    rw [DOMNode.Locate_eq_nodeAt existing h.live hne, hpos]
    exact LiveNode.nodeAt_snoc _ k h.live X hX
  obtain ⟨self, hself⟩ : ∃ self, X.childNodes[k]? = some self :=
    ⟨_, List.getElem?_eq_getElem hk⟩
  have hlp := Heap.locateParent_snoc h TreeId.old q j parentNode X hq hpar hppos hX
  have hrm : h.live.removeChild (addressOf q) existing.Position
      = some (h.live.replaceAt (addressOf q)
          (X.withChildNodes (X.childNodes.eraseIdx k))) := by
    simp [LiveNode.removeChild, hX, hpos, List.dropLast_concat, goIndex_natCast, hself]
  rw [hpos] at hrm
  simp only [Reconciler.RemoveNode, removeChange, Heap.node, Heap.tree, hex, hlp, hloc, hself,
    NodePtr.ParentNode_snoc TreeId.old q j hq, hpos, List.getLast?_append, Heap.setRoots]
  simp [hrm, hren]

theorem ApplyChange_removeChange (host : List Nat → List LiveNode) (p : NodePtr) (h : Heap) :
    (removeChange p).ApplyChange host h
      = ((removeChange p).RemoveNode h).map fun h' => (h', none) := by
  simp [Reconciler.ApplyChange, removeChange, RemoveNodeAction, SetNodeAttributeAction,
    RemoveNodeAttributeAction]

theorem ApplyChange_replaceChange (host : List Nat → List LiveNode) (p p' : NodePtr) (h : Heap) :
    (replaceChange p p').ApplyChange host h
      = ((replaceChange p p').ReplaceNode host h).map fun h' => (h', none) := by
  simp [Reconciler.ApplyChange, replaceChange, RemoveNodeAction, SetNodeAttributeAction,
    RemoveNodeAttributeAction, ReplaceNodeAction]

theorem ApplyChange_appendChange (host : List Nat → List LiveNode) (p : Option NodePtr)
    (p' : NodePtr) (h : Heap) :
    (appendChange p p').ApplyChange host h
      = ((appendChange p p').AppendChildNode host h).map fun h' => (h', none) := by
  simp [Reconciler.ApplyChange, appendChange, RemoveNodeAction, SetNodeAttributeAction,
    RemoveNodeAttributeAction, ReplaceNodeAction, AppendChildNodeAction]

theorem getNode_ne_nil (F : List DOMNode) (q : List Nat) (n : DOMNode)
    (h : getNode F q = some n) : q ≠ [] := by
  rintro rfl
  simp [getNode] at h

theorem childrenAt_of_getNode (F : List DOMNode) (q : List Nat) (n : DOMNode)
    (h : getNode F q = some n) : childrenAt F q = some n.ChildNodes := by
  cases q with
  | nil => simp [getNode] at h
  | cons i r => simp [childrenAt, h]

theorem decrementAddress_snoc (a : List Int) (x : Int) :
    decrementAddress (a ++ [x]) = a ++ [x - 1] := by
  simp [decrementAddress, List.dropLast_concat]

/-! ## Sibling shift of `RemoveNode` -/

/-- C8, amended: in a freshly parsed old tree mirrored by the live tree, applying
a `RemoveNode` patch whose target is the child at index `k` of a parent with
`n` children succeeds and decrements by exactly one the trailing address
component of every old-tree sibling at index `j ≥ k` (the removed node itself
included), leaving the other components of those addresses unchanged; the
address of every other node of the old tree, and the new tree, are unchanged. -/
theorem C8_sibling_shift (host : List Nat → List LiveNode) (old new : ParseTree)
    (root : LiveNode) (q : List Nat) (parent : DOMNode) (k : Nat)
    (hfresh : freshList [] 0 old.ChildNodes = true)
    (hkinds : kindsOkList old.ChildNodes = true)
    (hlive : root.childNodes = mirrorList old.ChildNodes)
    (hparent : getNode old.ChildNodes q = some parent) (hk : k < parent.ChildNodes.length) :
    ∃ h', (removeChange ⟨TreeId.old, q ++ [k]⟩).ApplyChange host ⟨old, new, root⟩
        = some (h', none) ∧
      h'.new = new ∧
      (∀ j, k ≤ j → j < parent.ChildNodes.length →
        (getNode h'.old.ChildNodes (q ++ [j])).map DOMNode.Position
          = some (addressOf q ++ [(j : Int) - 1])) ∧
      (∀ p', (¬ ∃ j, p' = q ++ [j] ∧ k ≤ j) →
        (getNode h'.old.ChildNodes p').map DOMNode.Position
          = (getNode old.ChildNodes p').map DOMNode.Position) := by
  have hq : q ≠ [] := getNode_ne_nil _ _ _ hparent
  have hcs := childrenAt_of_getNode _ _ _ hparent
  have hchild : ∀ j, getNode old.ChildNodes (q ++ [j]) = parent.ChildNodes[j]? := by
    intro j; rw [getNode_snoc, hcs]
  have hpos : ∀ (j : Nat) (s : DOMNode), parent.ChildNodes[j]? = some s →
      s.Position = addressOf q ++ [(j : Int)] := by
    intro j s hs
    rw [fresh_getNode_Position old.ChildNodes (q ++ [j]) s hfresh ((hchild j).trans hs),
      addressOf_append]
    rfl
  obtain ⟨cs', hcs'⟩ := renumberSiblings_isSome (k : Int) parent.ChildNodes (by omega)
    (by exact_mod_cast Nat.le_of_lt hk) (by
      intro j s _ hs
      refine decrementLast_isSome s
        (kindsOk_NodeType s (kindsOk_getNode (q ++ [j]) old.ChildNodes s hkinds
          ((hchild j).trans hs))) ?_
      rw [hpos j s hs]; simp)
  obtain ⟨F', hF'⟩ := modifyChildren_isSome _ q old.ChildNodes _ _ hcs hcs'
  have hX : root.nodeAt (addressOf q) = some (mirror parent) := by
    rw [nodeAt_mirror q root old.ChildNodes hlive hq, hparent]; rfl
  have hstep := RemoveNode_child ⟨old, new, root⟩ q k k (parent.ChildNodes[k]) parent
    (mirror parent) F' hq ((hchild k).trans (List.getElem?_eq_getElem hk))
    (hpos k _ (List.getElem?_eq_getElem hk)) hparent
    (fresh_getNode_Position _ q parent hfresh hparent) hX
    (by rw [mirror_childNodes, mirrorList_length]; exact hk) hF'
  obtain ⟨-, he2, he3⟩ := renumber_effect (k : Int) q old.ChildNodes F' hF'
  refine ⟨_, by rw [ApplyChange_removeChange, hstep]; rfl, rfl, ?_, ?_⟩
  · intro j hj hjn
    have := he2 j (by simpa using hj)
    rw [this, hchild j, List.getElem?_eq_getElem hjn, Option.map_some',
      hpos j _ (List.getElem?_eq_getElem hjn), decrementAddress_snoc]
  · intro p' hp'
    exact he3 p' (by simpa using hp')

/-- Witness of C8: removing the first `<li>` of `<ul><li>1</li><li>2</li></ul>`. -/
theorem C8_sibling_shift_witness :
    ∃ h', (removeChange ⟨TreeId.old, [0] ++ [0]⟩).ApplyChange hostNone
          ⟨⟨[], [ulTwo]⟩, ⟨[], []⟩, liveRoot [ulTwo]⟩ = some (h', none) ∧
      h'.new = ⟨[], []⟩ ∧
      (∀ j, 0 ≤ j → j < ulTwo.ChildNodes.length →
        (getNode h'.old.ChildNodes ([0] ++ [j])).map DOMNode.Position
          = some (addressOf [0] ++ [(j : Int) - 1])) ∧
      (∀ p', (¬ ∃ j, p' = [0] ++ [j] ∧ 0 ≤ j) →
        (getNode h'.old.ChildNodes p').map DOMNode.Position
          = (getNode (ParseTree.mk [] [ulTwo]).ChildNodes p').map DOMNode.Position) :=
  C8_sibling_shift hostNone ⟨[], [ulTwo]⟩ ⟨[], []⟩ (liveRoot [ulTwo]) [0] ulTwo 0
    (by decide) (by decide) rfl rfl (by decide)

/-- C8 as stated fails: removing the first `<li>` of `<ul><li>1</li><li>2</li></ul>`
also changes the address of the removed node itself, from `[0, 0]` to `[0, -1]`,
although that node is not a sibling at an index greater than 0. -/
theorem C8_counterexample :
    ∃ h', (removeChange ⟨TreeId.old, [0, 0]⟩).ApplyChange hostNone
          ⟨⟨[], [ulTwo]⟩, ⟨[], []⟩, liveRoot [ulTwo]⟩ = some (h', none) ∧
      ¬ (∀ p', (¬ ∃ j, p' = [0, j] ∧ 0 < j) →
          (getNode h'.old.ChildNodes p').map DOMNode.Position
            = (getNode [ulTwo] p').map DOMNode.Position) := by
  refine ⟨_, rfl, ?_⟩
  intro hall
  have h00 := hall [0, 0] (by rintro ⟨j, hj, hlt⟩; simp at hj; omega)
  revert h00
  decide

/-! ## Lemmas: rewriting the live document -/

theorem goIndex_eq_some {α : Type} (s : List α) (i : Int) (x : α) (h : goIndex s i = some x) :
    0 ≤ i ∧ s[i.toNat]? = some x := by
  unfold goIndex at h
  split at h
  · rename_i h0; exact ⟨h0, h⟩
  · cases h

theorem goIndex_set {α : Type} (s : List α) (i : Int) (x y : α) (h : goIndex s i = some x) :
    goIndex (s.set i.toNat y) i = some y := by
  obtain ⟨h0, hx⟩ := goIndex_eq_some s i x h
  have hlt : i.toNat < s.length := (List.getElem?_eq_some_iff.1 hx).1
  simp [goIndex, h0, List.getElem?_set_self hlt]

theorem list_set_same {α : Type} : ∀ (l : List α) (i : Nat) (x : α), l[i]? = some x →
    l.set i x = l
  | [], _, _, h => by simp at h
  | y :: rest, 0, x, h => by
    simp only [List.getElem?_cons_zero, Option.some.injEq] at h
    simp [h]
  | y :: rest, i + 1, x, h => by
    simp only [List.getElem?_cons_succ] at h
    simp [list_set_same rest i x h]

theorem LiveNode.withChildNodes_childNodes (n : LiveNode) (c : List LiveNode) :
    (n.withChildNodes c).childNodes = c := by cases n; rfl

theorem LiveNode.withChildNodes_withChildNodes (n : LiveNode) (c c' : List LiveNode) :
    (n.withChildNodes c).withChildNodes c' = n.withChildNodes c' := by cases n; rfl

theorem LiveNode.withChildNodes_self (n : LiveNode) : n.withChildNodes n.childNodes = n := by
  cases n; rfl

theorem LiveNode.nodeAt_replaceAt : ∀ (a : List Int) (root x y : LiveNode),
    root.nodeAt a = some y → (root.replaceAt a x).nodeAt a = some x
  | [], _, _, _, _ => rfl
  | i :: rest, root, x, y, h => by
    rw [LiveNode.nodeAt] at h
    cases hc : goIndex root.childNodes i with
    | none => simp [hc] at h
    | some child =>
      simp only [hc] at h
      simp only [LiveNode.replaceAt, hc, LiveNode.nodeAt, LiveNode.withChildNodes_childNodes,
        goIndex_set _ _ _ _ hc]
      exact LiveNode.nodeAt_replaceAt rest child x y h

theorem LiveNode.replaceAt_replaceAt : ∀ (a : List Int) (root x y : LiveNode),
    (root.replaceAt a x).replaceAt a y = root.replaceAt a y
  | [], _, _, _ => rfl
  | i :: rest, root, x, y => by
    cases hc : goIndex root.childNodes i with
    | none => simp only [LiveNode.replaceAt, hc]
    | some child =>
      simp only [LiveNode.replaceAt, hc, LiveNode.withChildNodes_childNodes,
        goIndex_set _ _ _ _ hc, LiveNode.withChildNodes_withChildNodes, List.set_set,
        LiveNode.replaceAt_replaceAt rest child x y]

theorem LiveNode.replaceAt_snoc : ∀ (a : List Int) (k : Nat) (root x X : LiveNode),
    root.nodeAt a = some X → k < X.childNodes.length →
      root.replaceAt (a ++ [(k : Int)]) x
        = root.replaceAt a (X.withChildNodes (X.childNodes.set k x))
  | [], k, root, x, X, h, hk => by
    simp only [LiveNode.nodeAt, Option.some.injEq] at h
    subst h
    simp [LiveNode.replaceAt, goIndex_natCast, List.getElem?_eq_getElem hk]
  | i :: rest, k, root, x, X, h, hk => by
    rw [LiveNode.nodeAt] at h
    cases hc : goIndex root.childNodes i with
    | none => simp [hc] at h
    | some child =>
      simp only [hc] at h
      have ih := LiveNode.replaceAt_snoc rest k child x X h hk
      rw [List.cons_append]
      simp only [LiveNode.replaceAt, hc]
      rw [ih]

theorem LiveNode.replaceAt_same : ∀ (a : List Int) (root x : LiveNode),
    root.nodeAt a = some x → root.replaceAt a x = root
  | [], _, _, h => by
    simp only [LiveNode.nodeAt, Option.some.injEq] at h
    exact h.symm
  | i :: rest, root, x, h => by
    rw [LiveNode.nodeAt] at h
    cases hc : goIndex root.childNodes i with
    | none => simp [hc] at h
    | some child =>
      simp only [hc] at h
      obtain ⟨-, hget⟩ := goIndex_eq_some _ _ _ hc
      simp only [LiveNode.replaceAt, hc, LiveNode.replaceAt_same rest child x h]
      rw [list_set_same _ _ _ hget]
      exact LiveNode.withChildNodes_self root

theorem Heap.locateParent_of_owner (h : Heap) (t : TreeId) (q : List Nat) (j : Nat)
    (X : LiveNode)
    (hpar : q ≠ [] → ∃ parentNode, getNode (h.tree t).ChildNodes q = some parentNode ∧
      parentNode.Position = addressOf q)
    (hX : h.live.nodeAt (addressOf q) = some X) :
    h.locateParent ⟨t, q ++ [j]⟩ = some (addressOf q) := by
  by_cases hq : q = []
  · subst hq
    exact Heap.locateParent_singleton h t j
  · obtain ⟨parentNode, h1, h2⟩ := hpar hq
    exact Heap.locateParent_snoc h t q j parentNode X hq h1 h2 hX

/-- `ReplaceNode` on the child `i` of the node at `q` (a root when `q` is empty). -/
theorem ReplaceNode_step (host : List Nat → List LiveNode) (h : Heap) (q : List Nat) (i : Nat)
    (existing m : DOMNode) (X created : LiveNode) (pn : NodePtr)
    (hex : getNode h.old.ChildNodes (q ++ [i]) = some existing)
    (hpos : existing.Position = addressOf q ++ [(i : Int)])
    (hpar : q ≠ [] → ∃ parentNode, getNode h.old.ChildNodes q = some parentNode ∧
      parentNode.Position = addressOf q)
    (hX : h.live.nodeAt (addressOf q) = some X) (hi : i < X.childNodes.length)
    (hnew : h.node pn = some m) (hcr : m.Create host (h.tree pn.tree).src = some created) :
    (replaceChange ⟨TreeId.old, q ++ [i]⟩ pn).ReplaceNode host h
      = some ⟨h.old, h.new, h.live.replaceAt (addressOf q ++ [(i : Int)]) created⟩ := by
  have hne : existing.Position ≠ [] := by rw [hpos]; simp
  have hloc : existing.Locate h.live = X.childNodes[i]? := by
    rw [DOMNode.Locate_eq_nodeAt existing h.live hne, hpos]
    exact LiveNode.nodeAt_snoc _ i h.live X hX
  obtain ⟨self, hself⟩ : ∃ self, X.childNodes[i]? = some self :=
    ⟨_, List.getElem?_eq_getElem hi⟩
  have hlp := Heap.locateParent_of_owner h TreeId.old q i X hpar hX
  have hrp : h.live.replaceChild (addressOf q) created (addressOf q ++ [(i : Int)])
      = some (h.live.replaceAt (addressOf q ++ [(i : Int)]) created) := by
    rw [LiveNode.replaceAt_snoc _ i h.live created X hX hi]
    simp [LiveNode.replaceChild, hX, List.dropLast_concat, goIndex_natCast, hself]
  have hex' : h.node ⟨TreeId.old, q ++ [i]⟩ = some existing := hex
  simp only [Reconciler.ReplaceNode, replaceChange, hex', hlp, hloc, hself, hnew, hcr, hpos, hrp]

/-- `AppendChildNode` of the new child `j` of the new-tree node at `q` (of the
root list when `q` is empty). -/
theorem AppendChildNode_step (host : List Nat → List LiveNode) (h : Heap) (q : List Nat)
    (j : Nat) (m : DOMNode) (X created : LiveNode)
    (hpar : q ≠ [] → ∃ parentNode, getNode h.new.ChildNodes q = some parentNode ∧
      parentNode.Position = addressOf q)
    (hX : h.live.nodeAt (addressOf q) = some X)
    (hnew : getNode h.new.ChildNodes (q ++ [j]) = some m)
    (hcr : m.Create host h.new.src = some created) :
    (appendChange (NodePtr.ParentNode ⟨TreeId.new, q ++ [j]⟩)
        ⟨TreeId.new, q ++ [j]⟩).AppendChildNode host h
      = some ⟨h.old, h.new,
          h.live.replaceAt (addressOf q) (X.withChildNodes (X.childNodes ++ [created]))⟩ := by
  have hnew' : h.node ⟨TreeId.new, q ++ [j]⟩ = some m := hnew
  have hcr' : m.Create host (h.tree TreeId.new).src = some created := hcr
  by_cases hq : q = []
  · subst hq
    have hX' : h.live.nodeAt [] = some X := hX
    have hnew'' : h.node ⟨TreeId.new, [j]⟩ = some m := hnew
    simp only [Reconciler.AppendChildNode, appendChange, List.nil_append,
      NodePtr.ParentNode_singleton, hnew'', hcr', LiveNode.appendChild, hX']
    rfl
  · obtain ⟨parentNode, h1, h2⟩ := hpar hq
    have hne : parentNode.Position ≠ [] := by
      rw [h2]; exact fun hc => hq ((addressOf_eq_nil q).1 hc)
    have h1' : h.node ⟨TreeId.new, q⟩ = some parentNode := h1
    simp only [Reconciler.AppendChildNode, appendChange, NodePtr.ParentNode_snoc _ q j hq, h1',
      DOMNode.Locate_eq_nodeAt parentNode h.live hne, h2, hX, hnew', hcr',
      LiveNode.appendChild]

theorem surplusChanges_eq (ta tb : TreeId) (q q' : List Nat) (n m : Nat) :
    surplusChanges ⟨ta, q⟩ ⟨tb, q'⟩ n m
      = if n < m then
          (List.range (m - n)).map fun j =>
            appendChange (NodePtr.ParentNode ⟨tb, q' ++ [n + j]⟩) ⟨tb, q' ++ [n + j]⟩
        else
          (List.range (n - m)).map fun j => removeChange ⟨ta, q ++ [m + j]⟩ := by
  unfold surplusChanges
  by_cases h1 : n < m
  · simp [h1, NodePtr.child, appendChange]
  · by_cases h2 : m < n
    · simp [h1, h2, NodePtr.child, removeChange]
    · have h3 : n - m = 0 := by omega
      simp [h1, h2, h3]

theorem ApplyChanges_append (host : List Nat → List LiveNode) :
    ∀ (c1 c2 : Changes) (h : Heap),
      ApplyChanges host (c1 ++ c2) h = (ApplyChanges host c1 h).bind (ApplyChanges host c2)
  | [], _, _ => rfl
  | r :: c1, c2, h => by
    simp only [List.cons_append, ApplyChanges]
    cases hr : r.ApplyChange host h with
    | none => rfl
    | some res => exact ApplyChanges_append host c1 c2 res.1

theorem ApplyChanges_cons_of (host : List Nat → List LiveNode) (r : Reconciler) (c : Changes)
    (h h' : Heap) (e : Option String) (hr : r.ApplyChange host h = some (h', e)) :
    ApplyChanges host (r :: c) h = ApplyChanges host c h' := by
  simp [ApplyChanges, hr]

/-! ## Lemmas: frames -/

theorem SameKinds.kinds_refl (F : List DOMNode) : SameKinds F F := fun _ => rfl

theorem SameKinds.kinds_trans {A F F' : List DOMNode} (h1 : SameKinds A F) (h2 : SameKinds F F') :
    SameKinds A F' := fun p => (h2 p).trans (h1 p)

theorem FrameAt.frame_refl (F : List DOMNode) (p : List Nat) : FrameAt F F p :=
  ⟨SameKinds.kinds_refl F, fun _ _ => rfl⟩

theorem FrameAt.frame_trans {F F' F'' : List DOMNode} {p : List Nat} (h1 : FrameAt F F' p)
    (h2 : FrameAt F' F'' p) : FrameAt F F'' p :=
  ⟨SameKinds.kinds_trans h1.1 h2.1, fun p' hp' => (h2.2 p' hp').trans (h1.2 p' hp')⟩

theorem FrameAt.weaken {F F' : List DOMNode} {q : List Nat} (i : Nat)
    (h : FrameAt F F' (q ++ [i])) : FrameAt F F' q := by
  refine ⟨h.1, fun p' hp' => h.2 p' ?_⟩
  rintro ⟨rest, hrest, rfl⟩
  exact hp' ⟨[i] ++ rest, by simp, by simp⟩

theorem FrameAt.synced_sibling {A F F' : List DOMNode} {q : List Nat} {i j : Nat}
    (h : FrameAt F F' (q ++ [i])) (hij : j ≠ i) (hs : SyncedAt A F (q ++ [j])) :
    SyncedAt A F' (q ++ [j]) := by
  intro rest
  rw [← hs rest]
  apply h.2
  rintro ⟨rest', -, heq⟩
  simp only [List.append_assoc, List.append_cancel_left_eq, List.singleton_append,
    List.cons.injEq] at heq
  exact hij heq.1

theorem FrameAt.owner {F F' : List DOMNode} {q : List Nat} (h : FrameAt F F' q)
    (ho : OwnerAt F q) : OwnerAt F' q := by
  intro hq
  rw [← ho hq]
  apply h.2
  rintro ⟨rest, hrest, heq⟩
  have := congrArg List.length heq
  simp only [List.length_append] at this
  have : rest.length = 0 := by omega
  exact hrest (List.length_eq_zero.1 this)

theorem getNode_isSome_of_kinds {A F : List DOMNode} (hk : SameKinds A F) (p : List Nat)
    (n : DOMNode) (h : getNode A p = some n) :
    ∃ n', getNode F p = some n' ∧ n'.NodeType = n.NodeType := by
  have := hk p
  rw [h] at this
  cases hF : getNode F p with
  | none => simp [hF] at this
  | some n' =>
    simp only [hF, Option.map_some', Option.some.injEq] at this
    exact ⟨n', rfl, this⟩

theorem getNode_of_kinds_some {A F : List DOMNode} (hk : SameKinds A F) (p : List Nat)
    (n' : DOMNode) (h : getNode F p = some n') :
    ∃ n, getNode A p = some n ∧ n'.NodeType = n.NodeType := by
  have := hk p
  rw [h] at this
  cases hA : getNode A p with
  | none => simp [hA] at this
  | some n =>
    simp only [hA, Option.map_some', Option.some.injEq] at this
    exact ⟨n, rfl, this⟩

theorem OwnerAt.exists {F : List DOMNode} {q : List Nat} (ho : OwnerAt F q) :
    q ≠ [] → ∃ parentNode, getNode F q = some parentNode ∧
      parentNode.Position = addressOf q := by
  intro hq
  have := ho hq
  cases hF : getNode F q with
  | none => simp [hF] at this
  | some n =>
    simp only [hF, Option.map_some', Option.some.injEq] at this
    exact ⟨n, rfl, this⟩

theorem CreatesMirror.left {host : List Nat → List LiveNode} {new : ParseTree}
    {c1 c2 : Changes} (h : CreatesMirror host new (c1 ++ c2)) : CreatesMirror host new c1 :=
  fun r hr => h r (List.mem_append_left _ hr)

theorem CreatesMirror.right {host : List Nat → List LiveNode} {new : ParseTree}
    {c1 c2 : Changes} (h : CreatesMirror host new (c1 ++ c2)) : CreatesMirror host new c2 :=
  fun r hr => h r (List.mem_append_right _ hr)

theorem CreatesMirror.tail {host : List Nat → List LiveNode} {new : ParseTree}
    {r : Reconciler} {c : Changes} (h : CreatesMirror host new (r :: c)) :
    CreatesMirror host new c :=
  fun r' hr => h r' (List.mem_cons_of_mem _ hr)

/-! ## Lemmas: the surplus patches applied -/

theorem mirrorList_append (l1 l2 : List DOMNode) :
    mirrorList (l1 ++ l2) = mirrorList l1 ++ mirrorList l2 := by
  simp [mirrorList_eq_map]

theorem append_phase (host : List Nat → List LiveNode) (new : ParseTree) (q : List Nat)
    (b : List DOMNode) (hB : childrenAt new.ChildNodes q = some b)
    (hpar : q ≠ [] → ∃ parentNode, getNode new.ChildNodes q = some parentNode ∧
      parentNode.Position = addressOf q) :
    ∀ (cnt s : Nat) (old : ParseTree) (L X : LiveNode), s + cnt = b.length →
      L.nodeAt (addressOf q) = some X →
      CreatesMirror host new ((List.range' s cnt).map fun t =>
        appendChange (NodePtr.ParentNode ⟨TreeId.new, q ++ [t]⟩) ⟨TreeId.new, q ++ [t]⟩) →
      ApplyChanges host ((List.range' s cnt).map fun t =>
          appendChange (NodePtr.ParentNode ⟨TreeId.new, q ++ [t]⟩) ⟨TreeId.new, q ++ [t]⟩)
          ⟨old, new, L⟩
        = some ⟨old, new, L.replaceAt (addressOf q)
            (X.withChildNodes (X.childNodes ++ mirrorList (b.drop s)))⟩
  | 0, s, old, L, X, hs, hX, _ => by
    have hdrop : b.drop s = [] := List.drop_eq_nil_of_le (by omega)
    simp only [List.range'_zero, List.map_nil, ApplyChanges, hdrop, mirrorList,
      List.append_nil, LiveNode.withChildNodes_self, LiveNode.replaceAt_same _ _ _ hX]
  | cnt + 1, s, old, L, X, hs, hX, hcm => by
    have hslt : s < b.length := by omega
    have hm : getNode new.ChildNodes (q ++ [s]) = some b[s] := by
      rw [getNode_snoc, hB]; exact List.getElem?_eq_getElem hslt
    rw [List.range'_succ, List.map_cons] at hcm ⊢
    have hcr : (b[s]).Create host new.src = some (mirror b[s]) :=
      hcm _ (List.mem_cons_self _ _) ⟨TreeId.new, q ++ [s]⟩ (Or.inr rfl) _ hm
    have hstep := AppendChildNode_step host ⟨old, new, L⟩ q s b[s] X (mirror b[s]) hpar hX hm hcr
    rw [ApplyChanges_cons_of host _ _ _ _ none
      (by rw [ApplyChange_appendChange, hstep]; rfl)]
    have hX1 := LiveNode.nodeAt_replaceAt (addressOf q) L
      (X.withChildNodes (X.childNodes ++ [mirror b[s]])) X hX
    have ih := append_phase host new q b hB hpar cnt (s + 1) old _ _ (by omega) hX1 hcm.tail
    rw [ih, LiveNode.replaceAt_replaceAt, LiveNode.withChildNodes_withChildNodes,
      LiveNode.withChildNodes_childNodes, List.append_assoc]
    have hdrop : b.drop s = b[s] :: b.drop (s + 1) := List.drop_eq_getElem_cons hslt
    rw [hdrop]
    rfl

theorem remove_phase (host : List Nat → List LiveNode) (A : List DOMNode) (src : List Nat)
    (new : ParseTree) (q : List Nat) (hq : q ≠ []) (k : Nat) (a : List DOMNode)
    (pre : List LiveNode) (hpre : pre.length = k)
    (hA : childrenAt A q = some a) (hkindsA : kindsOkList A = true) :
    ∀ (cnt j : Nat) (F : List DOMNode) (L X : LiveNode), k + j + cnt = a.length →
      SameKinds A F →
      (∀ t, k ≤ t → t < a.length →
        (getNode F (q ++ [t])).map DOMNode.Position = some (addressOf q ++ [(t : Int) - j])) →
      OwnerAt F q →
      L.nodeAt (addressOf q) = some X → X.childNodes = pre ++ mirrorList (a.drop (k + j)) →
      ∃ F', ApplyChanges host
            ((List.range' (k + j) cnt).map fun t => removeChange ⟨TreeId.old, q ++ [t]⟩)
            ⟨⟨src, F⟩, new, L⟩
          = some ⟨⟨src, F'⟩, new, L.replaceAt (addressOf q) (X.withChildNodes pre)⟩ ∧
        SameKinds F F' ∧
        (∀ p', (¬ ∃ t, p' = q ++ [t] ∧ k ≤ t) →
          (getNode F' p').map DOMNode.Position = (getNode F p').map DOMNode.Position)
  | 0, j, F, L, X, hlen, _, _, _, hX, hXc => by
    have hdrop : a.drop (k + j) = [] := List.drop_eq_nil_of_le (by omega)
    rw [hdrop] at hXc
    simp only [mirrorList, List.append_nil] at hXc
    refine ⟨F, ?_, SameKinds.kinds_refl F, fun _ _ => rfl⟩
    simp only [List.range'_zero, List.map_nil, ApplyChanges]
    rw [← hXc, LiveNode.withChildNodes_self, LiveNode.replaceAt_same _ _ _ hX]
  | cnt + 1, j, F, L, X, hlen, hkinds, hsib, howner, hX, hXc => by
    have hlt : k + j < a.length := by omega
    have hchildA : ∀ t, getNode A (q ++ [t]) = a[t]? := by
      intro t; rw [getNode_snoc, hA]
    -- the target
    obtain ⟨existing, hex, -⟩ := getNode_isSome_of_kinds hkinds (q ++ [k + j]) a[k + j]
      ((hchildA _).trans (List.getElem?_eq_getElem hlt))
    have hpos : existing.Position = addressOf q ++ [(k : Int)] := by
      have := hsib (k + j) (by omega) hlt
      rw [hex] at this
      simp only [Option.map_some', Option.some.injEq] at this
      rw [this]
      congr 2
      push_cast
      omega
    obtain ⟨parentNode, hpar, hppos⟩ := howner.exists hq
    -- the live parent
    have hdrop : a.drop (k + j) = a[k + j] :: a.drop (k + j + 1) :=
      List.drop_eq_getElem_cons hlt
    have hXc' : X.childNodes = pre ++ mirror a[k + j] :: mirrorList (a.drop (k + j + 1)) := by
      rw [hXc, hdrop]; rfl
    have hk : k < X.childNodes.length := by
      rw [hXc']; simp [hpre]
    have herase : X.childNodes.eraseIdx k = pre ++ mirrorList (a.drop (k + j + 1)) := by
      rw [hXc', List.eraseIdx_append_of_length_le (by omega), hpre, Nat.sub_self]
      rfl
    -- the renumbering succeeds
    have hcs := childrenAt_of_getNode _ _ _ hpar
    have hchildF : ∀ t, getNode F (q ++ [t]) = parentNode.ChildNodes[t]? := by
      intro t; rw [getNode_snoc, hcs]
    have hklen : k < parentNode.ChildNodes.length := by
      have := (hchildF (k + j)).symm.trans hex
      have := (List.getElem?_eq_some_iff.1 this).1
      omega
    obtain ⟨cs', hcs'⟩ := renumberSiblings_isSome (k : Int) parentNode.ChildNodes (by omega)
      (by exact_mod_cast Nat.le_of_lt hklen) (by
        intro t s ht hs
        simp only [Int.toNat_ofNat] at ht
        have hsF : getNode F (q ++ [t]) = some s := (hchildF t).trans hs
        obtain ⟨sA, hsA, hty⟩ := getNode_of_kinds_some hkinds _ _ hsF
        have htlt : t < a.length :=
          (List.getElem?_eq_some_iff.1 ((hchildA t).symm.trans hsA)).1
        refine decrementLast_isSome s ?_ ?_
        · rw [hty]
          exact kindsOk_NodeType sA (kindsOk_getNode _ A sA hkindsA hsA)
        · have := hsib t ht htlt
          rw [hsF] at this
          simp only [Option.map_some', Option.some.injEq] at this
          rw [this]; simp)
    obtain ⟨F1, hF1⟩ := modifyChildren_isSome _ q F _ _ hcs hcs'
    obtain ⟨he1, he2, he3⟩ := renumber_effect (k : Int) q F F1 hF1
    simp only [Int.toNat_ofNat] at he2 he3
    have hstep := RemoveNode_child ⟨⟨src, F⟩, new, L⟩ q (k + j) k existing parentNode X F1 hq
      hex hpos hpar hppos hX hk hF1
    rw [herase] at hstep
    -- the remaining removals
    have hX1 := LiveNode.nodeAt_replaceAt (addressOf q) L
      (X.withChildNodes (pre ++ mirrorList (a.drop (k + j + 1)))) X hX
    have hk1 : SameKinds A F1 := SameKinds.kinds_trans hkinds he1
    have hsib1 : ∀ t, k ≤ t → t < a.length →
        (getNode F1 (q ++ [t])).map DOMNode.Position
          = some (addressOf q ++ [(t : Int) - ((j + 1 : Nat) : Int)]) := by
      intro t ht htlt
      have h0 := hsib t ht htlt
      rw [he2 t ht]
      cases hF : getNode F (q ++ [t]) with
      | none => simp [hF] at h0
      | some s =>
        rw [hF] at h0
        simp only [Option.map_some', Option.some.injEq] at h0
        simp only [Option.map_some', h0, decrementAddress_snoc]
        congr 3
        push_cast
        omega
    have howner1 : OwnerAt F1 q := by
      intro _
      rw [he3 q (by
        rintro ⟨t, ht, -⟩
        have := congrArg List.length ht
        simp at this), howner hq]
    obtain ⟨F', hF', hk', hp'⟩ := remove_phase host A src new q hq k a pre hpre hA hkindsA cnt
      (j + 1) F1 _ _ (by omega) hk1 hsib1 howner1 hX1
      (by rw [LiveNode.withChildNodes_childNodes]; rfl)
    refine ⟨F', ?_, SameKinds.kinds_trans he1 hk', fun p' hp => (hp' p' hp).trans (he3 p' hp)⟩
    rw [List.range'_succ, List.map_cons, ApplyChanges_cons_of host _ _ _
      ⟨⟨src, F1⟩, new, L.replaceAt (addressOf q)
        (X.withChildNodes (pre ++ mirrorList (a.drop (k + j + 1))))⟩ none
      (by rw [ApplyChange_removeChange, hstep]; rfl)]
    rw [show k + j + 1 = k + (j + 1) by omega] at hF' ⊢
    rw [hF', LiveNode.replaceAt_replaceAt, LiveNode.withChildNodes_withChildNodes]

/-! ## Lemmas: well-formed trees -/

theorem wellFormedNode_kind (n : DOMNode) (h : wellFormedNode n = true) :
    n.NodeType = ElementNodeType ∨ n.NodeType = CommentNodeType ∨
      n.NodeType = TextNodeType := by
  cases n
  simp only [wellFormedNode, Bool.and_eq_true, Bool.or_eq_true, decide_eq_true_eq] at h
  simp only [DOMNode.NodeType]
  tauto

theorem wellFormedNode_leaf (n : DOMNode) (h : wellFormedNode n = true)
    (hne : n.NodeType ≠ ElementNodeType) : n.ChildNodes = [] := by
  cases n
  simp only [wellFormedNode, Bool.and_eq_true, Bool.or_eq_true, decide_eq_true_eq,
    List.isEmpty_iff] at h
  simp only [DOMNode.NodeType] at hne
  simp only [DOMNode.ChildNodes]
  tauto

theorem wellFormedNode_ChildNodes (n : DOMNode) (h : wellFormedNode n = true) :
    wellFormedList n.ChildNodes = true := by
  cases n
  simp only [wellFormedNode, Bool.and_eq_true] at h
  exact h.2

theorem wellFormedList_getElem? : ∀ (l : List DOMNode) (j : Nat) (n : DOMNode),
    wellFormedList l = true → l[j]? = some n → wellFormedNode n = true
  | [], _, _, _, hj => by simp at hj
  | x :: rest, j, n, h, hj => by
    simp only [wellFormedList, Bool.and_eq_true] at h
    cases j with
    | zero =>
      simp only [List.getElem?_cons_zero, Option.some.injEq] at hj
      subst hj
      exact h.1
    | succ j =>
      simp only [List.getElem?_cons_succ] at hj
      exact wellFormedList_getElem? rest j n h.2 hj

theorem wellFormed_getNode : ∀ (p : List Nat) (l : List DOMNode) (n : DOMNode),
    wellFormedList l = true → getNode l p = some n → wellFormedNode n = true
  | [], _, _, _, h => by simp [getNode] at h
  | i :: r, l, n, hk, h => by
    rw [getNode_cons] at h
    cases hx : l[i]? with
    | none => simp [hx] at h
    | some x =>
      have hkx := wellFormedList_getElem? l i x hk hx
      simp only [hx] at h
      by_cases hr : r = []
      · subst hr
        simp only [if_true, Option.some.injEq] at h
        subst h
        exact hkx
      · simp only [hr, if_false] at h
        exact wellFormed_getNode r x.ChildNodes n (wellFormedNode_ChildNodes x hkx) h

mutual
theorem kindsOk_of_wellFormedNode : ∀ (n : DOMNode), wellFormedNode n = true →
    n.kindsOk = true
  | .mk o t p c nm v s ats, h => by
    simp only [wellFormedNode, Bool.and_eq_true, Bool.or_eq_true, decide_eq_true_eq] at h
    simp only [DOMNode.kindsOk, Bool.and_eq_true, Bool.or_eq_true, decide_eq_true_eq]
    exact ⟨by tauto, kindsOkList_of_wellFormedList c h.2⟩
theorem kindsOkList_of_wellFormedList : ∀ (l : List DOMNode), wellFormedList l = true →
    kindsOkList l = true
  | [], _ => rfl
  | n :: rest, h => by
    simp only [wellFormedList, Bool.and_eq_true] at h
    simp only [kindsOkList, Bool.and_eq_true]
    exact ⟨kindsOk_of_wellFormedNode n h.1, kindsOkList_of_wellFormedList rest h.2⟩
end

theorem mirror_eq_of_IsEqual_leaf (n m : DOMNode) (heq : n.IsEqual m = true)
    (hne : m.NodeType ≠ ElementNodeType) (hn : n.ChildNodes = []) (hm : m.ChildNodes = []) :
    mirror n = mirror m := by
  obtain ⟨h1, h2⟩ := (DOMNode.IsEqual_iff n m).1 heq
  rcases h2 with ⟨-, hv⟩ | ⟨he, -⟩
  · cases n; cases m
    simp only [DOMNode.NodeType, DOMNode.Value, DOMNode.ChildNodes] at h1 hv hn hm hne
    subst h1 hv hn hm
    simp [mirror, hne]
  · exact absurd (h1 ▸ he) hne

theorem mirror_withChildNodes_of_IsEqual (n m : DOMNode) (heq : n.IsEqual m = true)
    (he : m.NodeType = ElementNodeType) :
    (mirror n).withChildNodes (mirrorList m.ChildNodes) = mirror m := by
  obtain ⟨h1, h2⟩ := (DOMNode.IsEqual_iff n m).1 heq
  rcases h2 with ⟨hk, -⟩ | ⟨-, hname, hattrs⟩
  · rw [h1, he] at hk
    exact absurd hk (by decide)
  · cases n; cases m
    simp only [DOMNode.NodeType, DOMNode.Name, DOMNode.Attributes, DOMNode.ChildNodes] at *
    subst h1 hname hattrs
    simp [mirror, LiveNode.withChildNodes, he]

/-! ## Diff then apply -/

theorem childrenAt_owner (F : List DOMNode) (q : List Nat) (cs : List DOMNode)
    (h : childrenAt F q = some cs) (hq : q ≠ []) :
    ∃ n, getNode F q = some n ∧ n.ChildNodes = cs := by
  cases q with
  | nil => exact absurd rfl hq
  | cons i r =>
    simp only [childrenAt, Option.map_eq_some'] at h
    exact h

theorem range_map_add {α : Type} (f : Nat → α) (s cnt : Nat) :
    (List.range cnt).map (fun j => f (s + j)) = (List.range' s cnt).map f := by
  rw [List.range'_eq_map_range, List.map_map]
  rfl

/-- The surplus patches of `compareNodes` applied: the live children become the
mirror of the common part of `a` followed by the mirror of the surplus of `b`. -/
theorem surplus_sim (host : List Nat → List LiveNode) (A B : ParseTree) (S : Setting A B)
    (a b : List DOMNode) (q : List Nat) (F : List DOMNode) (L X : LiveNode)
    (hA : childrenAt A.ChildNodes q = some a) (hB : childrenAt B.ChildNodes q = some b)
    (hroot : q = [] → a.length = b.length)
    (hkinds : SameKinds A.ChildNodes F)
    (hsync : ∀ t, SyncedAt A.ChildNodes F (q ++ [t]))
    (howner : OwnerAt F q)
    (hX : L.nodeAt (addressOf q) = some X) (hXc : X.childNodes = mirrorList a)
    (hcm : CreatesMirror host B
      (surplusChanges ⟨TreeId.old, q⟩ ⟨TreeId.new, q⟩ a.length b.length)) :
    ∃ F1 suf,
      ApplyChanges host (surplusChanges ⟨TreeId.old, q⟩ ⟨TreeId.new, q⟩ a.length b.length)
          ⟨⟨A.src, F⟩, B, L⟩
        = some ⟨⟨A.src, F1⟩, B, L.replaceAt (addressOf q)
            (X.withChildNodes (mirrorList (a.take (min a.length b.length)) ++ suf))⟩ ∧
      mirrorList (b.take (min a.length b.length)) ++ suf = mirrorList b ∧
      SameKinds F F1 ∧
      (∀ p', (¬ ∃ t, p' = q ++ [t] ∧ min a.length b.length ≤ t) →
        (getNode F1 p').map DOMNode.Position = (getNode F p').map DOMNode.Position) := by
  rw [surplusChanges_eq] at hcm ⊢
  by_cases hlt : a.length < b.length
  · -- the new list is longer: appends
    rw [if_pos hlt, range_map_add (fun t => appendChange (NodePtr.ParentNode
      ⟨TreeId.new, q ++ [t]⟩) ⟨TreeId.new, q ++ [t]⟩)] at hcm ⊢
    have hparB : q ≠ [] → ∃ parentNode, getNode B.ChildNodes q = some parentNode ∧
        parentNode.Position = addressOf q := by
      intro hq
      obtain ⟨n, hn, -⟩ := childrenAt_owner _ _ _ hB hq
      exact ⟨n, hn, fresh_getNode_Position _ _ _ S.freshB hn⟩
    have := append_phase host B q b hB hparB (b.length - a.length) a.length ⟨A.src, F⟩ L X
      (by omega) hX hcm
    refine ⟨F, mirrorList (b.drop a.length), ?_, ?_, SameKinds.kinds_refl F, fun _ _ => rfl⟩
    · rw [this, hXc, Nat.min_eq_left (Nat.le_of_lt hlt), List.take_length]
    · rw [Nat.min_eq_left (Nat.le_of_lt hlt), ← mirrorList_append, List.take_append_drop]
  · rw [if_neg hlt, range_map_add (fun t => removeChange ⟨TreeId.old, q ++ [t]⟩)] at hcm ⊢
    have hmin : min a.length b.length = b.length := Nat.min_eq_right (by omega)
    by_cases hgt : b.length < a.length
    · -- the old list is longer: removals
      have hq : q ≠ [] := fun hq => by have := hroot hq; omega
      have hsib : ∀ t, b.length ≤ t → t < a.length →
          (getNode F (q ++ [t])).map DOMNode.Position
            = some (addressOf q ++ [(t : Int) - ((0 : Nat) : Int)]) := by
        intro t _ ht
        have hAt : getNode A.ChildNodes (q ++ [t]) = some a[t] := by
          rw [getNode_snoc, hA]; exact List.getElem?_eq_getElem ht
        have := hsync t []
        rw [List.append_nil] at this
        rw [this, hAt, Option.map_some', fresh_getNode_Position _ _ _ S.freshA hAt,
          addressOf_append]
        simp [addressOf]
      obtain ⟨F1, h1, h2, h3⟩ := remove_phase host A.ChildNodes A.src B q hq b.length a
        (mirrorList (a.take b.length)) (by rw [mirrorList_length, List.length_take]; omega)
        hA (kindsOkList_of_wellFormedList _ S.wfA) (a.length - b.length) 0 F L X (by omega)
        hkinds hsib howner hX
        (by rw [hXc, Nat.add_zero, ← mirrorList_append, List.take_append_drop])
      refine ⟨F1, [], ?_, ?_, h2, ?_⟩
      · rw [hmin, List.append_nil]
        exact h1
      · rw [hmin, List.append_nil, List.take_length]
      · rw [hmin]; exact h3
    · -- equal lengths: no surplus
      have heq : a.length = b.length := by omega
      refine ⟨F, [], ?_, ?_, SameKinds.kinds_refl F, fun _ _ => rfl⟩
      · rw [heq, Nat.sub_self, List.range'_zero, List.map_nil, ApplyChanges, Nat.min_self,
          ← heq, List.take_length, List.append_nil, ← hXc, LiveNode.withChildNodes_self,
          LiveNode.replaceAt_same _ _ _ hX]
      · rw [heq, Nat.min_self, List.take_length, List.append_nil]

theorem nodes_sim_of_loop (host : List Nat → List LiveNode)
    (ord : NodePtr → RangeOrder × RangeOrder) (A B : ParseTree) (S : Setting A B)
    (a b : List DOMNode) (hloop : LoopSim host ord A B a b) : NodesSim host ord A B a b := by
  intro q F L X hA hB hroot hkinds hsync howner hX hXc hcm
  unfold compareNodes at hcm ⊢
  obtain ⟨F1, suf, h1, h2, h3, h4⟩ := surplus_sim host A B S a b q F L X hA hB hroot hkinds
    hsync howner hX hXc hcm.left
  have hX1 := LiveNode.nodeAt_replaceAt (addressOf q) L
    (X.withChildNodes (mirrorList (a.take (min a.length b.length)) ++ suf)) X hX
  have hnot : ∀ p', (¬ ∃ rest, rest ≠ [] ∧ p' = q ++ rest) →
      ¬ ∃ t, p' = q ++ [t] ∧ min a.length b.length ≤ t := by
    rintro p' hp' ⟨t, rfl, -⟩
    exact hp' ⟨[t], by simp, rfl⟩
  have hframe1 : FrameAt F F1 q := ⟨h3, fun p' hp' => h4 p' (hnot p' hp')⟩
  obtain ⟨F', h5, h6⟩ := hloop q 0 F1 _ _ [] suf
    (fun t n ht => by rw [Nat.zero_add, getNode_snoc, hA]; exact ht)
    (fun t m ht => by rw [Nat.zero_add, getNode_snoc, hB]; exact ht)
    (SameKinds.kinds_trans hkinds h3)
    (fun t ht rest => by
      rw [Nat.zero_add, h4 _ (by
        rintro ⟨t', heq, hle⟩
        have hlen := congrArg List.length heq
        simp only [List.length_append, List.length_singleton] at hlen
        have hrest : rest = [] := List.length_eq_zero.1 (by omega)
        subst hrest
        simp only [List.append_nil, List.append_cancel_left_eq, List.cons.injEq,
          and_true] at heq
        omega)]
      exact hsync t rest)
    (hframe1.owner howner) hX1
    (by rw [LiveNode.withChildNodes_childNodes, List.nil_append]) rfl hcm.right
  refine ⟨F', ?_, hframe1.frame_trans h6⟩
  rw [ApplyChanges_append, h1, Option.some_bind, h5, LiveNode.replaceAt_replaceAt,
    LiveNode.withChildNodes_withChildNodes, List.nil_append, h2]

theorem loop_sim_nil_left (host : List Nat → List LiveNode)
    (ord : NodePtr → RangeOrder × RangeOrder) (A B : ParseTree) (b : List DOMNode) :
    LoopSim host ord A B [] b := by
  intro q i0 F L X pre suf _ _ _ _ _ hX hXc _ _
  refine ⟨F, ?_, FrameAt.frame_refl F q⟩
  simp only [List.length_nil, Nat.zero_min, List.take_nil, mirrorList, List.take_zero,
    List.append_nil] at hXc ⊢
  rw [compareLoop_nil_left, ApplyChanges, ← hXc, LiveNode.withChildNodes_self,
    LiveNode.replaceAt_same _ _ _ hX]

theorem loop_sim_nil_right (host : List Nat → List LiveNode)
    (ord : NodePtr → RangeOrder × RangeOrder) (A B : ParseTree) (a : List DOMNode) :
    LoopSim host ord A B a [] := by
  intro q i0 F L X pre suf _ _ _ _ _ hX hXc _ _
  refine ⟨F, ?_, FrameAt.frame_refl F q⟩
  simp only [List.length_nil, Nat.min_zero, List.take_nil, mirrorList, List.take_zero,
    List.append_nil] at hXc ⊢
  rw [compareLoop_nil_right, ApplyChanges, ← hXc, LiveNode.withChildNodes_self,
    LiveNode.replaceAt_same _ _ _ hX]

theorem list_set_append_cons {α : Type} (pre rest : List α) (x y : α) :
    (pre ++ x :: rest).set pre.length y = pre ++ y :: rest := by
  induction pre with
  | nil => rfl
  | cons z pre ih => simp [ih]

theorem loop_sim_cons (host : List Nat → List LiveNode)
    (ord : NodePtr → RangeOrder × RangeOrder) (A B : ParseTree) (x y : DOMNode)
    (a b : List DOMNode) (hpair : PairSim host ord A B x y)
    (hloop : LoopSim host ord A B a b) : LoopSim host ord A B (x :: a) (y :: b) := by
  intro q i0 F L X pre suf ha hb hkinds hsync howner hX hXc hpre hcm
  have hmin : min (x :: a).length (y :: b).length = min a.length b.length + 1 := by
    simp [Nat.succ_min_succ]
  rw [hmin] at hXc hsync ⊢
  rw [List.take_succ_cons] at hXc ⊢
  rw [compareLoop_cons] at hcm ⊢
  simp only [mirrorList, List.append_assoc, List.cons_append] at hXc ⊢
  -- the pair at index `i0`
  have hx : getNode A.ChildNodes (q ++ [i0]) = some x := ha 0 x (by simp)
  have hy : getNode B.ChildNodes (q ++ [i0]) = some y := hb 0 y (by simp)
  have hi0 : X.childNodes[i0]? = some (mirror x) := by
    rw [hXc, ← hpre, List.getElem?_append_right (Nat.le_refl _)]
    simp
  have hi0lt : i0 < X.childNodes.length := (List.getElem?_eq_some_iff.1 hi0).1
  have hlive : L.nodeAt (addressOf (q ++ [i0])) = some (mirror x) := by
    rw [addressOf_append]
    exact (LiveNode.nodeAt_snoc _ i0 L X hX).trans hi0
  obtain ⟨F1, h1, hf1⟩ := hpair q i0 F L hx hy hkinds (hsync 0 (by omega)) howner hlive
    hcm.left
  have hL1 : L.replaceAt (addressOf (q ++ [i0])) (mirror y)
      = L.replaceAt (addressOf q) (X.withChildNodes
          (pre ++ mirror y :: (mirrorList (a.take (min a.length b.length)) ++ suf))) := by
    rw [addressOf_append]
    show L.replaceAt (addressOf q ++ [(i0 : Int)]) (mirror y) = _
    rw [LiveNode.replaceAt_snoc _ i0 L (mirror y) X hX hi0lt, hXc, ← hpre,
      list_set_append_cons]
  rw [hL1] at h1
  have hX1 := LiveNode.nodeAt_replaceAt (addressOf q) L (X.withChildNodes
    (pre ++ mirror y :: (mirrorList (a.take (min a.length b.length)) ++ suf))) X hX
  -- the rest of the loop
  obtain ⟨F2, h2, hf2⟩ := hloop q (i0 + 1) F1 _ _ (pre ++ [mirror y]) suf
    (fun t n ht => by
      rw [show i0 + 1 + t = i0 + (t + 1) by omega]
      exact ha (t + 1) n (by simpa using ht))
    (fun t m ht => by
      rw [show i0 + 1 + t = i0 + (t + 1) by omega]
      exact hb (t + 1) m (by simpa using ht))
    (SameKinds.kinds_trans hkinds hf1.1)
    (fun t ht => by
      rw [show i0 + 1 + t = i0 + (t + 1) by omega]
      exact hf1.synced_sibling (by omega) (hsync (t + 1) (by omega)))
    ((hf1.weaken i0).owner howner) hX1
    (by rw [LiveNode.withChildNodes_childNodes]; simp)
    (by simp [hpre]) hcm.right
  refine ⟨F2, ?_, (hf1.weaken i0).frame_trans hf2⟩
  rw [ApplyChanges_append, h1, Option.some_bind, h2, LiveNode.replaceAt_replaceAt,
    LiveNode.withChildNodes_withChildNodes]
  simp

theorem pair_sim_of_nodes (host : List Nat → List LiveNode)
    (ord : NodePtr → RangeOrder × RangeOrder) (A B : ParseTree) (S : Setting A B)
    (n m : DOMNode) (hnodes : NodesSim host ord A B n.ChildNodes m.ChildNodes) :
    PairSim host ord A B n m := by
  intro q i F L hn hm hkinds hsync howner hlive hcm
  have hposA : n.Position = addressOf (q ++ [i]) := fresh_getNode_Position _ _ _ S.freshA hn
  have hsync0 : (getNode F (q ++ [i])).map DOMNode.Position = some (addressOf (q ++ [i])) := by
    have := hsync []
    rw [List.append_nil] at this
    rw [this, hn, Option.map_some', hposA]
  by_cases heq : n.IsEqual m = true
  · rw [comparePair_of_IsEqual _ _ _ _ _ _ heq] at hcm ⊢
    by_cases he : m.NodeType = ElementNodeType
    · rw [if_pos he] at hcm ⊢
      obtain ⟨F', h1, h2⟩ := hnodes (q ++ [i]) F L (mirror n) (childrenAt_of_getNode _ _ _ hn)
        (childrenAt_of_getNode _ _ _ hm) (fun hc => absurd hc (by simp)) hkinds
        (fun t rest => by
          have := hsync ([t] ++ rest)
          simpa only [List.append_assoc] using this)
        (fun _ => hsync0) hlive (mirror_childNodes n) hcm
      refine ⟨F', ?_, h2⟩
      rw [← mirror_withChildNodes_of_IsEqual n m heq he]
      exact h1
    · rw [if_neg he]
      refine ⟨F, ?_, FrameAt.frame_refl F _⟩
      have hne : n.NodeType ≠ ElementNodeType := by
        rw [((DOMNode.IsEqual_iff n m).1 heq).1]; exact he
      have hmirror : mirror n = mirror m := mirror_eq_of_IsEqual_leaf n m heq he
        (wellFormedNode_leaf n (wellFormed_getNode _ _ _ S.wfA hn) hne)
        (wellFormedNode_leaf m (wellFormed_getNode _ _ _ S.wfB hm) he)
      rw [ApplyChanges, ← hmirror, LiveNode.replaceAt_same _ _ _ hlive]
  · have hfalse : n.IsEqual m = false := by simpa using heq
    rw [comparePair_eq, if_pos hfalse] at hcm ⊢
    obtain ⟨existing, hex, -⟩ := getNode_isSome_of_kinds hkinds _ _ hn
    have hpos : existing.Position = addressOf q ++ [(i : Int)] := by
      rw [hex] at hsync0
      simp only [Option.map_some', Option.some.injEq] at hsync0
      rw [hsync0, addressOf_append]
      rfl
    have hlive' : L.nodeAt (addressOf q ++ [(i : Int)]) = some (mirror n) := by
      rw [addressOf_append] at hlive
      exact hlive
    rw [LiveNode.nodeAt_append] at hlive'
    cases hXq : L.nodeAt (addressOf q) with
    | none => simp [hXq] at hlive'
    | some X =>
      have hXi : X.childNodes[i]? = some (mirror n) := by
        rw [← LiveNode.nodeAt_snoc _ i L X hXq, LiveNode.nodeAt_append, hXq]
        exact (by simpa [hXq] using hlive')
      have hi : i < X.childNodes.length := (List.getElem?_eq_some_iff.1 hXi).1
      have hcr : m.Create host B.src = some (mirror m) :=
        hcm _ (List.mem_singleton.2 rfl) ⟨TreeId.new, q ++ [i]⟩ (Or.inl rfl) m hm
      have hstep := ReplaceNode_step host ⟨⟨A.src, F⟩, B, L⟩ q i existing m X (mirror m)
        ⟨TreeId.new, q ++ [i]⟩ hex hpos howner.exists hXq hi hm hcr
      refine ⟨F, ?_, FrameAt.frame_refl F _⟩
      have happly : Reconciler.ApplyChange host
          (replaceChange ⟨TreeId.old, q ++ [i]⟩ ⟨TreeId.new, q ++ [i]⟩)
          ⟨⟨A.src, F⟩, B, L⟩
          = some (⟨⟨A.src, F⟩, B, L.replaceAt (addressOf (q ++ [i])) (mirror m)⟩, none) := by
        rw [ApplyChange_replaceChange, hstep, addressOf_append]
        rfl
      exact (ApplyChanges_cons_of host _ [] _ _ none happly).trans rfl

mutual
theorem loop_sim (host : List Nat → List LiveNode) (ord : NodePtr → RangeOrder × RangeOrder)
    (A B : ParseTree) (S : Setting A B) : ∀ (a b : List DOMNode), LoopSim host ord A B a b
  | [], b => loop_sim_nil_left host ord A B b
  | _ :: _, [] => loop_sim_nil_right host ord A B _
  | x :: a, y :: b =>
    loop_sim_cons host ord A B x y a b (pair_sim host ord A B S x y) (loop_sim host ord A B S a b)
theorem pair_sim (host : List Nat → List LiveNode) (ord : NodePtr → RangeOrder × RangeOrder)
    (A B : ParseTree) (S : Setting A B) : ∀ (n m : DOMNode), PairSim host ord A B n m
  | .mk o t p c nm v s ats, m =>
    pair_sim_of_nodes host ord A B S (.mk o t p c nm v s ats) m
      (nodes_sim_of_loop host ord A B S c m.ChildNodes (loop_sim host ord A B S c m.ChildNodes))
end

/-- C1: for an old forest `A` and a new forest `B` of element, text and comment
nodes with the same number of roots and with parser-assigned addresses, and a
live tree whose root children mirror `A`, where creating a live node from each
new-tree node that a patch inserts yields the mirror of that node's subtree:
`A.Compare(B)` returns a patch list, `ApplyChanges` applies it without a panic
(no failed `Locate` lookup), and the live root children then mirror `B` (kinds,
tag names, attribute lists, text and comment data, child order at every
depth); the new tree is unchanged. -/
theorem C1_diff_then_apply (host : List Nat → List LiveNode)
    (ord : NodePtr → RangeOrder × RangeOrder) (A B : ParseTree) (rootElement : LiveNode)
    (hcount : A.ChildNodes.length = B.ChildNodes.length)
    (hfreshA : freshList [] 0 A.ChildNodes = true)
    (hfreshB : freshList [] 0 B.ChildNodes = true)
    (hwfA : wellFormedList A.ChildNodes = true)
    (hwfB : wellFormedList B.ChildNodes = true)
    (hlive : rootElement.childNodes = mirrorList A.ChildNodes)
    (hcreate : ∀ patches, A.Compare ord B = Except.ok patches → CreatesMirror host B patches) :
    ∃ patches h', A.Compare ord B = Except.ok patches ∧
      ApplyChanges host patches ⟨A, B, rootElement⟩ = some h' ∧
      h'.live = rootElement.withChildNodes (mirrorList B.ChildNodes) ∧ h'.new = B := by
  have S : Setting A B := ⟨hfreshA, hfreshB, hwfA, hwfB⟩
  obtain ⟨F', h1, -⟩ := nodes_sim_of_loop host ord A B S A.ChildNodes B.ChildNodes
    (loop_sim host ord A B S A.ChildNodes B.ChildNodes) [] A.ChildNodes rootElement rootElement
    rfl rfl (fun _ => hcount) (SameKinds.kinds_refl _) (fun _ _ => rfl) (fun hq => absurd rfl hq)
    rfl hlive (hcreate _ rfl)
  exact ⟨_, _, rfl, h1, rfl, rfl⟩

/-- Witness of C1: `<ul><li>1</li><li>2</li><li></li></ul>` patched into
`<ul><li>9</li></ul>` (two removals and one replaced text node). -/
theorem C1_diff_then_apply_witness :
    ∃ patches h', threeItemsOld.Compare ordInsertion oneItemNew = Except.ok patches ∧
      ApplyChanges hostNone patches ⟨threeItemsOld, oneItemNew, liveRoot threeItemsOld.ChildNodes⟩
        = some h' ∧
      h'.live = (liveRoot threeItemsOld.ChildNodes).withChildNodes
        (mirrorList oneItemNew.ChildNodes) ∧ h'.new = oneItemNew :=
  C1_diff_then_apply hostNone ordInsertion threeItemsOld oneItemNew
    (liveRoot threeItemsOld.ChildNodes) (by decide) (by decide) (by decide) (by decide)
    (by decide) rfl (by
      intro patches h
      have hp : [removeChange ⟨TreeId.old, [0, 1]⟩, removeChange ⟨TreeId.old, [0, 2]⟩,
          replaceChange ⟨TreeId.old, [0, 0, 0]⟩ ⟨TreeId.new, [0, 0, 0]⟩] = patches :=
        Eq.trans (by decide) (Except.ok.inj h)
      subst hp
      intro r hr p hp n hn
      simp only [List.mem_cons, List.mem_singleton, List.not_mem_nil, or_false] at hr
      rcases hr with rfl | rfl | rfl
      · simp [removeChange] at hp
      · simp [removeChange] at hp
      · have hp' : (⟨TreeId.new, [0, 0, 0]⟩ : NodePtr) = p := by
          simpa [replaceChange] using hp
        subst hp'
        have hn' : some (textNode [57] [0, 0, 0]) = some n := hn
        cases hn'
        rfl)

/-! ## Patch kinds and patch order of `Compare` -/

theorem surplusChanges_kinds (pa pb : NodePtr) (n m : Nat) (r : Reconciler)
    (hr : r ∈ surplusChanges pa pb n m) :
    r.ActionType = RemoveNodeAction ∨ r.ActionType = ReplaceNodeAction ∨
      r.ActionType = AppendChildNodeAction := by
  unfold surplusChanges at hr
  split at hr
  · simp only [List.mem_map, List.mem_range] at hr
    obtain ⟨j, -, rfl⟩ := hr
    exact Or.inr (Or.inr rfl)
  · split at hr
    · simp only [List.mem_map, List.mem_range] at hr
      obtain ⟨j, -, rfl⟩ := hr
      exact Or.inl rfl
    · simp at hr

mutual
theorem compareLoop_kinds (ord : NodePtr → RangeOrder × RangeOrder) :
    ∀ (a b : List DOMNode) (pa pb : NodePtr) (i : Nat) (r : Reconciler),
      r ∈ compareLoop ord pa pb i a b →
        r.ActionType = RemoveNodeAction ∨ r.ActionType = ReplaceNodeAction ∨
          r.ActionType = AppendChildNodeAction
  | [], _, pa, pb, i, r, hr => by simp [compareLoop_nil_left] at hr
  | _ :: _, [], pa, pb, i, r, hr => by simp [compareLoop_nil_right] at hr
  | n :: a, m :: b, pa, pb, i, r, hr => by
    rw [compareLoop_cons, List.mem_append] at hr
    rcases hr with hr | hr
    · exact comparePair_kinds ord n m pa pb i r hr
    · exact compareLoop_kinds ord a b pa pb (i + 1) r hr
theorem comparePair_kinds (ord : NodePtr → RangeOrder × RangeOrder) :
    ∀ (n m : DOMNode) (pa pb : NodePtr) (i : Nat) (r : Reconciler),
      r ∈ comparePair ord pa pb i n m →
        r.ActionType = RemoveNodeAction ∨ r.ActionType = ReplaceNodeAction ∨
          r.ActionType = AppendChildNodeAction
  | .mk o t p c nm v s ats, m, pa, pb, i, r, hr => by
    by_cases h : (DOMNode.mk o t p c nm v s ats).IsEqual m = true
    · rw [comparePair_of_IsEqual ord pa pb i _ m h] at hr
      split at hr
      · rw [compareNodes, List.mem_append] at hr
        rcases hr with hr | hr
        · exact surplusChanges_kinds _ _ _ _ r hr
        · exact compareLoop_kinds ord c m.ChildNodes (pa.child i) (pb.child i) 0 r hr
      · simp at hr
    · rw [comparePair_eq] at hr
      simp only [Bool.not_eq_true] at h
      simp only [h, if_true, List.mem_singleton] at hr
      subst hr
      exact Or.inr (Or.inl rfl)
end

/-- C20: every patch returned by `old.Compare(new)` is a `RemoveNode`,
`ReplaceNode` or `AppendChild`, never a `SetAttribute` or `RemoveAttribute`:
`compareAttributes` appends nothing for a pair that `IsEqual` has accepted, so
the returned list is the same for every order of the map iterations. -/
theorem C20_no_attribute_patches (ord : NodePtr → RangeOrder × RangeOrder)
    (old new : ParseTree) :
    ∃ patches, old.Compare ord new = Except.ok patches ∧
      (∀ r, r ∈ patches →
        (r.ActionType = RemoveNodeAction ∨ r.ActionType = ReplaceNodeAction ∨
          r.ActionType = AppendChildNodeAction) ∧
        r.ActionType ≠ SetNodeAttributeAction ∧ r.ActionType ≠ RemoveNodeAttributeAction) ∧
      (∀ (orderA orderB : RangeOrder) (pa : NodePtr) (a b : DOMNode), a.IsEqual b = true →
        compareAttributes orderA orderB pa a b = []) ∧
      (∀ ord', old.Compare ord' new = Except.ok patches) := by
  refine ⟨_, rfl, ?_, fun oA oB pa a b h => compareAttributes_of_IsEqual oA oB pa a b h,
    fun ord' => Compare_order_irrelevant ord' ord old new⟩
  intro r hr
  rw [compareNodes, List.mem_append] at hr
  have hk : r.ActionType = RemoveNodeAction ∨ r.ActionType = ReplaceNodeAction ∨
      r.ActionType = AppendChildNodeAction := by
    rcases hr with hr | hr
    · exact surplusChanges_kinds _ _ _ _ r hr
    · exact compareLoop_kinds ord _ _ _ _ 0 r hr
  refine ⟨hk, ?_, ?_⟩ <;> rcases hk with h | h | h <;> rw [h] <;> decide

theorem compareLoop_eq_flatMap (ord : NodePtr → RangeOrder × RangeOrder) (pa pb : NodePtr) :
    ∀ (a b : List DOMNode) (i0 : Nat),
      compareLoop ord pa pb i0 a b
        = (List.range (min a.length b.length)).flatMap fun t =>
            match a[t]?, b[t]? with
            | some n, some m => comparePair ord pa pb (i0 + t) n m
            | _, _ => []
  | [], b, i0 => by simp [compareLoop_nil_left]
  | n :: a, [], i0 => by simp [compareLoop_nil_right]
  | n :: a, m :: b, i0 => by
    have hmin : min (n :: a).length (m :: b).length = min a.length b.length + 1 := by
      simp [Nat.succ_min_succ]
    rw [compareLoop_cons, hmin, List.range_succ_eq_map, List.flatMap_cons, List.flatMap_map,
      compareLoop_eq_flatMap ord pa pb a b (i0 + 1)]
    refine congrArg₂ (· ++ ·) (by simp) ?_
    apply List.flatMap_congr
    intro t _
    simp only [Function.comp, Nat.succ_eq_add_one, List.getElem?_cons_succ]
    rw [show i0 + 1 + t = i0 + (t + 1) by omega]

theorem comparePair_eq_positionSpec (ord : NodePtr → RangeOrder × RangeOrder) (pa pb : NodePtr)
    (i : Nat) (n m : DOMNode) :
    comparePair ord pa pb i n m
      = positionSpec ord pa pb i n m
          (compareNodes ord (pa.child i) (pb.child i) n.ChildNodes m.ChildNodes) := by
  rw [comparePair_eq, positionSpec]
  by_cases h : n.IsEqual m = true
  · have hty := ((DOMNode.IsEqual_iff n m).1 h).1
    by_cases he : m.NodeType = ElementNodeType
    · simp [h, he, hty]
    · simp [h, he, hty]
  · have hf : n.IsEqual m = false := by simpa using h
    simp [hf, replaceChange]

/-- C18: the patch list of `compareNodes` is the surplus patches (appends when
`new` is longer, removals when `old` is longer, none for equal lengths) followed
by the patches of the positions `0`, `1`, ..., `min(len(old), len(new)) - 1` in
ascending order, where a position contributes one `ReplaceNode` for a pair that
is not shallow-equal, the attribute patches followed by the patches of the
recursive comparison of the children for a shallow-equal pair of elements, and
nothing for an equal text or comment pair. -/
theorem C18_patch_order (ord : NodePtr → RangeOrder × RangeOrder) (pa pb : NodePtr)
    (old new : List DOMNode) :
    compareNodes ord pa pb old new
      = surplusSpec pa pb old new
        ++ (List.range (min old.length new.length)).flatMap fun i =>
            match old[i]?, new[i]? with
            | some n, some m =>
              positionSpec ord pa pb i n m
                (compareNodes ord (pa.child i) (pb.child i) n.ChildNodes m.ChildNodes)
            | _, _ => [] := by
  have hsurplus : surplusChanges pa pb old.length new.length = surplusSpec pa pb old new := by
    unfold surplusChanges surplusSpec
    by_cases h1 : old.length < new.length
    · simp [h1, appendChange]
    · by_cases h2 : new.length < old.length
      · simp [h1, h2, removeChange]
      · simp [h1, h2]
  rw [compareNodes, compareLoop_eq_flatMap, hsurplus]
  refine congrArg₂ (· ++ ·) rfl ?_
  apply List.flatMap_congr
  intro t _
  cases old[t]? with
  | none => rfl
  | some n =>
    cases new[t]? with
    | none => rfl
    | some m => simp only [Nat.zero_add, comparePair_eq_positionSpec]

/-! ## `ReverseFind` -/

theorem goIndex_isSome_of_lt {α : Type} (s : List α) (i : Int) (h0 : 0 ≤ i)
    (hlt : i < s.length) : ∃ x, goIndex s i = some x := by
  have : i.toNat < s.length := by omega
  exact ⟨s[i.toNat], by simp [goIndex, h0, List.getElem?_eq_getElem this]⟩

/-- The backward scan over the window `[m, i]` inside the buffer: either it
finds the greatest index holding `b`, or it returns `-1` and no index of the
window holds `b`. -/
theorem reverseScan_spec (src : List Nat) (b : Nat) (m : Int) (hm : 0 ≤ m) :
    ∀ (steps : Nat) (i : Int), (steps : Int) = i - m + 1 → i < src.length →
      ∃ r, reverseScan src b steps i = some r ∧
        ((m ≤ r ∧ r ≤ i ∧ goIndex src r = some b ∧
            ∀ j, r < j → j ≤ i → goIndex src j ≠ some b) ∨
          (r = -1 ∧ ∀ j, m ≤ j → j ≤ i → goIndex src j ≠ some b))
  | 0, i, hs, _ => by
    refine ⟨-1, rfl, Or.inr ⟨rfl, ?_⟩⟩
    intro j hj1 hj2
    omega
  | steps + 1, i, hs, hi => by
    have hmi : m ≤ i := by push_cast at hs; omega
    obtain ⟨x, hx⟩ := goIndex_isSome_of_lt src i (by omega) hi
    rw [reverseScan, hx]
    by_cases hxb : x = b
    · subst hxb
      refine ⟨i, by simp, Or.inl ⟨hmi, le_refl i, hx, ?_⟩⟩
      intro j hj1 hj2
      omega
    · obtain ⟨r, hr, hcase⟩ := reverseScan_spec src b m hm steps (i - 1)
        (by push_cast at hs; omega) (by omega)
      have hnot : goIndex src i ≠ some b := by
        rw [hx]; intro hc; exact hxb (Option.some.inj hc)
      refine ⟨r, by simp [hxb, hr], ?_⟩
      rcases hcase with ⟨h1, h2, h3, h4⟩ | ⟨h1, h2⟩
      · refine Or.inl ⟨h1, by omega, h3, ?_⟩
        intro j hj1 hj2
        by_cases hji : j = i
        · rw [hji]; exact hnot
        · exact h4 j hj1 (by omega)
      · refine Or.inr ⟨h1, ?_⟩
        intro j hj1 hj2
        by_cases hji : j = i
        · rw [hji]; exact hnot
        · exact h2 j hj1 (by omega)

theorem ReverseFind_valid (pt : ParseTree) (m n : Int) (b : Nat) (hm : 0 ≤ m) (hmn : m ≤ n)
    (hn : n < pt.src.length) :
    ∃ r, pt.ReverseFind m n b = some (r, none) ∧
      ((m ≤ r ∧ r ≤ n ∧ goIndex pt.src r = some b ∧
          ∀ j, r < j → j ≤ n → goIndex pt.src j ≠ some b) ∨
        (r = -1 ∧ ∀ j, m ≤ j → j ≤ n → goIndex pt.src j ≠ some b)) := by
  obtain ⟨r, hr, hcase⟩ := reverseScan_spec pt.src b m hm (n - m + 1).toNat n
    (by omega) hn
  refine ⟨r, ?_, hcase⟩
  unfold ParseTree.ReverseFind
  rw [if_neg (by omega), if_neg (by omega), hr]

/-- C19: on a window `0 <= m <= n < len(src)` that holds the byte `b`,
`ReverseFind(m, n, b)` returns, without error, the greatest index of the window
that holds `b`; and it returns an error exactly when `n >= len(src)`, `n < m`,
`m >= len(src)` or `m < 0`, the index returned with an error being `-1`. -/
theorem C19_ReverseFind (pt : ParseTree) (m n : Int) (b : Nat) :
    (0 ≤ m → m ≤ n → n < pt.src.length →
      (∃ j, m ≤ j ∧ j ≤ n ∧ goIndex pt.src j = some b) →
      ∃ i, pt.ReverseFind m n b = some (i, none) ∧ m ≤ i ∧ i ≤ n ∧
        goIndex pt.src i = some b ∧ ∀ j, i < j → j ≤ n → goIndex pt.src j ≠ some b) ∧
    ((∃ i msg, pt.ReverseFind m n b = some (i, some msg)) ↔
      (n ≥ pt.src.length ∨ n < m ∨ m ≥ pt.src.length ∨ m < 0)) ∧
    (∀ i msg, pt.ReverseFind m n b = some (i, some msg) → i = -1) := by
  refine ⟨?_, ?_, ?_⟩
  · intro hm hmn hn ⟨j, hj1, hj2, hj3⟩
    obtain ⟨r, hr, hcase⟩ := ReverseFind_valid pt m n b hm hmn hn
    rcases hcase with ⟨h1, h2, h3, h4⟩ | ⟨-, h2⟩
    · exact ⟨r, hr, h1, h2, h3, h4⟩
    · exact absurd hj3 (h2 j hj1 hj2)
  · constructor
    · rintro ⟨i, msg, h⟩
      by_contra hc
      obtain ⟨r, hr, -⟩ := ReverseFind_valid pt m n b (by omega) (by omega) (by omega)
      rw [hr] at h
      simp at h
    · intro h
      unfold ParseTree.ReverseFind
      by_cases h1 : n ≥ pt.src.length ∨ n < m
      · exact ⟨-1, _, by rw [if_pos h1]⟩
      · have h2 : m ≥ pt.src.length ∨ m < 0 := by omega
        exact ⟨-1, _, by rw [if_neg h1, if_pos h2]⟩
  · intro i msg h
    unfold ParseTree.ReverseFind at h
    split at h
    · simp only [Option.some.injEq, Prod.mk.injEq] at h; exact h.1.symm
    · split at h
      · simp only [Option.some.injEq, Prod.mk.injEq] at h; exact h.1.symm
      · cases hs : reverseScan pt.src b (n - m + 1).toNat n with
        | none => simp [hs] at h
        | some r => simp [hs] at h

/-- Witness of C19: in the buffer `<a><b>` the nearest `<` at or before index 5
is at index 3. -/
theorem C19_ReverseFind_witness :
    ∃ i, (ParseTree.mk [60, 97, 62, 60, 98, 62] []).ReverseFind 0 5 60 = some (i, none) ∧
      (0 : Int) ≤ i ∧ i ≤ 5 ∧ goIndex [60, 97, 62, 60, 98, 62] i = some 60 ∧
      ∀ j, i < j → j ≤ 5 → goIndex [60, 97, 62, 60, 98, 62] j ≠ some 60 :=
  (C19_ReverseFind (ParseTree.mk [60, 97, 62, 60, 98, 62] []) 0 5 60).1 (by decide) (by decide)
    (by decide) ⟨3, by decide, by decide, by decide⟩

/-! ## Errors of `ApplyChange`, removals at the root and in any order -/

/-- `ApplyChange` returns an error exactly when the action type is none of the
five kinds, and the state is then unchanged. -/
theorem ApplyChange_error_iff (host : List Nat → List LiveNode) (r : Reconciler) (h : Heap) :
    (∃ h' msg, r.ApplyChange host h = some (h', some msg)) ↔
      ¬ (r.ActionType = SetNodeAttributeAction ∨ r.ActionType = RemoveNodeAttributeAction ∨
          r.ActionType = RemoveNodeAction ∨ r.ActionType = ReplaceNodeAction ∨
          r.ActionType = AppendChildNodeAction) := by
  unfold Reconciler.ApplyChange
  constructor
  · rintro ⟨h', msg, heq⟩
    rintro (h0 | h1 | h2 | h3 | h4)
    · rw [if_pos h0] at heq
      cases hs : r.SetNodeAttribute h <;> simp [hs] at heq
    · by_cases h0 : r.ActionType = SetNodeAttributeAction
      · rw [h0] at h1; revert h1; decide
      · rw [if_neg h0, if_pos h1] at heq
        cases hs : r.RemoveNodeAttribute h <;> simp [hs] at heq
    · by_cases h0 : r.ActionType = SetNodeAttributeAction
      · rw [h0] at h2; revert h2; decide
      · by_cases h1 : r.ActionType = RemoveNodeAttributeAction
        · rw [h1] at h2; revert h2; decide
        · rw [if_neg h0, if_neg h1, if_pos h2] at heq
          cases hs : r.RemoveNode h <;> simp [hs] at heq
    · by_cases h0 : r.ActionType = SetNodeAttributeAction
      · rw [h0] at h3; revert h3; decide
      · by_cases h1 : r.ActionType = RemoveNodeAttributeAction
        · rw [h1] at h3; revert h3; decide
        · by_cases h2 : r.ActionType = RemoveNodeAction
          · rw [h2] at h3; revert h3; decide
          · rw [if_neg h0, if_neg h1, if_neg h2, if_pos h3] at heq
            cases hs : r.ReplaceNode host h <;> simp [hs] at heq
    · by_cases h0 : r.ActionType = SetNodeAttributeAction
      · rw [h0] at h4; revert h4; decide
      · by_cases h1 : r.ActionType = RemoveNodeAttributeAction
        · rw [h1] at h4; revert h4; decide
        · by_cases h2 : r.ActionType = RemoveNodeAction
          · rw [h2] at h4; revert h4; decide
          · by_cases h3 : r.ActionType = ReplaceNodeAction
            · rw [h3] at h4; revert h4; decide
            · rw [if_neg h0, if_neg h1, if_neg h2, if_neg h3, if_pos h4] at heq
              cases hs : r.AppendChildNode host h <;> simp [hs] at heq
  · intro hnot
    have h0 : ¬ r.ActionType = SetNodeAttributeAction := fun hc => hnot (Or.inl hc)
    have h1 : ¬ r.ActionType = RemoveNodeAttributeAction := fun hc => hnot (Or.inr (Or.inl hc))
    have h2 : ¬ r.ActionType = RemoveNodeAction := fun hc => hnot (Or.inr (Or.inr (Or.inl hc)))
    have h3 : ¬ r.ActionType = ReplaceNodeAction :=
      fun hc => hnot (Or.inr (Or.inr (Or.inr (Or.inl hc))))
    have h4 : ¬ r.ActionType = AppendChildNodeAction :=
      fun hc => hnot (Or.inr (Or.inr (Or.inr (Or.inr hc))))
    exact ⟨h, _, by rw [if_neg h0, if_neg h1, if_neg h2, if_neg h3, if_neg h4]⟩

theorem ApplyChange_unknown (host : List Nat → List LiveNode) (r : Reconciler) (h : Heap)
    (hr : ¬ (r.ActionType = SetNodeAttributeAction ∨ r.ActionType = RemoveNodeAttributeAction ∨
          r.ActionType = RemoveNodeAction ∨ r.ActionType = ReplaceNodeAction ∨
          r.ActionType = AppendChildNodeAction)) :
    r.ApplyChange host h = some (h, some "Unknown action") := by
  have h0 : ¬ r.ActionType = SetNodeAttributeAction := fun hc => hr (Or.inl hc)
  have h1 : ¬ r.ActionType = RemoveNodeAttributeAction := fun hc => hr (Or.inr (Or.inl hc))
  have h2 : ¬ r.ActionType = RemoveNodeAction := fun hc => hr (Or.inr (Or.inr (Or.inl hc)))
  have h3 : ¬ r.ActionType = ReplaceNodeAction :=
    fun hc => hr (Or.inr (Or.inr (Or.inr (Or.inl hc))))
  have h4 : ¬ r.ActionType = AppendChildNodeAction :=
    fun hc => hr (Or.inr (Or.inr (Or.inr (Or.inr hc))))
  unfold Reconciler.ApplyChange
  rw [if_neg h0, if_neg h1, if_neg h2, if_neg h3, if_neg h4]

/-- C12 as stated fails: on `<ul><li>1</li><li>2</li></ul>` the first patch of
the list has an unknown action type and `ApplyChange` returns an error for it,
yet `ApplyChanges` runs to the end of the list and the removal of the second
`<li>` that follows the failing patch is applied. -/
theorem C12_counterexample :
    unknownChange.ApplyChange hostNone ulTwoHeap = some (ulTwoHeap, some "Unknown action") ∧
    ∃ h', ApplyChanges hostNone [unknownChange, removeChange ⟨TreeId.old, [0, 1]⟩] ulTwoHeap
          = some h' ∧
      (ulTwoHeap.live.nodeAt [0]).map (fun u => u.childNodes.length) = some 2 ∧
      (h'.live.nodeAt [0]).map (fun u => u.childNodes.length) = some 1 :=
  ⟨rfl, _, rfl, by decide, by decide⟩

/-- C12 (amended): `ApplyChange` returns an error exactly when the action type
is none of the five kinds, and it leaves the state unchanged then;
`ApplyChanges`, which has no result value, drops that error: a list with such a
patch has the effect of the list without it, so the patches that follow the
failing one are applied. -/
theorem C12_error_dropped (host : List Nat → List LiveNode) (r : Reconciler) (h : Heap) :
    ((∃ h' msg, r.ApplyChange host h = some (h', some msg)) ↔
      ¬ (r.ActionType = SetNodeAttributeAction ∨ r.ActionType = RemoveNodeAttributeAction ∨
          r.ActionType = RemoveNodeAction ∨ r.ActionType = ReplaceNodeAction ∨
          r.ActionType = AppendChildNodeAction)) ∧
    (∀ h' msg, r.ApplyChange host h = some (h', some msg) →
      h' = h ∧ ∀ (before after : Changes) (h0 : Heap),
        ApplyChanges host (before ++ r :: after) h0 = ApplyChanges host (before ++ after) h0) := by
  refine ⟨ApplyChange_error_iff host r h, ?_⟩
  intro h' msg herr
  have hunknown := (ApplyChange_error_iff host r h).1 ⟨h', msg, herr⟩
  constructor
  · rw [ApplyChange_unknown host r h hunknown] at herr
    simp only [Option.some.injEq, Prod.mk.injEq] at herr
    exact herr.1.symm
  · intro before after h0
    rw [ApplyChanges_append, ApplyChanges_append]
    cases hb : ApplyChanges host before h0 with
    | none => rfl
    | some h1 =>
      simp only [Option.some_bind]
      exact ApplyChanges_cons_of host r after h1 h1 _ (ApplyChange_unknown host r h1 hunknown)

/-- Witness of C12 (amended): the unknown patch in front of the removal of the
second `<li>` of `<ul><li>1</li><li>2</li></ul>`. -/
theorem C12_error_dropped_witness :
    unknownChange.ApplyChange hostNone ulTwoHeap = some (ulTwoHeap, some "Unknown action") ∧
    (ulTwoHeap = ulTwoHeap ∧ ∀ (before after : Changes) (h0 : Heap),
      ApplyChanges hostNone (before ++ unknownChange :: after) h0
        = ApplyChanges hostNone (before ++ after) h0) :=
  ⟨rfl, (C12_error_dropped hostNone unknownChange ulTwoHeap).2 ulTwoHeap "Unknown action" rfl⟩

/-- C16: removing the root-level `<p>` of the fresh tree `<p></p><b></b>` with
its live mirror leaves the address of the following root `<b>` at `[1]`: before
the patch `Locate` returns the live `<b>` for it, after the patch the live
`<b>` is child 0 of the root and `Locate` finds no node at `[1]`. -/
theorem C16_root_removal :
    freshList [] 0 twoRoots = true ∧
    locatedTag twoRootsHeap [1] = some "b" ∧
    ∃ h', (removeChange ⟨TreeId.old, [0]⟩).ApplyChange hostNone twoRootsHeap = some (h', none) ∧
      h'.live.childNodes.map LiveNode.tagName = ["b"] ∧
      (getNode h'.old.ChildNodes [1]).map DOMNode.Position = some [1] ∧
      locatedTag h' [1] = none := by
  refine ⟨by decide, by decide, _, rfl, by decide, by decide, by decide⟩

/-- C17: on the fresh `<ul>` with the four children `<li>0</li>` ... `<li>3</li>`
and its live mirror, removing child 0 and then child 2 decrements, in the second
removal, the address of child 1, which precedes the removed node in the child
list and is not removed: its address becomes `[0, -1]` and `Locate` finds no
live node for it, although the live `<li>1</li>` is still in the document. -/
theorem C17_removal_order :
    freshList [] 0 [ulFour] = true ∧
    ∃ h1 h2,
      (removeChange ⟨TreeId.old, [0, 0]⟩).ApplyChange hostNone ulFourHeap = some (h1, none) ∧
      (removeChange ⟨TreeId.old, [0, 2]⟩).ApplyChange hostNone h1 = some (h2, none) ∧
      (getNode h1.old.ChildNodes [0, 1]).map DOMNode.Position = some [0, 0] ∧
      locatedText h1 [0, 1] = some [[49]] ∧
      (getNode h2.old.ChildNodes [0, 1]).map DOMNode.Position = some [0, -1] ∧
      locatedText h2 [0, 1] = none ∧
      (h2.live.nodeAt [0]).map (fun u => u.childNodes.map fun l => l.childNodes.map LiveNode.data)
        = some [[[49]], [[51]]] := by
  refine ⟨by decide, _, _, rfl, rfl, by decide, by decide, by decide, by decide, by decide⟩

/-! ## The tree builder on start tags, text and comments -/

/-- C13: the start tag `<br>` met with no open element is not appended to the
root list: `parse` returns with the root list unchanged and a nil cursor, and
`NewParseTree` on the document `<br>` returns a tree without nodes; the same
tag inside the open `<p>` of `<p><br>` is linked as the last child of that `<p>`. -/
theorem C13_void_root_lost :
    (ParseTree.mk srcBr []).parse tokenBr none (4, 4) = ParseOutcome.done ⟨srcBr, []⟩ none ∧
    NewParseTree srcBr [(tokenBr, (4, 4))] = some (Except.ok ⟨srcBr, []⟩) ∧
    ∃ pt', NewParseTree srcPBreak [(⟨TokenType.StartTagToken, "p", []⟩, (3, 3)), (tokenBr, (7, 7))]
        = some (Except.ok pt') ∧
      pt'.ChildNodes.length = 1 ∧
      (getNode pt'.ChildNodes [0, 0]).map (fun n => (n.Name, n.Position, n.IsSelfClosing))
        = some ("br", [0, 0], true) :=
  ⟨rfl, rfl, _, rfl, by decide, by decide⟩

/-- C15: the text token `br` of `<p>br</p>`, met inside the open `<p>`, sets
`IsSelfClosing` of that `<p>` besides linking the text node under it; the same
token met with no open element makes `parse` panic on a nil dereference. -/
theorem C15_text_named_like_void_tag :
    (getNode openP.ChildNodes [0]).map DOMNode.IsSelfClosing = some false ∧
    (∃ pt', openP.parse textBr (some [0]) (5, 5) = ParseOutcome.done pt' (some [0]) ∧
      (getNode pt'.ChildNodes [0, 0]).map (fun n => (n.NodeType, n.Value, n.Position))
        = some (TextNodeType, [98, 114], [0, 0]) ∧
      (getNode pt'.ChildNodes [0]).map DOMNode.IsSelfClosing = some true) ∧
    (ParseTree.mk [98, 114] []).parse textBr none (2, 2) = ParseOutcome.panic :=
  ⟨by decide, ⟨_, rfl, by decide, by decide⟩, rfl⟩

/-- C11 as stated fails: the window `[0, 1]` of the buffer `x>` is valid and
holds no `<`, yet `ReverseFind` returns `-1` without an error, and `parse` of a
start tag with that window succeeds and stores `-1` as the start position. -/
theorem C11_counterexample :
    (∀ j : Int, 0 ≤ j → j ≤ 1 → goIndex [120, 62] j ≠ some 60) ∧
    (ParseTree.mk [120, 62] []).ReverseFind 0 1 60 = some (-1, none) ∧
    ∃ pt', (ParseTree.mk [120, 62] []).parse ⟨TokenType.StartTagToken, "p", []⟩ none (2, 2)
        = ParseOutcome.done pt' (some [0]) ∧
      (getNode pt'.ChildNodes [0]).map (fun n => n.offsets.startPosition) = some (-1) := by
  refine ⟨?_, rfl, _, rfl, by decide⟩
  intro j h0 h1
  interval_cases j <;> decide

/-! ## Lemmas: the addresses that the tree builder assigns -/

theorem updateNode_cons (roots : List DOMNode) (i : Nat) (rest : List Nat)
    (f : DOMNode → DOMNode) :
    updateNode roots (i :: rest) f
      = match roots[i]? with
        | none => none
        | some n =>
          if rest = [] then some (roots.set i (f n))
          else (updateNode n.ChildNodes rest f).map fun c => roots.set i (n.withChildNodes c) := by
  cases rest with
  | nil => simp [updateNode]
  | cons j r =>
    rw [updateNode]
    cases roots[i]? with
    | none => rfl
    | some n =>
      simp only [reduceCtorEq, if_false]
      generalize updateNode n.ChildNodes (j :: r) f = u
      cases u <;> rfl

theorem updateNode_isSome (f : DOMNode → DOMNode) :
    ∀ (p : List Nat) (l : List DOMNode) (c : DOMNode), getNode l p = some c →
      ∃ l', updateNode l p f = some l'
  | [], _, _, h => by simp [getNode] at h
  | i :: r, l, c, h => by
    rw [getNode_cons] at h
    rw [updateNode_cons]
    cases hx : l[i]? with
    | none => simp [hx] at h
    | some x =>
      simp only [hx] at h
      by_cases hr : r = []
      · exact ⟨l.set i (f x), by simp [hr]⟩
      · simp only [hr, if_false] at h
        obtain ⟨c', hc'⟩ := updateNode_isSome f r x.ChildNodes c h
        exact ⟨l.set i (x.withChildNodes c'), by simp [hr, hc']⟩

theorem freshNode_iff (address : List Nat) (n : DOMNode) :
    freshNode address n = true ↔
      n.Position = addressOf address ∧ freshList address 0 n.ChildNodes = true := by
  cases n
  simp [freshNode, DOMNode.Position, DOMNode.ChildNodes]

theorem freshList_set (owner : List Nat) : ∀ (l : List DOMNode) (i j : Nat) (x : DOMNode),
    freshList owner i l = true → freshNode (owner ++ [i + j]) x = true →
      freshList owner i (l.set j x) = true
  | [], _, _, _, h, _ => by simpa using h
  | y :: rest, i, j, x, h, hx => by
    simp only [freshList, Bool.and_eq_true] at h
    cases j with
    | zero =>
      simp only [List.set_cons_zero, freshList, Bool.and_eq_true]
      exact ⟨by simpa using hx, h.2⟩
    | succ j =>
      simp only [List.set_cons_succ, freshList, Bool.and_eq_true]
      refine ⟨h.1, freshList_set owner rest (i + 1) j x h.2 ?_⟩
      rwa [show i + 1 + j = i + (j + 1) by omega]

theorem freshList_snoc (owner : List Nat) : ∀ (l : List DOMNode) (i : Nat) (x : DOMNode),
    freshList owner i l = true → freshNode (owner ++ [i + l.length]) x = true →
      freshList owner i (l ++ [x]) = true
  | [], i, x, _, hx => by
    simp only [List.nil_append, freshList, Bool.and_eq_true, and_true]
    simpa using hx
  | y :: rest, i, x, h, hx => by
    simp only [freshList, Bool.and_eq_true] at h
    simp only [List.cons_append, freshList, Bool.and_eq_true]
    refine ⟨h.1, freshList_snoc owner rest (i + 1) x h.2 ?_⟩
    rwa [show i + 1 + rest.length = i + (y :: rest).length by simp; omega]

theorem fresh_updateNode (f : DOMNode → DOMNode) :
    ∀ (p owner : List Nat) (l l' : List DOMNode), freshList owner 0 l = true →
      (∀ c, getNode l p = some c → freshNode (owner ++ p) (f c) = true) →
      updateNode l p f = some l' → freshList owner 0 l' = true
  | [], _, _, _, _, _, h => by simp [updateNode] at h
  | i :: r, owner, l, l', hf, hc, h => by
    rw [updateNode_cons] at h
    cases hx : l[i]? with
    | none => simp [hx] at h
    | some x =>
      have hfx := freshList_getElem? owner l 0 i x hf hx
      rw [Nat.zero_add] at hfx
      simp only [hx] at h
      by_cases hr : r = []
      · subst hr
        simp only [if_true, Option.some.injEq] at h
        subst h
        apply freshList_set owner l 0 i _ hf
        rw [Nat.zero_add]
        exact hc x (by rw [getNode_singleton]; exact hx)
      · simp only [hr, if_false] at h
        cases hu : updateNode x.ChildNodes r f with
        | none => simp [hu] at h
        | some c' =>
          simp only [hu, Option.map_some', Option.some.injEq] at h
          subst h
          apply freshList_set owner l 0 i _ hf
          rw [Nat.zero_add, freshNode_iff, DOMNode.withChildNodes_Position,
            DOMNode.withChildNodes_ChildNodes]
          refine ⟨freshNode_Position _ x hfx, ?_⟩
          apply fresh_updateNode f r (owner ++ [i]) x.ChildNodes c'
            (freshNode_ChildNodes _ x hfx) ?_ hu
          intro c hgc
          have := hc c (by rw [getNode_cons, hx]; simp only [hr, if_false]; exact hgc)
          simpa using this

theorem addressOf_snoc (p : List Nat) (k : Nat) : addressOf (p ++ [k]) = addressOf p ++ [(k : Int)] := by
  simp [addressOf]

/-- Linking a childless node with the address `current.Position ++
[len(current.ChildNodes)]` under the node at `cp` keeps the forest fresh. -/
theorem linkChild_fresh (roots roots' : List DOMNode) (cp : List Nat) (c node : DOMNode)
    (hf : freshList [] 0 roots = true) (hc : getNode roots cp = some c)
    (hpos : node.Position = c.Position ++ [(c.ChildNodes.length : Int)])
    (hkids : node.ChildNodes = [])
    (h : linkChild roots cp node = some roots') : freshList [] 0 roots' = true := by
  apply fresh_updateNode _ cp [] roots roots' hf ?_ h
  intro c' hc'
  rw [hc] at hc'
  cases hc'
  have hfc : freshNode cp c = true := by simpa using fresh_getNode cp [] roots c hf hc
  rw [List.nil_append, freshNode_iff, DOMNode.withChildNodes_Position,
    DOMNode.withChildNodes_ChildNodes]
  refine ⟨freshNode_Position _ c hfc, ?_⟩
  apply freshList_snoc cp c.ChildNodes 0 node (freshNode_ChildNodes _ c hfc)
  rw [Nat.zero_add, freshNode_iff, hpos, hkids, freshNode_Position _ c hfc, addressOf_snoc]
  exact ⟨rfl, rfl⟩

/-- Appending a childless node with the address `[len(pt.ChildNodes)]` to the
root list keeps the forest fresh. -/
theorem rootAppend_fresh (roots : List DOMNode) (node : DOMNode)
    (hf : freshList [] 0 roots = true) (hpos : node.Position = [(roots.length : Int)])
    (hkids : node.ChildNodes = []) : freshList [] 0 (roots ++ [node]) = true := by
  apply freshList_snoc [] roots 0 node hf
  rw [Nat.zero_add, freshNode_iff, hpos, hkids]
  exact ⟨by simp [addressOf], rfl⟩

theorem DOMNode.withIsSelfClosing_fields (n : DOMNode) (s : Bool) :
    (n.withIsSelfClosing s).Position = n.Position ∧
      (n.withIsSelfClosing s).ChildNodes = n.ChildNodes := by
  cases n; exact ⟨rfl, rfl⟩

theorem DOMNode.withOffsets_fields (n : DOMNode) (o : Positions) :
    (n.withOffsets o).Position = n.Position ∧ (n.withOffsets o).ChildNodes = n.ChildNodes := by
  cases n; exact ⟨rfl, rfl⟩

/-- An assignment to a field other than `Position` and `ChildNodes` keeps the
forest fresh. -/
theorem fieldUpdate_fresh (f : DOMNode → DOMNode)
    (hfield : ∀ n, (f n).Position = n.Position ∧ (f n).ChildNodes = n.ChildNodes)
    (roots roots' : List DOMNode) (cp : List Nat) (hf : freshList [] 0 roots = true)
    (h : updateNode roots cp f = some roots') : freshList [] 0 roots' = true := by
  apply fresh_updateNode f cp [] roots roots' hf ?_ h
  intro c hc
  have hfc : freshNode cp c = true := by simpa using fresh_getNode cp [] roots c hf hc
  rw [List.nil_append, freshNode_iff, (hfield c).1, (hfield c).2]
  exact ⟨freshNode_Position _ c hfc, freshNode_ChildNodes _ c hfc⟩

theorem closeCurrent_fresh (roots roots' : List DOMNode) (token : Token)
    (current next : Option (List Nat)) (offset : Int × Int)
    (hf : freshList [] 0 roots = true)
    (h : closeCurrent roots token current offset = some (roots', next)) :
    freshList [] 0 roots' = true := by
  unfold closeCurrent at h
  split at h
  · cases current with
    | none => simp at h
    | some cp =>
      simp only at h
      split at h
      · cases hu : updateNode roots cp fun c => c.withIsSelfClosing true with
        | none => simp [hu] at h
        | some r =>
          simp only [hu, Option.some.injEq, Prod.mk.injEq] at h
          rw [← h.1]
          exact fieldUpdate_fresh _ (fun n => DOMNode.withIsSelfClosing_fields n true)
            roots r cp hf hu
      · cases hu : updateNode roots cp fun c =>
            c.withOffsets { c.offsets with
              endPosition := offset.1,
              innerEndPosition := offset.1 - ((c.Name.utf8ByteSize : Int) + 3) } with
        | none => simp [hu] at h
        | some r =>
          simp only [hu, Option.some.injEq, Prod.mk.injEq] at h
          rw [← h.1]
          exact fieldUpdate_fresh _ (fun n => DOMNode.withOffsets_fields n _) roots r cp hf hu
  · simp only [Option.some.injEq, Prod.mk.injEq] at h
    rw [← h.1]; exact hf

theorem addLeaf_fresh (src : List Nat) (roots : List DOMNode) (nodeType : Int) (token : Token)
    (current next : Option (List Nat)) (pt' : ParseTree) (hf : freshList [] 0 roots = true)
    (h : addLeaf src roots nodeType token current = ParseOutcome.done pt' next) :
    freshList [] 0 pt'.ChildNodes = true := by
  unfold addLeaf at h
  cases current with
  | none =>
    simp only [ParseOutcome.done.injEq] at h
    rw [← h.1]
    exact rootAppend_fresh roots _ hf rfl rfl
  | some cp =>
    simp only at h
    cases hc : getNode roots cp with
    | none => simp [hc] at h
    | some c =>
      simp only [hc] at h
      cases hl : linkChild roots cp
          (leafNode nodeType token (c.Position ++ [(c.ChildNodes.length : Int)])) with
      | none => simp [hl] at h
      | some r =>
        simp only [hl, ParseOutcome.done.injEq] at h
        rw [← h.1]
        exact linkChild_fresh roots r cp c
          (leafNode nodeType token (c.Position ++ [(c.ChildNodes.length : Int)])) hf hc rfl rfl hl

/-- One call of `parse` that returns without error keeps the forest fresh. -/
theorem parse_fresh (pt pt' : ParseTree) (token : Token) (current next : Option (List Nat))
    (offset : Int × Int) (hf : freshList [] 0 pt.ChildNodes = true)
    (h : pt.parse token current offset = ParseOutcome.done pt' next) :
    freshList [] 0 pt'.ChildNodes = true := by
  unfold ParseTree.parse at h
  simp only at h
  split at h
  · cases current with
    | some cp =>
      simp only at h
      cases hc : getNode pt.ChildNodes cp with
      | none => simp [hc] at h
      | some c =>
        simp only [hc] at h
        split at h
        · cases h
        · cases h
        · rename_i startPosition _
          split at h
          · cases h
          · rename_i r hl
            simp only [ParseOutcome.done.injEq] at h
            rw [← h.1]
            exact linkChild_fresh pt.ChildNodes r cp c
              (startTagNode token (c.Position ++ [(c.ChildNodes.length : Int)]) startPosition
                offset.1 (decide (token.Kind = TokenType.SelfClosingTagToken) ||
                  IsEmptyElement token.Data)) hf hc rfl rfl hl
    | none =>
      simp only at h
      split at h
      · cases h
      · cases h
      · split at h
        · simp only [ParseOutcome.done.injEq] at h
          rw [← h.1]; exact hf
        · simp only [ParseOutcome.done.injEq] at h
          rw [← h.1]
          exact rootAppend_fresh pt.ChildNodes _ hf rfl rfl
  · cases hcc : closeCurrent pt.ChildNodes token current offset with
    | none => simp [hcc] at h
    | some res =>
      obtain ⟨roots, nx⟩ := res
      have hfr := closeCurrent_fresh pt.ChildNodes roots token current nx offset hf hcc
      simp only [hcc] at h
      split at h
      · exact addLeaf_fresh pt.src roots _ token current next pt' hfr h
      · split at h
        · exact addLeaf_fresh pt.src roots _ token current next pt' hfr h
        · simp only [ParseOutcome.done.injEq] at h
          rw [← h.1]; exact hfr

theorem parseLoop_fresh : ∀ (tokens : List (Token × (Int × Int))) (pt pt' : ParseTree)
    (current next : Option (List Nat)), freshList [] 0 pt.ChildNodes = true →
      parseLoop pt current tokens = ParseOutcome.done pt' next →
      freshList [] 0 pt'.ChildNodes = true
  | [], pt, pt', current, next, hf, h => by
    simp only [parseLoop, ParseOutcome.done.injEq] at h
    rw [← h.1]; exact hf
  | (token, offset) :: rest, pt, pt', current, next, hf, h => by
    simp only [parseLoop] at h
    split at h
    · simp only [ParseOutcome.done.injEq] at h
      rw [← h.1]; exact hf
    · cases hp : pt.parse token current offset with
      | panic => simp [hp] at h
      | failed err => simp [hp] at h
      | done t nx =>
        simp only [hp] at h
        exact parseLoop_fresh rest t pt' nx next
          (parse_fresh pt t token current nx offset hf hp) h

theorem resolveAddress_addressOf : ∀ (p : List Nat) (roots : List DOMNode),
    resolveAddress roots (addressOf p) = getNode roots p
  | [], _ => by simp [addressOf, resolveAddress, getNode]
  | i :: r, roots => by
    rw [getNode_cons]
    simp only [addressOf, List.map_cons, resolveAddress]
    have hi : goIndex roots (Int.ofNat i) = roots[i]? := by simp [goIndex]
    rw [hi]
    cases roots[i]? with
    | none => rfl
    | some n =>
      cases r with
      | nil => simp
      | cons j r' =>
        simp only [List.map_cons, reduceCtorEq, if_false]
        exact resolveAddress_addressOf (j :: r') n.ChildNodes

theorem addressOf_injective (p q : List Nat) (h : addressOf p = addressOf q) : p = q := by
  unfold addressOf at h
  exact List.map_injective_iff.2 (fun a b hab => Int.ofNat.inj hab) h

/-- C14: in the tree that `NewParseTree` returns for any token stream, the
address of every node reachable from the root list resolves to that node: its
length is the length of the path to the node (depth plus one), its last
component is the index of the node in the child list that holds it, its
prefix is the address of the parent, and no other path reaches a node with the
same address. -/
theorem C14_addresses_resolve (src : List Nat) (tokens : List (Token × (Int × Int)))
    (pt : ParseTree) (h : NewParseTree src tokens = some (Except.ok pt)) (p : List Nat)
    (n : DOMNode) (hn : getNode pt.ChildNodes p = some n) :
    resolveAddress pt.ChildNodes n.Position = some n ∧
    n.Position.length = p.length ∧
    (∀ (q : List Nat) (j : Nat), p = q ++ [j] →
      n.Position.getLast? = some (j : Int) ∧
      (childrenAt pt.ChildNodes q).bind (fun cs => cs[j]?) = some n ∧
      ∀ parent, getNode pt.ChildNodes q = some parent →
        n.Position.dropLast = parent.Position) ∧
    (∀ q m, getNode pt.ChildNodes q = some m → m.Position = n.Position → q = p) := by
  have hfresh : freshList [] 0 pt.ChildNodes = true := by
    unfold NewParseTree at h
    cases hl : parseLoop ⟨src, []⟩ none tokens with
    | panic => simp [hl] at h
    | failed err => simp [hl] at h
    | done t nx =>
      simp only [hl, Option.some.injEq, Except.ok.injEq] at h
      subst h
      exact parseLoop_fresh tokens ⟨src, []⟩ t none nx rfl hl
  have hpos := fresh_getNode_Position pt.ChildNodes p n hfresh hn
  refine ⟨?_, ?_, ?_, ?_⟩
  · rw [hpos, resolveAddress_addressOf, hn]
  · rw [hpos]; simp [addressOf]
  · intro q j hpq
    subst hpq
    rw [hpos, addressOf_snoc]
    refine ⟨by simp, ?_, ?_⟩
    · rw [getNode_snoc] at hn
      cases hc : childrenAt pt.ChildNodes q with
      | none => simp [hc] at hn
      | some cs => simpa [hc] using hn
    · intro parent hparent
      rw [fresh_getNode_Position pt.ChildNodes q parent hfresh hparent]
      simp
  · intro q m hm heq
    rw [hpos, fresh_getNode_Position pt.ChildNodes q m hfresh hm] at heq
    exact addressOf_injective q p heq

/-- Witness of C14: the text node of `<p>a</p>` has the address `[0, 0]`. -/
theorem C14_addresses_resolve_witness :
    NewParseTree srcPA tokensPA = some (Except.ok treePA) ∧
    getNode treePA.ChildNodes [0, 0] = some textA ∧
    resolveAddress treePA.ChildNodes textA.Position = some textA ∧
    textA.Position.length = [0, 0].length ∧
    (∀ (q : List Nat) (j : Nat), [0, 0] = q ++ [j] →
      textA.Position.getLast? = some (j : Int) ∧
      (childrenAt treePA.ChildNodes q).bind (fun cs => cs[j]?) = some textA ∧
      ∀ parent, getNode treePA.ChildNodes q = some parent →
        textA.Position.dropLast = parent.Position) ∧
    (∀ q m, getNode treePA.ChildNodes q = some m → m.Position = textA.Position → q = [0, 0]) :=
  ⟨rfl, rfl, C14_addresses_resolve srcPA tokensPA treePA rfl [0, 0] textA rfl⟩

theorem ReverseFind_not_found (pt : ParseTree) (m n : Int) (b : Nat) (hm : 0 ≤ m)
    (hmn : m ≤ n) (hn : n < pt.src.length)
    (hno : ∀ j, m ≤ j → j ≤ n → goIndex pt.src j ≠ some b) :
    pt.ReverseFind m n b = some (-1, none) := by
  obtain ⟨r, hr, hcase⟩ := ReverseFind_valid pt m n b hm hmn hn
  rcases hcase with ⟨h1, h2, h3, -⟩ | ⟨h1, -⟩
  · exact absurd h3 (hno r h1 h2)
  · rw [hr, h1]

/-- C11 (amended): when the window `[m, n]` is valid and holds no `<`,
`ReverseFind(m, n, '<')` returns `-1` without an error; and `parse` of a start
tag or self-closing tag whose window is `[0, offset[0] - 1]` then does not
fail: it links the new element with the start position `-1` under `current`,
or, for a start tag that names no empty element met with a nil `current`,
appends it to the root list. -/
theorem C11_scan_without_match (pt : ParseTree) (m n : Int) (hm : 0 ≤ m) (hmn : m ≤ n)
    (hn : n < pt.src.length) (hno : ∀ j, m ≤ j → j ≤ n → goIndex pt.src j ≠ some 60) :
    pt.ReverseFind m n 60 = some (-1, none) ∧
    (m = 0 → ∀ (token : Token) (offset : Int × Int), offset.1 - 1 = n →
      (token.Kind = TokenType.StartTagToken ∨ token.Kind = TokenType.SelfClosingTagToken) →
      (∀ current err, pt.parse token current offset ≠ ParseOutcome.failed err) ∧
      (∀ cp c, getNode pt.ChildNodes cp = some c →
        ∃ roots,
          pt.parse token (some cp) offset
            = ParseOutcome.done ⟨pt.src, roots⟩
                (if (decide (token.Kind = TokenType.SelfClosingTagToken) ||
                    IsEmptyElement token.Data) = true then some cp
                  else some (cp ++ [c.ChildNodes.length])) ∧
          linkChild pt.ChildNodes cp
            (startTagNode token (c.Position ++ [(c.ChildNodes.length : Int)]) (-1) offset.1
              (decide (token.Kind = TokenType.SelfClosingTagToken) || IsEmptyElement token.Data))
            = some roots) ∧
      (token.Kind = TokenType.StartTagToken → IsEmptyElement token.Data = false →
        pt.parse token none offset
          = ParseOutcome.done
              ⟨pt.src, pt.ChildNodes ++
                [startTagNode token [(pt.ChildNodes.length : Int)] (-1) offset.1 false]⟩
              (some [pt.ChildNodes.length]))) := by
  have hrf := ReverseFind_not_found pt m n 60 hm hmn hn hno
  refine ⟨hrf, ?_⟩
  intro hm0 token offset hoff hk
  subst hm0
  rw [← hoff] at hrf
  refine ⟨?_, ?_, ?_⟩
  · intro current err
    unfold ParseTree.parse
    simp only [hk, if_true, hrf]
    cases current with
    | none =>
      simp only
      split <;> simp
    | some cp =>
      simp only
      cases hc : getNode pt.ChildNodes cp with
      | none => simp
      | some c =>
        simp only
        split <;> simp
  · intro cp c hc
    obtain ⟨roots, hroots⟩ := updateNode_isSome
      (fun x => x.withChildNodes (x.ChildNodes ++
        [startTagNode token (c.Position ++ [(c.ChildNodes.length : Int)]) (-1) offset.1
          (decide (token.Kind = TokenType.SelfClosingTagToken) || IsEmptyElement token.Data)]))
      cp pt.ChildNodes c hc
    refine ⟨roots, ?_, hroots⟩
    unfold ParseTree.parse
    simp only [hk, if_true, hrf, hc]
    unfold linkChild
    rw [hroots]
  · intro hstart hvoid
    unfold ParseTree.parse
    simp [hstart, hrf, hvoid]

/-- Witness of C11 (amended): the window `[0, 1]` of the buffer `x>`. -/
theorem C11_scan_without_match_witness :
    (ParseTree.mk [120, 62] []).ReverseFind 0 1 60 = some (-1, none) ∧
    ((0 : Int) = 0 → ∀ (token : Token) (offset : Int × Int), offset.1 - 1 = 1 →
      (token.Kind = TokenType.StartTagToken ∨ token.Kind = TokenType.SelfClosingTagToken) →
      (∀ current err,
        (ParseTree.mk [120, 62] []).parse token current offset ≠ ParseOutcome.failed err) ∧
      (∀ cp c, getNode (ParseTree.mk [120, 62] []).ChildNodes cp = some c →
        ∃ roots,
          (ParseTree.mk [120, 62] []).parse token (some cp) offset
            = ParseOutcome.done ⟨(ParseTree.mk [120, 62] []).src, roots⟩
                (if (decide (token.Kind = TokenType.SelfClosingTagToken) ||
                    IsEmptyElement token.Data) = true then some cp
                  else some (cp ++ [c.ChildNodes.length])) ∧
          linkChild (ParseTree.mk [120, 62] []).ChildNodes cp
            (startTagNode token (c.Position ++ [(c.ChildNodes.length : Int)]) (-1) offset.1
              (decide (token.Kind = TokenType.SelfClosingTagToken) || IsEmptyElement token.Data))
            = some roots) ∧
      (token.Kind = TokenType.StartTagToken → IsEmptyElement token.Data = false →
        (ParseTree.mk [120, 62] []).parse token none offset
          = ParseOutcome.done
              ⟨(ParseTree.mk [120, 62] []).src, (ParseTree.mk [120, 62] []).ChildNodes ++
                [startTagNode token [((ParseTree.mk [120, 62] []).ChildNodes.length : Int)] (-1)
                  offset.1 false]⟩
              (some [(ParseTree.mk [120, 62] []).ChildNodes.length]))) :=
  C11_scan_without_match (ParseTree.mk [120, 62] []) 0 1 (by decide) (by decide) (by decide)
    (by intro j h0 h1; interval_cases j <;> decide)

end Reconcile
